import Mathlib

/-!
# gostl `ds/deque`: shallow embedding

The Go type `Deque` of `ds/deque/deque.go` is a circular directory `Segs` of
pointers to fixed-capacity segments, two directory cursors `BeginFi`, `EndFi`
and the element count `SizeFi`.  Every method of the Go type is translated to
a function on an explicit state.  A method that mutates its receiver returns
the new state.  A Go run-time panic is an `Except.error`.

`segment.go` and `pool.go` are not among the sources: `Segment` and `Pool`
are modelled from the prose specification and are marked as such.
-/

namespace Gostl

/-- The ways in which an execution can abort. -/
inductive Fault where
  /-- a method is called through a nil `*Segment` -/
  | nilSegment
  /-- the directory slice is indexed outside `[0, len)` -/
  | indexOutOfRange
  /-- `% cap(d.Segs)` is evaluated while the directory has capacity zero -/
  | divideByZero
  /-- a `Segment` operation is called outside the contract the specification gives it -/
  | segmentContract
  deriving DecidableEq, Repr

/-- The result of running a piece of Go code: a value or a fault. -/
abbrev Res (α : Type) := Except Fault α

deriving instance DecidableEq for Except

/-- Go: `const SegmentCapacity = 128`. -/
def SegmentCapacity : Nat := 128

/-- Go: `var ErrOutOffRange = errors.New("out off range")`, the only error value of the package. -/
inductive Error where
  | ErrOutOffRange
  deriving DecidableEq, Repr

/-- Modelled from the spec: the `Segment` type (its source file is absent).  The
specification describes a fixed-capacity, gap-free ordered buffer; only the run of live
elements, front to back, is observable, so a segment is that run. -/
structure Segment (V : Type) where
  elems : List V
  deriving DecidableEq, Repr

/-- Modelled from the spec: the segment `Pool` (its source file is absent), a free list of
emptied segments.  All pooled segments are empty, so the pool is their number. -/
structure Pool where
  idle : Nat
  deriving DecidableEq, Repr

/-- Go: `type Deque struct { Pool; Segs; BeginFi; EndFi; SizeFi }`.  `Segs` is only ever
built by `make([]*Segment, n)`, so `len(d.Segs) = cap(d.Segs) = Segs.length`; a nil slot is
`none`.  The three integer fields are only assigned `0`, `segUsed()`, a `nextIndex` or
`preIndex` result, or incremented; `SizeFi` is decremented only behind a guard that makes it
positive.  They are never negative and are natural numbers here. -/
structure Deque (V : Type) where
  Pool : Pool
  Segs : List (Option (Segment V))
  BeginFi : Nat
  EndFi : Nat
  SizeFi : Nat
  deriving DecidableEq, Repr

variable {V : Type}

namespace Segment

/-- Modelled from the spec: `size() -> int`, the number of live elements. -/
def size (s : Segment V) : Nat := s.elems.length

/-- Modelled from the spec: `empty() -> bool`. -/
def empty (s : Segment V) : Bool := s.elems.length == 0

/-- Modelled from the spec: `full() -> bool`, `count` has reached the capacity. -/
def full (s : Segment V) : Bool := s.elems.length == SegmentCapacity

/-- Modelled from the spec: `pushFront(v)`; "fails silently to no-op" on a full segment. -/
def pushFront (s : Segment V) (v : V) : Segment V :=
  if s.full then s else ⟨v :: s.elems⟩

/-- Modelled from the spec: `pushBack(v)`; "fails silently to no-op" on a full segment. -/
def pushBack (s : Segment V) (v : V) : Segment V :=
  if s.full then s else ⟨s.elems ++ [v]⟩

/-- Modelled from the spec: `popFront() -> v`.  The specification gives no result for an
empty segment; that call is outside the contract. -/
def popFront (s : Segment V) : Res (V × Segment V) :=
  match s.elems with
  | [] => .error .segmentContract
  | x :: xs => .ok (x, ⟨xs⟩)

/-- Modelled from the spec: `popBack() -> v`, outside the contract on an empty segment. -/
def popBack (s : Segment V) : Res (V × Segment V) :=
  match s.elems.getLast? with
  | none => .error .segmentContract
  | some x => .ok (x, ⟨s.elems.dropLast⟩)

/-- Modelled from the spec: `at(i) -> v`, which requires `0 ≤ i < count`. -/
def «at» (s : Segment V) (i : Nat) : Res V :=
  match s.elems[i]? with
  | some v => .ok v
  | none => .error .segmentContract

/-- Modelled from the spec: `set(i, v)`, which requires `0 ≤ i < count`. -/
def set (s : Segment V) (i : Nat) (v : V) : Res (Segment V) :=
  if i < s.elems.length then .ok ⟨s.elems.set i v⟩ else .error .segmentContract

/-- Modelled from the spec: `insert(i, v)`, which requires `0 ≤ i ≤ count`; the in-place
shift makes `v` the element of index `i`. -/
def insert (s : Segment V) (i : Nat) (v : V) : Res (Segment V) :=
  if i ≤ s.elems.length then .ok ⟨s.elems.take i ++ v :: s.elems.drop i⟩
  else .error .segmentContract

/-- Modelled from the spec: `eraseAt(i)`, which requires `0 ≤ i < count`. -/
def eraseAt (s : Segment V) (i : Nat) : Res (Segment V) :=
  if i < s.elems.length then .ok ⟨s.elems.eraseIdx i⟩ else .error .segmentContract

/-- Modelled from the spec: `front()`, the first live element. -/
def front (s : Segment V) : Res V :=
  match s.elems.head? with
  | some v => .ok v
  | none => .error .segmentContract

/-- Modelled from the spec: `back()`, the last live element. -/
def back (s : Segment V) : Res V :=
  match s.elems.getLast? with
  | some v => .ok v
  | none => .error .segmentContract

end Segment

/-- Modelled from the spec: `newPool()`, a pool with no idle segment. -/
def newPool : Pool := ⟨0⟩

namespace Pool

/-- Modelled from the spec: `size()`, the number of idle segments. -/
def size (p : Pool) : Nat := p.idle

/-- Modelled from the spec: `get()` "removes and returns one Segment, or allocates a new
empty Segment if none available"; either way the result is an empty segment. -/
def get (p : Pool) : Segment V × Pool := (⟨[]⟩, ⟨p.idle - 1⟩)

/-- Modelled from the spec: `put(seg)` "clears seg and returns it to the free set". -/
def put (p : Pool) : Pool := ⟨p.idle + 1⟩

/-- Modelled from the spec: `shrinkToSize(n)` discards the idle segments beyond `n`. -/
def shrinkToSize (p : Pool) (n : Nat) : Pool := if n < p.idle then ⟨n⟩ else p

end Pool

/-- A method call through a segment pointer: nil faults. -/
def deref : Option (Segment V) → Res (Segment V)
  | some s => .ok s
  | none => .error .nilSegment

namespace Deque

/-- Go: `New()`. -/
def New : Deque V := { Pool := newPool, Segs := [], BeginFi := 0, EndFi := 0, SizeFi := 0 }

/-- Go: `Size()`. -/
def Size (d : Deque V) : Nat := d.SizeFi

/-- Go: `Empty()`. -/
def Empty (d : Deque V) : Bool := d.SizeFi == 0

/-- Go: `segUsed()`. -/
def segUsed (d : Deque V) : Nat :=
  if d.SizeFi = 0 then 0
  else if d.EndFi > d.BeginFi then d.EndFi - d.BeginFi
  else d.Segs.length - d.BeginFi + d.EndFi

/-- Go: the slice read `d.Segs[i]`. -/
def slot (d : Deque V) (i : Nat) : Res (Option (Segment V)) :=
  match d.Segs[i]? with
  | some x => .ok x
  | none => .error .indexOutOfRange

/-- Go: the slice write `d.Segs[i] = x`. -/
def setSlot (d : Deque V) (i : Nat) (x : Option (Segment V)) : Res (Deque V) :=
  if i < d.Segs.length then .ok { d with Segs := d.Segs.set i x } else .error .indexOutOfRange

/-- The effect on the state of a mutating method called through the pointer held in
directory slot `i`, whose segment becomes `s`.  Distinct slots never hold the same pointer:
a segment enters the directory from `Pool.get` only, and `expand` and `shrinkIfNeeded` copy
pairwise distinct slots. -/
def mutate (d : Deque V) (i : Nat) (s : Segment V) : Deque V :=
  { d with Segs := d.Segs.set i (some s) }

/-- Go: `nextIndex(index)`, `(index + 1) % cap(d.Segs)`. -/
def nextIndex (d : Deque V) (index : Nat) : Res Nat :=
  if d.Segs.length = 0 then .error .divideByZero else .ok ((index + 1) % d.Segs.length)

/-- Go: `preIndex(index)`, `(index - 1 + cap(d.Segs)) % cap(d.Segs)`.  With `index ≥ 0` and
a positive capacity the dividend is not negative. -/
def preIndex (d : Deque V) (index : Nat) : Res Nat :=
  if d.Segs.length = 0 then .error .divideByZero
  else .ok ((index + d.Segs.length - 1) % d.Segs.length)

/-- Go: `firstSegment()`. -/
def firstSegment (d : Deque V) : Res (Option (Segment V)) :=
  if d.Segs.length = 0 then .ok none else d.slot d.BeginFi

/-- Go: `lastSegment()`. -/
def lastSegment (d : Deque V) : Res (Option (Segment V)) :=
  if d.Segs.length = 0 then .ok none else do
    let i ← d.preIndex d.EndFi
    d.slot i

/-- The index expression of `segmentAt`: `(seg + d.BeginFi) % cap(d.Segs)` with Go's
truncated remainder; a negative index is out of range. -/
def segIndex (d : Deque V) (seg : Int) : Res Nat :=
  if d.Segs.length = 0 then .error .divideByZero
  else
    let r := Int.tmod (seg + d.BeginFi) d.Segs.length
    if r < 0 then .error .indexOutOfRange else .ok r.toNat

/-- Go: `segmentAt(seg)`. -/
def segmentAt (d : Deque V) (seg : Int) : Res (Option (Segment V)) := do
  let i ← d.segIndex seg
  d.slot i

/-- Go: `pos(position)`.  Every caller passes `position ≥ 0`.  The test
`position <= size - 1` is written `position + 1 ≤ size`. -/
def pos (d : Deque V) (position : Nat) : Res (Nat × Nat) := do
  let fs ← deref (← d.firstSegment)
  if position + 1 ≤ fs.size then
    pure (0, position)
  else
    let p := position - fs.size
    pure (p / SegmentCapacity + 1, p % SegmentCapacity)

/-- The copy loop of `expand` and `shrinkIfNeeded`: `seg[i] = d.Segs[(b + i) % m]` for
`i < n`. -/
def copySlots (d : Deque V) (b m : Nat) : Nat → Res (List (Option (Segment V)))
  | 0 => pure []
  | n + 1 => do
    let front ← copySlots d b m n
    let x ← d.slot ((b + n) % m)
    pure (front ++ [x])

/-- Go: `expand()`.  Inside the copy loop `segUsed()` is positive, so its `%` cannot
fault; the new slice has room for the copies because `segUsed() ≤ newCapacity`. -/
def expand (d : Deque V) : Res (Deque V) := do
  let newCapacity := if d.segUsed * 2 = 0 then 1 else d.segUsed * 2
  let seg ← copySlots d d.BeginFi d.segUsed d.segUsed
  pure { d with BeginFi := 0, EndFi := d.segUsed,
                Segs := seg ++ List.replicate (newCapacity - d.segUsed) none }

/-- Go: `shrinkIfNeeded()`.  `int(float64(n) * 1.2)` with `n = segUsed() * 2` is
`n * 6 / 5`: the product is a multiple of `0.2`, and the rounding error of the binary
`1.2` is below half a unit in the last place.  The write `seg[i]` faults when `i` reaches
the new capacity. -/
def shrinkIfNeeded (d : Deque V) : Res (Deque V) :=
  if d.segUsed * 2 * 6 / 5 < d.Segs.length then do
    let newCapacity := d.Segs.length / 2
    if newCapacity < d.segUsed then throw .indexOutOfRange
    let seg ← copySlots d d.BeginFi d.Segs.length d.segUsed
    pure { d with BeginFi := 0, EndFi := d.segUsed,
                  Segs := seg ++ List.replicate (newCapacity - d.segUsed) none }
  else pure d

/-- Go: `putToPool(s)`.  Every call site clears the directory slot of `s` in its next
statement, so only the pool changes. -/
def putToPool (d : Deque V) : Deque V :=
  let p := d.Pool.put
  { d with Pool := if p.size * 6 / 5 > d.segUsed then p.shrinkToSize (d.segUsed / 5) else p }

/-- The test `s != nil && !s.full()` of the two `AvailableSegment` functions. -/
def isAvailable : Option (Segment V) → Bool
  | some s => !s.full
  | none => false

/-- Go: the statement `if d.segUsed() >= len(d.Segs) { d.expand() }`. -/
def expandIfFull (d : Deque V) : Res (Deque V) :=
  if d.segUsed ≥ d.Segs.length then d.expand else pure d

/-- Go: `firstAvailableSegment()`; the result is the state and the directory slot of the
returned segment. -/
def firstAvailableSegment (d : Deque V) : Res (Deque V × Nat) := do
  if isAvailable (← d.firstSegment) then
    pure (d, d.BeginFi)
  else
    let d ← d.expandIfFull
    if isAvailable (← d.firstSegment) then
      pure (d, d.BeginFi)
    else
      let b ← d.preIndex d.BeginFi
      let d ← ({ d with BeginFi := b, Pool := (d.Pool.get (V := V)).2 }).setSlot b
        (some (d.Pool.get).1)
      pure (d, b)

/-- Go: `lastAvailableSegment()`; the result is the state and the directory slot of the
returned segment. -/
def lastAvailableSegment (d : Deque V) : Res (Deque V × Nat) := do
  if isAvailable (← d.lastSegment) then
    pure (d, ← d.preIndex d.EndFi)
  else
    let d ← d.expandIfFull
    if isAvailable (← d.lastSegment) then
      pure (d, ← d.preIndex d.EndFi)
    else
      let e := d.EndFi
      let d ← ({ d with Pool := (d.Pool.get (V := V)).2 }).setSlot e (some (d.Pool.get).1)
      let e' ← d.nextIndex e
      pure ({ d with EndFi := e' }, e)

/-- Go: `PushFront(value)`. -/
def PushFront (d : Deque V) (value : V) : Res (Deque V) := do
  let r ← d.firstAvailableSegment
  let s ← deref (← r.1.slot r.2)
  let d := r.1.mutate r.2 (s.pushFront value)
  expandIfFull { d with SizeFi := d.SizeFi + 1 }

/-- Go: `PushBack(value)`. -/
def PushBack (d : Deque V) (value : V) : Res (Deque V) := do
  let r ← d.lastAvailableSegment
  let s ← deref (← r.1.slot r.2)
  let d := r.1.mutate r.2 (s.pushBack value)
  expandIfFull { d with SizeFi := d.SizeFi + 1 }

/-- Go: `cur := d.segmentAt(i); next := d.segmentAt(i + 1); cur.pushBack(next.popFront())`. -/
def shiftFront (d : Deque V) (i : Int) : Res (Deque V) := do
  let ci ← d.segIndex i
  let ni ← d.segIndex (i + 1)
  let next ← deref (← d.slot ni)
  let r ← next.popFront
  let d := d.mutate ni r.2
  let cur ← deref (← d.slot ci)
  pure (d.mutate ci (cur.pushBack r.1))

/-- Go: `cur := d.segmentAt(i); pre := d.segmentAt(i - 1); cur.pushFront(pre.popBack())`. -/
def shiftBack (d : Deque V) (i : Int) : Res (Deque V) := do
  let ci ← d.segIndex i
  let pi ← d.segIndex (i - 1)
  let pre ← deref (← d.slot pi)
  let r ← pre.popBack
  let d := d.mutate pi r.2
  let cur ← deref (← d.slot ci)
  pure (d.mutate ci (cur.pushFront r.1))

/-- An ascending loop `for i := start; ...; i++ { shiftFront }` of `n` iterations. -/
def shiftFrontLoop : Nat → Deque V → Int → Res (Deque V)
  | 0, d, _ => pure d
  | n + 1, d, i => do
    let d ← d.shiftFront i
    shiftFrontLoop n d (i + 1)

/-- A descending loop `for i := start; ...; i-- { shiftBack }` of `n` iterations. -/
def shiftBackLoop : Nat → Deque V → Int → Res (Deque V)
  | 0, d, _ => pure d
  | n + 1, d, i => do
    let d ← d.shiftBack i
    shiftBackLoop n d (i - 1)

/-- Go: `d.segmentAt(seg).insert(pos, value)`. -/
def insertAt (d : Deque V) (seg : Int) (pos : Nat) (value : V) : Res (Deque V) := do
  let i ← d.segIndex seg
  let s ← deref (← d.slot i)
  let s ← s.insert pos value
  pure (d.mutate i s)

/-- Go: the tail of `moveFrontInsert`, the loop `for i := 0; i < seg; i++` and the final
insert, for the rewritten `seg` and `pos`. -/
def frontShiftInsert (d : Deque V) (seg : Int) (pos : Nat) (value : V) : Res (Deque V) := do
  let d ← shiftFrontLoop seg.toNat d 0
  d.insertAt seg pos value

/-- Go: `moveFrontInsert(seg, pos, value)`.  `seg--` can leave `seg` negative, so the
rewritten `seg` is an integer. -/
def moveFrontInsert (d : Deque V) (seg pos : Nat) (value : V) : Res (Deque V) := do
  let fs ← deref (← d.firstSegment)
  if fs.full then
    let d ← d.expandIfFull
    let b ← d.preIndex d.BeginFi
    let d ← ({ d with BeginFi := b, Pool := (d.Pool.get (V := V)).2 }).setSlot b
      (some (d.Pool.get).1)
    if pos = 0 then
      d.frontShiftInsert seg (SegmentCapacity - 1) value
    else
      d.frontShiftInsert ((seg : Int) + 1) (pos - 1) value
  else
    if pos = 0 then
      d.frontShiftInsert ((seg : Int) - 1) (SegmentCapacity - 1) value
    else if seg ≠ 0 then
      d.frontShiftInsert seg (pos - 1) value
    else
      d.frontShiftInsert seg pos value

/-- Go: `moveBackInsert(seg, pos, value)`.  The loop `for i := d.segUsed() - 1; i > seg; i--`
runs `segUsed() - 1 - seg` times. -/
def moveBackInsert (d : Deque V) (seg pos : Nat) (value : V) : Res (Deque V) := do
  let ls ← deref (← d.lastSegment)
  let d ← if ls.full then do
      let d ← d.expandIfFull
      let d' ← ({ d with Pool := (d.Pool.get (V := V)).2 }).setSlot d.EndFi (some (d.Pool.get).1)
      let e ← d'.nextIndex d'.EndFi
      pure { d' with EndFi := e }
    else pure d
  let d ← shiftBackLoop (d.segUsed - 1 - seg) d ((d.segUsed : Int) - 1)
  d.insertAt seg pos value

/-- Go: `Insert(pos, value)`. -/
def Insert (d : Deque V) (pos : Int) (value : V) : Res (Deque V) :=
  if pos < 0 ∨ pos > d.SizeFi then pure d
  else if pos = 0 then d.PushFront value
  else if pos = d.SizeFi then d.PushBack value
  else do
    let r ← d.pos pos.toNat
    let d ← if (r.1 : Int) < (d.segUsed : Int) - r.1 then d.moveFrontInsert r.1 r.2 value
            else d.moveBackInsert r.1 r.2 value
    expandIfFull { d with SizeFi := d.SizeFi + 1 }

/-- Go: `Front()`. -/
def Front (d : Deque V) : Res V := do
  let s ← deref (← d.firstSegment)
  s.front

/-- Go: `Back()`. -/
def Back (d : Deque V) : Res V := do
  let s ← deref (← d.lastSegment)
  s.back

/-- Go: `At(pos)`; the nil result is `default`. -/
def At [Inhabited V] (d : Deque V) (pos : Int) : Res V :=
  if pos < 0 ∨ pos ≥ d.Size then pure default
  else do
    let r ← d.pos pos.toNat
    let s ← deref (← d.segmentAt r.1)
    s.at r.2

/-- Go: `Set(pos, val)`; the result is the state and the returned error (`none` is nil). -/
def Set (d : Deque V) (pos : Int) (val : V) : Res (Deque V × Option Error) :=
  if pos < 0 ∨ pos ≥ d.SizeFi then pure (d, some .ErrOutOffRange)
  else do
    let r ← d.pos pos.toNat
    let i ← d.segIndex r.1
    let s ← deref (← d.slot i)
    let s ← s.set r.2 val
    pure (d.mutate i s, none)

/-- Go: `PopFront()`; the result is the returned value (nil is `default`) and the state. -/
def PopFront [Inhabited V] (d : Deque V) : Res (V × Deque V) :=
  if d.SizeFi = 0 then pure (default, d)
  else do
    let s ← deref (← d.slot d.BeginFi)
    let r ← s.popFront
    let d := d.mutate d.BeginFi r.2
    let d ← if r.2.size = 0 then do
        let d' ← d.putToPool.setSlot d.BeginFi none
        let b ← d'.nextIndex d'.BeginFi
        pure { d' with BeginFi := b }
      else pure d
    let d ← shrinkIfNeeded { d with SizeFi := d.SizeFi - 1 }
    pure (r.1, d)

/-- Go: `PopBack()`; the result is the returned value (nil is `default`) and the state. -/
def PopBack [Inhabited V] (d : Deque V) : Res (V × Deque V) :=
  if d.SizeFi = 0 then pure (default, d)
  else do
    let seg ← d.preIndex d.EndFi
    let s ← deref (← d.slot seg)
    let r ← s.popBack
    let d := d.mutate seg r.2
    let d ← if r.2.size = 0 then do
        let d' ← d.putToPool.setSlot seg none
        pure { d' with EndFi := seg }
      else pure d
    let d ← shrinkIfNeeded { d with SizeFi := d.SizeFi - 1 }
    pure (r.1, d)

/-- Go: `d.segmentAt(seg).eraseAt(pos)`. -/
def eraseInSegment (d : Deque V) (seg : Int) (pos : Nat) : Res (Deque V) := do
  let i ← d.segIndex seg
  let s ← deref (← d.slot i)
  let s ← s.eraseAt pos
  pure (d.mutate i s)

/-- Go: `EraseAt(pos)`.  The loop `for i := seg; i > 0; i--` runs `seg` times and the loop
`for i := seg; i < d.segUsed()-1; i++` runs `segUsed() - 1 - seg` times: its body changes
segment contents only, not `segUsed()`. -/
def EraseAt (d : Deque V) (pos : Int) : Res (Deque V) :=
  if pos < 0 ∨ pos ≥ d.SizeFi then pure d
  else do
    let r ← d.pos pos.toNat
    let d ← d.eraseInSegment r.1 r.2
    let d ← if (r.1 : Int) < (d.SizeFi : Int) - r.1 - 1 then do
        let d ← shiftBackLoop r.1 d r.1
        let fs ← deref (← d.firstSegment)
        if fs.empty then do
          let d' ← d.putToPool.setSlot d.BeginFi none
          let b ← d'.nextIndex d'.BeginFi
          shrinkIfNeeded { d' with BeginFi := b }
        else pure d
      else do
        let d ← shiftFrontLoop (d.segUsed - 1 - r.1) d r.1
        let ls ← deref (← d.lastSegment)
        if ls.empty then do
          let i ← d.preIndex d.EndFi
          let d' ← d.putToPool.setSlot i none
          let e ← d'.preIndex d'.EndFi
          shrinkIfNeeded { d' with EndFi := e }
        else pure d
    pure { d with SizeFi := d.SizeFi - 1 }

/-- Go: the loop `for pos := firstPos; pos+num < d.SizeFi; pos++ { d.Set(pos, d.At(pos+num)) }`
of `EraseRange`, `n` iterations from `pos`. -/
def copyDownLoop [Inhabited V] (num : Int) : Nat → Deque V → Int → Res (Deque V)
  | 0, d, _ => pure d
  | n + 1, d, pos => do
    let v ← d.At (pos + num)
    let r ← d.Set pos v
    copyDownLoop num n r.1 (pos + 1)

/-- Go: the loop `for pos := lastPos - 1; pos-num >= 0; pos-- { d.Set(pos, d.At(pos-num)) }`
of `EraseRange`, `n` iterations from `pos`. -/
def copyUpLoop [Inhabited V] (num : Int) : Nat → Deque V → Int → Res (Deque V)
  | 0, d, _ => pure d
  | n + 1, d, pos => do
    let v ← d.At (pos - num)
    let r ← d.Set pos v
    copyUpLoop num n r.1 (pos - 1)

/-- Go: `for ; num > 0; num-- { d.PopBack() }`. -/
def popBackLoop [Inhabited V] : Nat → Deque V → Res (Deque V)
  | 0, d => pure d
  | n + 1, d => do
    let r ← d.PopBack
    popBackLoop n r.2

/-- Go: `for ; num > 0; num-- { d.PopFront() }`. -/
def popFrontLoop [Inhabited V] : Nat → Deque V → Res (Deque V)
  | 0, d => pure d
  | n + 1, d => do
    let r ← d.PopFront
    popFrontLoop n r.2

/-- Go: `EraseRange(firstPos, lastPos)`.  Behind the guard the first copy loop runs
`SizeFi - lastPos` times (`pos` from `firstPos` while `pos + num < SizeFi`) and the second
`firstPos` times (`pos` from `lastPos - 1` while `pos - num ≥ 0`); `Set` keeps `SizeFi`. -/
def EraseRange [Inhabited V] (d : Deque V) (firstPos lastPos : Int) : Res (Deque V) :=
  if firstPos < 0 ∨ firstPos ≥ lastPos ∨ lastPos > d.SizeFi then pure d
  else
    let num := lastPos - firstPos
    if (d.SizeFi : Int) - firstPos < lastPos then do
      let d ← copyDownLoop num (d.SizeFi - lastPos.toNat) d firstPos
      popBackLoop num.toNat d
    else do
      let d ← copyUpLoop num firstPos.toNat d (lastPos - 1)
      popFrontLoop num.toNat d

/-- Go: `Clear()`. -/
def Clear [Inhabited V] (d : Deque V) : Res (Deque V) := d.EraseRange 0 d.SizeFi

/-- The element sequence of a deque: the elements of the segments in use, concatenated in
directory order from `BeginFi`. -/
def toList (d : Deque V) : List V :=
  (List.range d.segUsed).flatMap fun i =>
    match d.Segs[(d.BeginFi + i) % d.Segs.length]? with
    | some (some s) => s.elems
    | _ => []

/-- Go: the loop of `String()`, `n` iterations from index `i`; `render` is
`fmt.Sprintf("%v", ·)`. -/
def stringLoop [Inhabited V] (render : V → String) (d : Deque V) :
    Nat → Int → String → Res String
  | 0, _, str => pure str
  | n + 1, i, str => do
    let str := if str ≠ "[" then str ++ " " else str
    let v ← d.At i
    stringLoop render d n (i + 1) (str ++ render v)

/-- Go: `String()`.  The loop `for i := 0; i < d.Size(); i++` runs `Size()` times: its body
leaves the deque as it is. -/
def String [Inhabited V] (render : V → String) (d : Deque V) : Res String := do
  let str ← stringLoop render d d.Size 0 "["
  pure (str ++ "]")

end Deque

open Deque

/-- The directory `S` with cursors `b`, `e` holds exactly the segments `segs`, in order, in
the slots `b, b+1, ...` taken circularly, and nil everywhere else. -/
structure LayT (S : List (Option (Segment V))) (b e : Nat) (segs : List (List V)) : Prop where
  cap_pos : 0 < S.length
  begin_lt : b < S.length
  used_le : segs.length ≤ S.length
  end_eq : e = (b + segs.length) % S.length
  slots : ∀ i, i < S.length → S[(b + i) % S.length]? = some ((segs[i]?).map Segment.mk)

/-- The directory of the state `d` holds the segments `segs`. -/
abbrev Lay (d : Deque V) (segs : List (List V)) : Prop :=
  LayT d.Segs d.BeginFi d.EndFi segs

/-- The segment sizes the positional resolution `pos` relies on: no segment in use is empty
or over capacity, and all but the first and the last hold exactly `SegmentCapacity`. -/
def Shape (lens : List Nat) : Prop :=
  (∀ x ∈ lens, 1 ≤ x ∧ x ≤ 128) ∧ ∀ x ∈ lens.tail.dropLast, x = 128

/-- The representation invariant: the directory holds `segs`, has a free slot and a capacity
that is a power of two, `SizeFi` counts the elements and the segment sizes are regular. -/
structure Inv (d : Deque V) (segs : List (List V)) : Prop where
  lay : Lay d segs
  strict : segs.length < d.Segs.length
  pow2 : ∃ k, d.Segs.length = 2 ^ k
  size : d.SizeFi = segs.flatten.length
  shape : Shape (segs.map List.length)

/-- The state of a deque whose directory has capacity zero: only `New()` and what the
read-only and rejected calls leave of it. -/
def ZeroCap (d : Deque V) : Prop :=
  d.Segs = [] ∧ d.BeginFi = 0 ∧ d.EndFi = 0 ∧ d.SizeFi = 0

/-- The abstraction relation: the state `d` is well formed and its element sequence is `L`. -/
def Valid (d : Deque V) (L : List V) : Prop :=
  (ZeroCap d ∧ L = []) ∨ ∃ segs, Inv d segs ∧ segs.flatten = L

/-- The result of inserting `v` before position `p` of `l`. -/
def ins (p : Nat) (v : V) (l : List V) : List V := l.take p ++ v :: l.drop p

/-- The inputs on which `moveFrontInsert` rewrites the offset to `SegmentCapacity - 1` for a
first segment that holds fewer than `SegmentCapacity - 1` elements. -/
def FrontBug (P : List (List V)) (o : Nat) : Prop :=
  P.length = 1 ∧ o = 0 ∧ P.flatten.length < 127

/-- The arguments on which `Insert` reaches the `Segment.insert` call beyond the count: at
least three segments in use, and a position below `SegmentCapacity - 1` that resolves to the
start of the second segment. -/
def InsertDefect (d : Deque V) (p : Nat) : Prop :=
  3 ≤ d.segUsed ∧ p < 127 ∧ d.pos p = .ok (1, 0)

/-- One call of a public mutating method. -/
inductive Op (V : Type) where
  | pushFront (v : V)
  | pushBack (v : V)
  | insert (pos : Int) (v : V)
  | set (pos : Int) (v : V)
  | popFront
  | popBack
  | eraseAt (pos : Int)
  | eraseRange (first last : Int)
  | clear

/-- The state after one call; the value the call returns is dropped. -/
def step [Inhabited V] (d : Deque V) : Op V → Res (Deque V)
  | .pushFront v => d.PushFront v
  | .pushBack v => d.PushBack v
  | .insert pos v => d.Insert pos v
  | .set pos v => (d.Set pos v).map Prod.fst
  | .popFront => d.PopFront.map Prod.snd
  | .popBack => d.PopBack.map Prod.snd
  | .eraseAt pos => d.EraseAt pos
  | .eraseRange first last => d.EraseRange first last
  | .clear => d.Clear

/-- The state after a sequence of calls, the first call first. -/
def run [Inhabited V] : List (Op V) → Deque V → Res (Deque V)
  | [], d => .ok d
  | op :: ops, d => step d op >>= run ops

/-- The states a client reaches from `New()` through the public mutating methods (the
read-only methods leave the state as it is). -/
def Reachable [Inhabited V] (d : Deque V) : Prop := ∃ ops, run ops New = .ok d

/-- The reference deque: what one call does to a plain list. -/
def refStep (L : List V) : Op V → List V
  | .pushFront v => v :: L
  | .pushBack v => L ++ [v]
  | .insert pos v =>
    if pos < 0 ∨ pos > L.length then L else L.take pos.toNat ++ v :: L.drop pos.toNat
  | .set pos v => if pos < 0 ∨ pos ≥ L.length then L else L.set pos.toNat v
  | .popFront => L.drop 1
  | .popBack => L.dropLast
  | .eraseAt pos => if pos < 0 ∨ pos ≥ L.length then L else L.eraseIdx pos.toNat
  | .eraseRange first last =>
    if first < 0 ∨ first ≥ last ∨ last > L.length then L
    else L.take first.toNat ++ L.drop last.toNat
  | .clear => []

/-- The reference deque after a sequence of calls. -/
def refRun : List (Op V) → List V → List V
  | [], L => L
  | op :: ops, L => refRun ops (refStep L op)

/-- A call of one of the four end operations. -/
inductive EndOp (V : Type) where
  | pushFront (v : V)
  | pushBack (v : V)
  | popFront
  | popBack

/-- A sequence of end operations on the deque: the popped values in the order they come
out, and the final state. -/
def runEnds [Inhabited V] : List (EndOp V) → Deque V → Res (List V × Deque V)
  | [], d => .ok ([], d)
  | .pushFront v :: ops, d => d.PushFront v >>= runEnds ops
  | .pushBack v :: ops, d => d.PushBack v >>= runEnds ops
  | .popFront :: ops, d =>
    d.PopFront >>= fun r => (runEnds ops r.2).map fun t => (r.1 :: t.1, t.2)
  | .popBack :: ops, d =>
    d.PopBack >>= fun r => (runEnds ops r.2).map fun t => (r.1 :: t.1, t.2)

/-- The same sequence on a plain list; `none` when a pop meets the empty list. -/
def refEnds : List (EndOp V) → List V → Option (List V × List V)
  | [], L => some ([], L)
  | .pushFront v :: ops, L => refEnds ops (v :: L)
  | .pushBack v :: ops, L => refEnds ops (L ++ [v])
  | .popFront :: ops, L =>
    match L with
    | [] => none
    | x :: rest => (refEnds ops rest).map fun t => (x :: t.1, t.2)
  | .popBack :: ops, L =>
    match L.getLast? with
    | none => none
    | some y => (refEnds ops L.dropLast).map fun t => (y :: t.1, t.2)

/-- The number of pushes of a sequence of end operations. -/
def pushCount : List (EndOp V) → Nat
  | [] => 0
  | .pushFront _ :: ops => pushCount ops + 1
  | .pushBack _ :: ops => pushCount ops + 1
  | .popFront :: ops => pushCount ops
  | .popBack :: ops => pushCount ops

/-- The number of pops of a sequence of end operations. -/
def popCount : List (EndOp V) → Nat
  | [] => 0
  | .pushFront _ :: ops => popCount ops
  | .pushBack _ :: ops => popCount ops
  | .popFront :: ops => popCount ops + 1
  | .popBack :: ops => popCount ops + 1

/-- The calls `PushBack(0)`, ..., `PushBack(n - 1)`. -/
def pushBacks (n : Nat) : List (Op Nat) := (List.range n).map Op.pushBack

/-- The state a sequence of calls leaves when started on `New()`. -/
def stateAfter (ops : List (Op Nat)) : Deque Nat :=
  match run ops New with
  | .ok d => d
  | .error _ => New

/-- The deque of the example: `PushBack` of 0..8, then `Insert(4, 99)`. -/
def example1 : Deque Nat := stateAfter (pushBacks 9 ++ [Op.insert 4 99])

/-- The deque of the example after `EraseAt(0)`. -/
def example2 : Deque Nat := stateAfter (pushBacks 9 ++ [Op.insert 4 99, Op.eraseAt 0])

/-- The rendering the specification describes: the strings in order with exactly one space
between each two consecutive ones. -/
def joinSpace : List String → String
  | [] => ""
  | r :: rs => rs.foldl (fun acc x => acc ++ " " ++ x) r

/-- One iteration of the loop of `String()` on the string built so far and the rendering of
the next element. -/
def stringStep (str r : String) : String :=
  (if str ≠ "[" then str ++ " " else str) ++ r

/-- The deque after `PushBack` of 0..896 and `EraseRange(769, 897)`: a directory of 16
slots and seven segments in use, six full ones and a last one of one element. -/
def wide : Deque Nat :=
  { Pool := ⟨1⟩
    Segs := (List.range 6).map (fun i => some ⟨List.range' (128 * i) 128⟩)
      ++ [some ⟨[768]⟩] ++ List.replicate 9 none
    BeginFi := 0
    EndFi := 7
    SizeFi := 769 }

/-- The state `PopBack()` leaves. -/
def afterPopBack (d : Deque Nat) : Deque Nat :=
  match d.PopBack with
  | .ok r => r.2
  | .error _ => d

/-- The state `PopFront()` leaves. -/
def afterPopFront (d : Deque Nat) : Deque Nat :=
  match d.PopFront with
  | .ok r => r.2
  | .error _ => d

/-- The caller's re-insertion of an erased range of the sequence `s`: the calls
`Insert(a + i, s[a + i])` for `n` consecutive values of `i`, the first one given. -/
def reinsert [Inhabited V] (s : List V) (a : Nat) : Nat → Nat → Deque V → Res (Deque V)
  | 0, _, d => pure d
  | n + 1, i, d => do
    let d ← d.Insert ((a + i : Nat) : Int) (s.getD (a + i) default)
    reinsert s a n (i + 1) d

@[simp] theorem ok_bind {α β : Type} (a : α) (f : α → Res β) : (Except.ok a >>= f) = f a := rfl

@[simp] theorem error_bind {α β : Type} (e : Fault) (f : α → Res β) :
    ((Except.error e : Res α) >>= f) = Except.error e := rfl

@[simp] theorem pure_eq_ok {α : Type} (a : α) : (pure a : Res α) = Except.ok a := rfl

theorem phys_inj {n b i j : Nat} (hi : i < n) (hj : j < n)
    (h : (b + i) % n = (b + j) % n) : i = j := by
  have h1 : i % n = j % n := Nat.ModEq.add_left_cancel' b h
  rwa [Nat.mod_eq_of_lt hi, Nat.mod_eq_of_lt hj] at h1

theorem phys_succ {n b i : Nat} : ((b + i) % n + 1) % n = (b + (i + 1)) % n := by
  rw [Nat.mod_add_mod]; rfl

theorem phys_pred {n b i : Nat} (hi : 0 < i) (hn : 0 < n) :
    ((b + i) % n + n - 1) % n = (b + (i - 1)) % n := by
  have : (b + i) % n + n - 1 = (b + i) % n + (n - 1) := by omega
  rw [this, Nat.mod_add_mod]
  have : b + i + (n - 1) = b + (i - 1) + n := by omega
  rw [this, Nat.add_mod_right]

theorem phys_pred_zero {n b : Nat} (hb : b < n) :
    (b + n - 1) % n = (b + (n - 1)) % n := by
  congr 1; omega

theorem phys_shift_pred {n b i : Nat} (hn : 0 < n) :
    ((b + (n - 1)) % n + (i + 1)) % n = (b + i) % n := by
  rw [Nat.mod_add_mod]
  have : b + (n - 1) + (i + 1) = b + i + n := by omega
  rw [this, Nat.add_mod_right]

theorem phys_shift_succ {n b i : Nat} : ((b + 1) % n + i) % n = (b + (i + 1)) % n := by
  rw [Nat.mod_add_mod]; congr 1; omega

namespace LayT

variable {S : List (Option (Segment V))} {b e : Nat} {segs : List (List V)}

theorem slot_zero (h : LayT S b e segs) : S[b]? = some ((segs[0]?).map Segment.mk) := by
  have := h.slots 0 h.cap_pos
  rwa [Nat.add_zero, Nat.mod_eq_of_lt h.begin_lt] at this

theorem set_seg (h : LayT S b e segs) {i : Nat} (hi : i < segs.length) (s : List V) :
    LayT (S.set ((b + i) % S.length) (some ⟨s⟩)) b e (segs.set i s) := by
  have hn := h.cap_pos
  refine ⟨by simpa using hn, by simpa using h.begin_lt, by simpa using h.used_le,
    by simpa using h.end_eq, ?_⟩
  intro j hj
  simp only [List.length_set] at hj ⊢
  rw [List.getElem?_set]
  by_cases hij : i = j
  · subst hij
    simp [Nat.mod_lt _ hn, hi]
  · have hne : (b + i) % S.length ≠ (b + j) % S.length := fun hh =>
      hij (phys_inj (lt_of_lt_of_le hi h.used_le) hj hh)
    rw [if_neg hne, h.slots j hj, List.getElem?_set, if_neg hij]

theorem push_front_seg (h : LayT S b e segs) (hu : segs.length < S.length) (s : List V) :
    LayT (S.set ((b + S.length - 1) % S.length) (some ⟨s⟩)) ((b + S.length - 1) % S.length) e
      (s :: segs) := by
  have hn := h.cap_pos
  have hb := h.begin_lt
  rw [phys_pred_zero hb]
  refine ⟨by simpa using hn, by simpa using Nat.mod_lt _ hn, by simpa using hu, ?_, ?_⟩
  · simp only [List.length_set, List.length_cons]
    rw [phys_shift_pred hn]; exact h.end_eq
  · intro j hj
    simp only [List.length_set] at hj ⊢
    rw [List.getElem?_set]
    rcases j with _ | j
    · simp [Nat.mod_lt _ hn]
    · rw [phys_shift_pred hn]
      have hne : (b + (S.length - 1)) % S.length ≠ (b + j) % S.length := fun hh => by
        have := phys_inj (by omega) (by omega) hh
        omega
      rw [if_neg hne, h.slots j (by omega)]
      simp

theorem push_back_seg (h : LayT S b e segs) (hu : segs.length < S.length) (s : List V) :
    LayT (S.set e (some ⟨s⟩)) b ((e + 1) % S.length) (segs ++ [s]) := by
  have hn := h.cap_pos
  have he := h.end_eq
  subst he
  refine ⟨by simpa using hn, by simpa using h.begin_lt, by simpa using hu, ?_, ?_⟩
  · simp only [List.length_set, List.length_append, List.length_singleton]
    exact phys_succ
  · intro j hj
    simp only [List.length_set] at hj ⊢
    rw [List.getElem?_set]
    by_cases hij : segs.length = j
    · subst hij
      simp [Nat.mod_lt _ hn]
    · have hne : (b + segs.length) % S.length ≠ (b + j) % S.length := fun hh =>
        hij (phys_inj hu hj hh)
      rw [if_neg hne, h.slots j hj]
      rcases Nat.lt_or_gt_of_ne hij with h1 | h1
      · rw [List.getElem?_eq_none (by omega), List.getElem?_eq_none (by simp; omega)]
      · rw [List.getElem?_append_left h1]

theorem pop_front_seg {s : List V} (h : LayT S b e (s :: segs)) :
    LayT (S.set b none) ((b + 1) % S.length) e segs := by
  have hn := h.cap_pos
  have hu := h.used_le
  simp only [List.length_cons] at hu
  refine ⟨by simpa using hn, by simpa using Nat.mod_lt _ hn, by simp; omega, ?_, ?_⟩
  · simp only [List.length_set]
    rw [phys_shift_succ]; exact h.end_eq
  · intro j hj
    simp only [List.length_set] at hj ⊢
    rw [phys_shift_succ, List.getElem?_set]
    by_cases hj1 : j + 1 < S.length
    · have hne : b ≠ (b + (j + 1)) % S.length := fun hh => by
        have h0 : (b + 0) % S.length = (b + (j + 1)) % S.length := by
          rw [Nat.add_zero, Nat.mod_eq_of_lt h.begin_lt]; exact hh
        have := phys_inj hn hj1 h0
        omega
      rw [if_neg hne, h.slots (j + 1) hj1]
      simp
    · have hj2 : j + 1 = S.length := by omega
      have : (b + (j + 1)) % S.length = b := by
        rw [hj2, Nat.add_mod_right, Nat.mod_eq_of_lt h.begin_lt]
      rw [this]
      have hnone : segs[j]? = none := List.getElem?_eq_none (by omega)
      simp [h.begin_lt, hnone]

theorem pop_back_seg {s : List V} (h : LayT S b e (segs ++ [s])) :
    LayT (S.set ((e + S.length - 1) % S.length) none) b ((e + S.length - 1) % S.length) segs := by
  have hn := h.cap_pos
  have hu := h.used_le
  have he := h.end_eq
  simp only [List.length_append, List.length_singleton] at hu he
  have hpre : (e + S.length - 1) % S.length = (b + segs.length) % S.length := by
    rw [he, phys_pred (by omega) hn]; rfl
  rw [hpre]
  refine ⟨by simpa using hn, by simpa using h.begin_lt, by simp; omega, by simp, ?_⟩
  intro j hj
  simp only [List.length_set] at hj ⊢
  rw [List.getElem?_set]
  by_cases hij : segs.length = j
  · subst hij
    simp [Nat.mod_lt _ hn]
  · have hne : (b + segs.length) % S.length ≠ (b + j) % S.length := fun hh =>
      hij (phys_inj (by omega) hj hh)
    rw [if_neg hne, h.slots j hj]
    rcases Nat.lt_or_gt_of_ne hij with h1 | h1
    · have h2 : (segs ++ [s])[j]? = none := List.getElem?_eq_none (by simp; omega)
      have h3 : segs[j]? = none := List.getElem?_eq_none (by omega)
      rw [h2, h3]
    · rw [List.getElem?_append_left h1]

end LayT

theorem mod_wrap {x n : Nat} (hx : x < 2 * n) : x % n = if x < n then x else x - n := by
  split
  · exact Nat.mod_eq_of_lt ‹_›
  · rw [Nat.mod_eq_sub_mod (by omega), Nat.mod_eq_of_lt (by omega)]

theorem layT_fresh (segs : List (List V)) {c : Nat} (hc : segs.length < c) :
    LayT ((List.range segs.length).map (fun i => (segs[i]?).map Segment.mk)
      ++ List.replicate (c - segs.length) none) 0 segs.length segs := by
  have hlen : ((List.range segs.length).map (fun i => (segs[i]?).map Segment.mk)
      ++ List.replicate (c - segs.length) (none : Option (Segment V))).length = c := by
    simp; omega
  refine ⟨by omega, by omega, by omega, ?_, ?_⟩
  · rw [hlen, Nat.zero_add, Nat.mod_eq_of_lt hc]
  · intro j hj
    rw [hlen] at hj ⊢
    rw [Nat.zero_add, Nat.mod_eq_of_lt hj]
    by_cases h1 : j < segs.length
    · rw [List.getElem?_append_left (by simpa using h1)]
      simp [List.getElem?_range h1, h1]
    · rw [List.getElem?_append_right (by simpa using h1)]
      have h3 : segs[j]? = none := List.getElem?_eq_none (by omega)
      simp only [h3, List.length_map, List.length_range, List.getElem?_replicate, Option.map_none']
      rw [if_pos (by omega)]

namespace Lay

variable {d : Deque V} {segs : List (List V)}

theorem slot_phys (h : Lay d segs) {i : Nat} (hi : i < d.Segs.length) :
    d.slot ((d.BeginFi + i) % d.Segs.length) = .ok ((segs[i]?).map Segment.mk) := by
  unfold Deque.slot
  rw [h.slots i hi]

theorem slot_begin (h : Lay d segs) : d.slot d.BeginFi = .ok ((segs[0]?).map Segment.mk) := by
  unfold Deque.slot
  rw [h.slot_zero]

theorem segIndex_nat (h : Lay d segs) (i : Nat) :
    d.segIndex (i : Int) = .ok ((d.BeginFi + i) % d.Segs.length) := by
  unfold Deque.segIndex
  have hn := h.cap_pos
  rw [if_neg (by omega)]
  have : Int.tmod ((i : Int) + (d.BeginFi : Int)) (d.Segs.length : Int)
      = (((d.BeginFi + i) % d.Segs.length : Nat) : Int) := by
    rw [Nat.add_comm]; rfl
  simp only [this]
  rw [if_neg (by omega)]
  rfl

theorem firstSegment_eq (h : Lay d segs) : d.firstSegment = .ok ((segs[0]?).map Segment.mk) := by
  unfold Deque.firstSegment
  have hn := h.cap_pos
  rw [if_neg (by omega), h.slot_begin]

theorem preIndex_eq (d : Deque V) (hn : 0 < d.Segs.length) (i : Nat) :
    d.preIndex i = .ok ((i + d.Segs.length - 1) % d.Segs.length) := by
  unfold Deque.preIndex
  rw [if_neg (by omega)]

theorem nextIndex_eq (d : Deque V) (hn : 0 < d.Segs.length) (i : Nat) :
    d.nextIndex i = .ok ((i + 1) % d.Segs.length) := by
  unfold Deque.nextIndex
  rw [if_neg (by omega)]

theorem pre_end (h : Lay d segs) (hu : 0 < segs.length) :
    (d.EndFi + d.Segs.length - 1) % d.Segs.length
      = (d.BeginFi + (segs.length - 1)) % d.Segs.length := by
  rw [h.end_eq, phys_pred hu h.cap_pos]

theorem lastSegment_eq (h : Lay d segs) :
    d.lastSegment = .ok ((segs.getLast?).map Segment.mk) := by
  unfold Deque.lastSegment
  have hn := h.cap_pos
  rw [if_neg (by omega), preIndex_eq d hn]
  simp only [ok_bind]
  rcases Nat.eq_zero_or_pos segs.length with h0 | h0
  · have hnil : segs = [] := List.length_eq_zero.mp h0
    subst hnil
    have he : d.EndFi = d.BeginFi := by
      have := h.end_eq
      simpa [Nat.mod_eq_of_lt h.begin_lt] using this
    rw [he, phys_pred_zero h.begin_lt, h.slot_phys (by omega)]
    simp
  · rw [h.pre_end h0, h.slot_phys (by have := h.used_le; omega)]
    rw [List.getLast?_eq_getElem?]

theorem segUsed_eq (h : Lay d segs) (hs : d.SizeFi ≠ 0) (hne : segs ≠ []) :
    d.segUsed = segs.length := by
  unfold Deque.segUsed
  have hb := h.begin_lt
  have hu := h.used_le
  have hpos : 0 < segs.length := List.length_pos.mpr hne
  have he := h.end_eq
  rw [mod_wrap (by omega)] at he
  rw [if_neg hs]
  split at he <;> split <;> omega

theorem segUsed_nil (h : Lay d []) (hs : d.SizeFi ≠ 0) : d.segUsed = d.Segs.length := by
  unfold Deque.segUsed
  have hb := h.begin_lt
  have he := h.end_eq
  simp only [List.length_nil, Nat.add_zero, Nat.mod_eq_of_lt hb] at he
  rw [if_neg hs, if_neg (by omega)]
  omega

theorem copySlots_eq (h : Lay d segs) (k : Nat) (hk : k ≤ d.Segs.length) :
    d.copySlots d.BeginFi d.Segs.length k
      = .ok ((List.range k).map (fun i => (segs[i]?).map Segment.mk)) := by
  induction k with
  | zero => rfl
  | succ k ih =>
    unfold Deque.copySlots
    rw [ih (by omega), h.slot_phys (by omega)]
    simp [List.range_succ]

end Lay

@[simp] theorem SegmentCapacity_eq : SegmentCapacity = 128 := rfl

theorem getElem?_mid (P : List (List V)) (s : List V) (R : List (List V)) :
    (P ++ s :: R)[P.length]? = some s := by
  rw [List.getElem?_append_right (le_refl _)]
  simp

theorem list_set_mid (P : List (List V)) (s s' : List V) (R : List (List V)) :
    (P ++ s :: R).set P.length s' = P ++ s' :: R := by
  simp

theorem mid_lt (P : List (List V)) (s : List V) (R : List (List V)) :
    P.length < (P ++ s :: R).length := by
  simp

namespace Segment

theorem popFront_cons (x : V) (xs : List V) :
    (⟨x :: xs⟩ : Segment V).popFront = .ok (x, ⟨xs⟩) := rfl

theorem popBack_concat (ys : List V) (y : V) :
    (⟨ys ++ [y]⟩ : Segment V).popBack = .ok (y, ⟨ys⟩) := by
  simp [Segment.popBack]

theorem pushBack_of_lt {c : List V} (hc : c.length < 128) (x : V) :
    (⟨c⟩ : Segment V).pushBack x = ⟨c ++ [x]⟩ := by
  unfold Segment.pushBack Segment.full
  rw [if_neg (by simp; omega)]

theorem pushFront_of_lt {c : List V} (hc : c.length < 128) (x : V) :
    (⟨c⟩ : Segment V).pushFront x = ⟨x :: c⟩ := by
  unfold Segment.pushFront Segment.full
  rw [if_neg (by simp; omega)]

end Segment

@[simp] theorem mutate_BeginFi (d : Deque V) (i : Nat) (s : Segment V) :
    (d.mutate i s).BeginFi = d.BeginFi := rfl

@[simp] theorem mutate_EndFi (d : Deque V) (i : Nat) (s : Segment V) :
    (d.mutate i s).EndFi = d.EndFi := rfl

@[simp] theorem mutate_SizeFi (d : Deque V) (i : Nat) (s : Segment V) :
    (d.mutate i s).SizeFi = d.SizeFi := rfl

@[simp] theorem mutate_Pool (d : Deque V) (i : Nat) (s : Segment V) :
    (d.mutate i s).Pool = d.Pool := rfl

@[simp] theorem mutate_Segs (d : Deque V) (i : Nat) (s : Segment V) :
    (d.mutate i s).Segs = d.Segs.set i (some s) := rfl

namespace Lay

variable {d : Deque V}

/-- The segment of logical index `|P|` is read through `segmentAt`. -/
theorem slot_mid {P R : List (List V)} {s : List V} (h : Lay d (P ++ s :: R)) :
    d.slot ((d.BeginFi + P.length) % d.Segs.length) = .ok (some ⟨s⟩) := by
  rw [h.slot_phys (lt_of_lt_of_le (mid_lt P s R) h.used_le), getElem?_mid]
  rfl

/-- A segment of the directory replaced through its pointer. -/
theorem set_mid {P R : List (List V)} {s : List V} (h : Lay d (P ++ s :: R)) (s' : List V) :
    LayT (d.Segs.set ((d.BeginFi + P.length) % d.Segs.length) (some ⟨s'⟩)) d.BeginFi d.EndFi
      (P ++ s' :: R) := by
  have := h.set_seg (mid_lt P s R) s'
  rwa [list_set_mid] at this

theorem shiftFront_step {P R : List (List V)} {c m : List V}
    (h : Lay d (P ++ c :: m :: R)) (hc : c.length < 128) (hm : m ≠ []) :
    ∃ S', d.shiftFront (P.length : Int) = .ok { d with Segs := S' }
      ∧ S'.length = d.Segs.length
      ∧ LayT S' d.BeginFi d.EndFi (P ++ (c ++ m.take 1) :: m.drop 1 :: R) := by
  obtain ⟨x, xs, rfl⟩ := List.exists_cons_of_ne_nil hm
  have h' : Lay d ((P ++ [c]) ++ (x :: xs) :: R) := by simpa using h
  have hs1 := h'.slot_mid
  have l1 := h'.set_mid xs
  simp only [List.length_append, List.length_singleton] at hs1 l1
  have l1' : Lay (d.mutate ((d.BeginFi + (P.length + 1)) % d.Segs.length) ⟨xs⟩)
      (P ++ c :: xs :: R) := by simpa [Deque.mutate] using l1
  have hs2 := l1'.slot_mid
  have l2 := l1'.set_mid (c ++ [x])
  simp only [mutate_BeginFi, mutate_EndFi, mutate_Segs, List.length_set] at hs2 l2
  refine ⟨(d.Segs.set ((d.BeginFi + (P.length + 1)) % d.Segs.length) (some ⟨xs⟩)).set
    ((d.BeginFi + P.length) % d.Segs.length) (some ⟨c ++ [x]⟩), ?_, by simp, ?_⟩
  rotate_left 1
  · exact l2
  · unfold Deque.shiftFront
    rw [h.segIndex_nat]
    have : ((P.length : Int) + 1) = ((P.length + 1 : Nat) : Int) := by push_cast; rfl
    rw [this, h.segIndex_nat]
    simp only [ok_bind, hs1, deref, Segment.popFront_cons]
    simp only [hs2, ok_bind, deref, Segment.pushBack_of_lt hc, pure_eq_ok]
    rfl

theorem shiftBack_step {P R : List (List V)} {c m : List V}
    (h : Lay d (P ++ m :: c :: R)) (hc : c.length < 128) (hm : m ≠ []) :
    ∃ S', d.shiftBack ((P.length + 1 : Nat) : Int) = .ok { d with Segs := S' }
      ∧ S'.length = d.Segs.length
      ∧ LayT S' d.BeginFi d.EndFi
          (P ++ m.dropLast :: ((m.getLast?).toList ++ c) :: R) := by
  obtain ⟨ys, y, rfl⟩ : ∃ ys y, m = ys ++ [y] := by
    rcases List.eq_nil_or_concat m with h0 | ⟨ys, y, h1⟩
    · exact absurd h0 hm
    · exact ⟨ys, y, by simpa using h1⟩
  have hs1 := h.slot_mid
  have l1 := h.set_mid ys
  have l1' : Lay (d.mutate ((d.BeginFi + P.length) % d.Segs.length) ⟨ys⟩)
      ((P ++ [ys]) ++ c :: R) := by simpa [Deque.mutate] using l1
  have hs2 := l1'.slot_mid
  have l2 := l1'.set_mid (y :: c)
  simp only [List.length_append, List.length_singleton, mutate_BeginFi, mutate_EndFi, mutate_Segs,
    List.length_set] at hs2 l2
  refine ⟨(d.Segs.set ((d.BeginFi + P.length) % d.Segs.length) (some ⟨ys⟩)).set
    ((d.BeginFi + (P.length + 1)) % d.Segs.length) (some ⟨y :: c⟩), ?_, by simp, ?_⟩
  rotate_left 1
  · simpa using l2
  · unfold Deque.shiftBack
    rw [h.segIndex_nat]
    have : (((P.length + 1 : Nat) : Int) - 1) = ((P.length : Nat) : Int) := by push_cast; ring
    rw [this, h.segIndex_nat]
    simp only [ok_bind, hs1, deref, Segment.popBack_concat]
    simp only [hs2, ok_bind, deref, Segment.pushFront_of_lt hc, pure_eq_ok]
    rfl

end Lay

theorem cast_succ_sub_one (k : Nat) : (((k + 1 : Nat) : Int) - 1) = (k : Int) := by
  push_cast; ring

namespace Lay

variable {d : Deque V}

/-- The ascending cascade: every segment of the chain `c, ms, t` hands its first element to
its predecessor. -/
theorem shiftFrontLoop_spec (ms : List (List V)) :
    ∀ (d : Deque V) (P : List (List V)) (c t : List V) (R : List (List V)),
      Lay d (P ++ c :: (ms ++ t :: R)) → c.length < 128 →
      (∀ m ∈ ms, m ≠ [] ∧ m.length ≤ 128) → t ≠ [] →
      ∃ S' X, shiftFrontLoop (ms.length + 1) d (P.length : Int) = .ok { d with Segs := S' }
        ∧ S'.length = d.Segs.length
        ∧ LayT S' d.BeginFi d.EndFi (P ++ X ++ t.drop 1 :: R)
        ∧ X.flatten = c ++ ms.flatten ++ t.take 1
        ∧ X.map List.length = (c.length + 1) :: ms.map List.length := by
  induction ms with
  | nil =>
    intro d P c t R h hc _ ht
    obtain ⟨S', h1, h2, h3⟩ := h.shiftFront_step hc ht
    refine ⟨S', [c ++ t.take 1], ?_, h2, by simpa using h3, by simp, ?_⟩
    · simp only [List.length_nil, Nat.zero_add, shiftFrontLoop, h1, ok_bind, pure_eq_ok]
    · obtain ⟨x, xs, rfl⟩ := List.exists_cons_of_ne_nil ht
      simp
  | cons m ms ih =>
    intro d P c t R h hc hms ht
    have hm := hms m (List.mem_cons_self _ _)
    obtain ⟨S1, h1, h2, h3⟩ := h.shiftFront_step (R := ms ++ t :: R) hc hm.1
    have h3' : Lay ({ d with Segs := S1 } : Deque V)
        ((P ++ [c ++ m.take 1]) ++ m.drop 1 :: (ms ++ t :: R)) := by simpa using h3
    obtain ⟨S', X, e1, e2, e3, e4, e5⟩ := ih _ _ _ t R h3'
      (by simp; omega) (fun m' hm' => hms m' (List.mem_cons_of_mem _ hm')) ht
    refine ⟨S', (c ++ m.take 1) :: X, ?_, by simpa [h2] using e2, by simpa using e3, ?_, ?_⟩
    · rw [List.length_cons, shiftFrontLoop, h1]
      simp only [ok_bind]
      have : ((P.length : Int) + 1) = ((P ++ [c ++ m.take 1]).length : Int) := by simp
      rw [this, e1]
    · obtain ⟨x, xs, rfl⟩ := List.exists_cons_of_ne_nil hm.1
      simp [e4]
    · obtain ⟨x, xs, rfl⟩ := List.exists_cons_of_ne_nil hm.1
      simp [e5]

/-- The descending cascade: every segment of the chain `t, ms, c` hands its last element to
its successor. -/
theorem shiftBackLoop_spec (ms : List (List V)) :
    ∀ (d : Deque V) (P : List (List V)) (t c : List V) (R : List (List V)),
      Lay d (P ++ t :: (ms ++ c :: R)) → c.length < 128 →
      (∀ m ∈ ms, m ≠ [] ∧ m.length ≤ 128) → t ≠ [] →
      ∃ S' X, shiftBackLoop (ms.length + 1) d ((P.length + ms.length + 1 : Nat) : Int)
          = .ok { d with Segs := S' }
        ∧ S'.length = d.Segs.length
        ∧ LayT S' d.BeginFi d.EndFi (P ++ t.dropLast :: (X ++ R))
        ∧ X.flatten = (t.getLast?).toList ++ ms.flatten ++ c
        ∧ X.map List.length = ms.map List.length ++ [c.length + 1] := by
  induction ms using List.reverseRecOn with
  | nil =>
    intro d P t c R h hc _ ht
    obtain ⟨S', h1, h2, h3⟩ := h.shiftBack_step hc ht
    refine ⟨S', [(t.getLast?).toList ++ c], ?_, h2, by simpa using h3, by simp, ?_⟩
    · simp only [List.length_nil, Nat.zero_add, Nat.add_zero, shiftBackLoop, h1, ok_bind,
        pure_eq_ok]
    · rcases List.eq_nil_or_concat t with h0 | ⟨ys, y, rfl⟩
      · exact absurd h0 ht
      · simp
  | append_singleton ms m ih =>
    intro d P t c R h hc hms ht
    have hm := hms m (by simp)
    have h0 : Lay d ((P ++ t :: ms) ++ m :: c :: R) := by simpa using h
    obtain ⟨S1, h1, h2, h3⟩ := h0.shiftBack_step hc hm.1
    have h3' : Lay ({ d with Segs := S1 } : Deque V)
        (P ++ t :: (ms ++ m.dropLast :: (((m.getLast?).toList ++ c) :: R))) := by simpa using h3
    have hlen : m.dropLast.length < 128 := by
      have := hm.2
      have : 0 < m.length := List.length_pos.mpr hm.1
      simp; omega
    obtain ⟨S', X, e1, e2, e3, e4, e5⟩ := ih _ _ t m.dropLast _ h3' hlen
      (fun m' hm' => hms m' (by simp [hm'])) ht
    refine ⟨S', X ++ [(m.getLast?).toList ++ c], ?_, by simpa [h2] using e2, by simpa using e3,
      ?_, ?_⟩
    · have hi : P.length + (ms ++ [m]).length + 1 = (P ++ t :: ms).length + 1 := by
        simp only [List.length_append, List.length_cons, List.length_singleton, List.length_nil]
      have hk : (P ++ t :: ms).length = P.length + ms.length + 1 := by
        simp only [List.length_append, List.length_cons, List.length_nil]
        omega
      rw [hi, List.length_append, List.length_singleton, shiftBackLoop, h1]
      simp only [ok_bind]
      rw [cast_succ_sub_one, hk, e1]
    · rcases List.eq_nil_or_concat m with h0 | ⟨ys, y, rfl⟩
      · exact absurd h0 hm.1
      · simp [e4]
    · rcases List.eq_nil_or_concat m with h0 | ⟨ys, y, rfl⟩
      · exact absurd h0 hm.1
      · simp [e5]

theorem shiftFrontLoop_zero (d : Deque V) (i : Int) : shiftFrontLoop 0 d i = .ok d := rfl

theorem shiftBackLoop_zero (d : Deque V) (i : Int) : shiftBackLoop 0 d i = .ok d := rfl

theorem insertAt_ok {P R : List (List V)} {s : List V} (h : Lay d (P ++ s :: R)) {o : Nat}
    (ho : o ≤ s.length) (v : V) :
    ∃ S', d.insertAt (P.length : Int) o v = .ok { d with Segs := S' }
      ∧ S'.length = d.Segs.length
      ∧ LayT S' d.BeginFi d.EndFi (P ++ (s.take o ++ v :: s.drop o) :: R) := by
  refine ⟨_, ?_, ?_, h.set_mid (s.take o ++ v :: s.drop o)⟩
  · unfold Deque.insertAt
    rw [h.segIndex_nat]
    simp only [ok_bind, h.slot_mid, deref, Segment.insert, if_pos ho, pure_eq_ok]
    rfl
  · simp

theorem insertAt_err {P R : List (List V)} {s : List V} (h : Lay d (P ++ s :: R)) {o : Nat}
    (ho : s.length < o) (v : V) :
    d.insertAt (P.length : Int) o v = .error .segmentContract := by
  unfold Deque.insertAt
  rw [h.segIndex_nat]
  simp only [ok_bind, h.slot_mid, deref, Segment.insert, if_neg (not_le.mpr ho)]
  rfl

theorem eraseInSegment_ok {P R : List (List V)} {s : List V} (h : Lay d (P ++ s :: R)) {o : Nat}
    (ho : o < s.length) :
    ∃ S', d.eraseInSegment (P.length : Int) o = .ok { d with Segs := S' }
      ∧ S'.length = d.Segs.length
      ∧ LayT S' d.BeginFi d.EndFi (P ++ s.eraseIdx o :: R) := by
  refine ⟨_, ?_, ?_, h.set_mid (s.eraseIdx o)⟩
  · unfold Deque.eraseInSegment
    rw [h.segIndex_nat]
    simp only [ok_bind, h.slot_mid, deref, Segment.eraseAt, if_pos ho, pure_eq_ok]
    rfl
  · simp

theorem segmentAt_mid {P R : List (List V)} {s : List V} (h : Lay d (P ++ s :: R)) :
    d.segmentAt (P.length : Int) = .ok (some ⟨s⟩) := by
  unfold Deque.segmentAt
  rw [h.segIndex_nat]
  simp only [ok_bind, h.slot_mid]

end Lay

theorem Shape.nil : Shape [] := by
  constructor <;> simp

theorem Shape.single {x : Nat} (h1 : 1 ≤ x) (h2 : x ≤ 128) : Shape [x] := by
  constructor <;> simp [h1, h2]

theorem Shape.head_change {a a' : Nat} {rest : List Nat} (h : Shape (a :: rest))
    (h1 : 1 ≤ a') (h2 : a' ≤ 128) : Shape (a' :: rest) := by
  refine ⟨?_, by simpa using h.2⟩
  intro x hx
  rcases List.mem_cons.mp hx with rfl | hx
  · exact ⟨h1, h2⟩
  · exact h.1 x (List.mem_cons_of_mem _ hx)

theorem Shape.tail {a : Nat} {rest : List Nat} (h : Shape (a :: rest)) : Shape rest := by
  refine ⟨fun x hx => h.1 x (List.mem_cons_of_mem _ hx), ?_⟩
  intro x hx
  apply h.2 x
  simp only [List.tail_cons]
  rcases rest with _ | ⟨b, rest⟩
  · simp at hx
  · simp only [List.tail_cons] at hx
    rcases rest with _ | ⟨c, rest⟩
    · simp at hx
    · simp only [List.dropLast_cons₂] at hx ⊢
      exact List.mem_cons_of_mem _ hx

theorem Shape.cons_full {x : Nat} {rest : List Nat} (h : Shape (128 :: rest))
    (h1 : 1 ≤ x) (h2 : x ≤ 128) : Shape (x :: 128 :: rest) := by
  refine ⟨?_, ?_⟩
  · intro y hy
    rcases List.mem_cons.mp hy with rfl | hy
    · exact ⟨h1, h2⟩
    · exact h.1 y hy
  · intro y hy
    simp only [List.tail_cons] at hy
    rcases rest with _ | ⟨c, rest⟩
    · simp at hy
    · simp only [List.dropLast_cons₂] at hy
      rcases List.mem_cons.mp hy with rfl | hy
      · rfl
      · exact h.2 y (by simpa using hy)

theorem Shape.last_change {a a' : Nat} {init : List Nat} (h : Shape (init ++ [a]))
    (h1 : 1 ≤ a') (h2 : a' ≤ 128) : Shape (init ++ [a']) := by
  refine ⟨?_, ?_⟩
  · intro x hx
    rcases List.mem_append.mp hx with hx | hx
    · exact h.1 x (List.mem_append_left _ hx)
    · simp only [List.mem_singleton] at hx
      subst hx
      exact ⟨h1, h2⟩
  · intro x hx
    apply h.2 x
    rcases init with _ | ⟨b, init⟩
    · simp at hx
    · simpa using hx

theorem Shape.dropLast {a : Nat} {init : List Nat} (h : Shape (init ++ [a])) : Shape init := by
  refine ⟨fun x hx => h.1 x (List.mem_append_left _ hx), ?_⟩
  intro x hx
  apply h.2 x
  rcases init with _ | ⟨b, init⟩
  · simp at hx
  · simp only [List.tail_cons] at hx
    simp only [List.cons_append, List.tail_cons, List.dropLast_concat]
    exact List.dropLast_subset _ hx

theorem Shape.snoc_full {x : Nat} {init : List Nat} (h : Shape (init ++ [128]))
    (h1 : 1 ≤ x) (h2 : x ≤ 128) : Shape (init ++ [128, x]) := by
  refine ⟨?_, ?_⟩
  · intro y hy
    rcases List.mem_append.mp hy with hy | hy
    · exact h.1 y (List.mem_append_left _ hy)
    · simp only [List.mem_cons, List.mem_singleton, List.not_mem_nil, or_false] at hy
      rcases hy with rfl | rfl
      · exact ⟨by omega, by omega⟩
      · exact ⟨h1, h2⟩
  · intro y hy
    rcases init with _ | ⟨b, init⟩
    · simp at hy
    · have e : (b :: init ++ [128, x]).tail.dropLast = init ++ [128] := by
        have : init ++ [128, x] = (init ++ [128]) ++ [x] := by simp
        simp only [List.cons_append, List.tail_cons, this, List.dropLast_concat]
      rw [e] at hy
      rcases List.mem_append.mp hy with hy | hy
      · apply h.2 y
        simpa using hy
      · simpa using hy

namespace Lay

variable {d : Deque V} {segs : List (List V)}

theorem expandIfFull_noop (d : Deque V) (h : d.segUsed < d.Segs.length) :
    d.expandIfFull = .ok d := by
  unfold Deque.expandIfFull
  rw [if_neg (by omega)]
  rfl

/-- Growth keeps the segments and restores a free slot. -/
theorem expandIfFull_spec (h : Lay d segs) (hs : d.SizeFi ≠ 0) (hne : segs ≠ [])
    (hp : ∃ k, d.Segs.length = 2 ^ k) :
    ∃ S' b' e', d.expandIfFull = .ok { d with Segs := S', BeginFi := b', EndFi := e' }
      ∧ LayT S' b' e' segs ∧ segs.length < S'.length ∧ (∃ k, S'.length = 2 ^ k)
      ∧ (segs.length < d.Segs.length → S' = d.Segs ∧ b' = d.BeginFi ∧ e' = d.EndFi) := by
  have hu := h.segUsed_eq hs hne
  have hpos : 0 < segs.length := List.length_pos.mpr hne
  by_cases hfull : segs.length < d.Segs.length
  · exact ⟨d.Segs, d.BeginFi, d.EndFi, expandIfFull_noop d (by omega), h, hfull, hp,
      fun _ => ⟨rfl, rfl, rfl⟩⟩
  · have hle := h.used_le
    have heq : segs.length = d.Segs.length := by omega
    have hlen : ((List.range segs.length).map (fun i => (segs[i]?).map Segment.mk)
        ++ List.replicate (segs.length * 2 - segs.length) (none : Option (Segment V))).length
        = segs.length * 2 := by
      simp; omega
    refine ⟨_, 0, segs.length, ?_, layT_fresh segs (c := segs.length * 2) (by omega), ?_, ?_,
      fun hh => absurd hh hfull⟩
    · unfold Deque.expandIfFull Deque.expand
      rw [if_pos (by omega), hu]
      have hc := h.copySlots_eq segs.length (by omega)
      rw [← heq] at hc
      rw [hc]
      simp only [ok_bind, pure_eq_ok]
      rw [if_neg (by omega)]
    · rw [hlen]; omega
    · obtain ⟨k, hk⟩ := hp
      exact ⟨k + 1, by rw [hlen, heq, hk, pow_succ]⟩

theorem shrinkIfNeeded_noop (d : Deque V) (h : ¬ d.segUsed * 2 * 6 / 5 < d.Segs.length) :
    d.shrinkIfNeeded = .ok d := by
  unfold Deque.shrinkIfNeeded
  rw [if_neg h]
  rfl

/-- Shrinking keeps the segments and a free slot; the directory is halved and rebased when
the test fires, and left as it is otherwise. -/
theorem shrinkIfNeeded_cap (h : Lay d segs) (hu : d.segUsed = segs.length)
    (hstrict : segs.length < d.Segs.length) (h2 : 2 ≤ d.Segs.length)
    (hp : ∃ k, d.Segs.length = 2 ^ k) :
    ∃ S' b' e', d.shrinkIfNeeded = .ok { d with Segs := S', BeginFi := b', EndFi := e' }
      ∧ LayT S' b' e' segs ∧ segs.length < S'.length ∧ (∃ k, S'.length = 2 ^ k)
      ∧ (segs.length * 2 * 6 / 5 < d.Segs.length →
          S'.length = d.Segs.length / 2 ∧ b' = 0 ∧ e' = segs.length)
      ∧ (¬ segs.length * 2 * 6 / 5 < d.Segs.length →
          S' = d.Segs ∧ b' = d.BeginFi ∧ e' = d.EndFi) := by
  by_cases hfire : d.segUsed * 2 * 6 / 5 < d.Segs.length
  · obtain ⟨k, hk⟩ := hp
    obtain ⟨k', rfl⟩ : ∃ k', k = k' + 1 := by
      rcases k with _ | k'
      · simp at hk; omega
      · exact ⟨k', rfl⟩
    have hhalf : d.Segs.length / 2 = 2 ^ k' := by
      rw [hk, pow_succ]; omega
    have hlt : segs.length < d.Segs.length / 2 := by
      rw [hu] at hfire
      rw [pow_succ] at hk
      omega
    have hlen : ((List.range segs.length).map (fun i => (segs[i]?).map Segment.mk)
        ++ List.replicate (d.Segs.length / 2 - segs.length) (none : Option (Segment V))).length
        = d.Segs.length / 2 := by
      simp; omega
    refine ⟨_, 0, segs.length, ?_, layT_fresh segs (c := d.Segs.length / 2) hlt, ?_, ?_,
      fun _ => ⟨hlen, rfl, rfl⟩, fun hn => absurd (hu ▸ hfire) hn⟩
    · unfold Deque.shrinkIfNeeded
      rw [if_pos hfire, hu, h.copySlots_eq segs.length (by omega)]
      simp only [ok_bind, pure_eq_ok]
      rw [if_neg (by omega)]
    · rw [hlen]; exact hlt
    · exact ⟨k', by rw [hlen, hhalf]⟩
  · exact ⟨d.Segs, d.BeginFi, d.EndFi, shrinkIfNeeded_noop d hfire, h, hstrict, hp,
      fun hf => absurd (hu ▸ hf) hfire, fun _ => ⟨rfl, rfl, rfl⟩⟩

/-- Shrinking keeps the segments and a free slot. -/
theorem shrinkIfNeeded_spec (h : Lay d segs) (hu : d.segUsed = segs.length)
    (hstrict : segs.length < d.Segs.length) (h2 : 2 ≤ d.Segs.length)
    (hp : ∃ k, d.Segs.length = 2 ^ k) :
    ∃ S' b' e', d.shrinkIfNeeded = .ok { d with Segs := S', BeginFi := b', EndFi := e' }
      ∧ LayT S' b' e' segs ∧ segs.length < S'.length ∧ (∃ k, S'.length = 2 ^ k) := by
  obtain ⟨S', b', e', h1, h3, h4, h5, -⟩ := h.shrinkIfNeeded_cap hu hstrict h2 hp
  exact ⟨S', b', e', h1, h3, h4, h5⟩

end Lay

theorem flatten_length_pos {segs : List (List V)} (hne : segs ≠ [])
    (h : ∀ x ∈ segs.map List.length, 1 ≤ x ∧ x ≤ 128) : 0 < segs.flatten.length := by
  obtain ⟨s, rest, rfl⟩ := List.exists_cons_of_ne_nil hne
  have := (h s.length (by simp)).1
  simp only [List.flatten_cons, List.length_append]
  omega

namespace Inv

variable {d : Deque V} {segs : List (List V)}

theorem size_ne_zero (h : Inv d segs) (hne : segs ≠ []) : d.SizeFi ≠ 0 := by
  have := flatten_length_pos hne h.shape.1
  rw [h.size]; omega

theorem used_eq (h : Inv d segs) : d.segUsed = segs.length := by
  by_cases hne : segs = []
  · subst hne
    have := h.size
    simp only [List.flatten_nil, List.length_nil] at this
    simp [Deque.segUsed, this]
  · exact h.lay.segUsed_eq (h.size_ne_zero hne) hne

theorem cap_pos (h : Inv d segs) : 0 < d.Segs.length := h.lay.cap_pos

end Inv

theorem isAvailable_of_lt {s : List V} (h : s.length < 128) :
    isAvailable (some (⟨s⟩ : Segment V)) = true := by
  simp [isAvailable, Segment.full]; omega

theorem isAvailable_full {s : List V} (h : s.length = 128) :
    isAvailable (some (⟨s⟩ : Segment V)) = false := by
  simp [isAvailable, Segment.full, h]

theorem getLast?_snoc (init : List (List V)) (s : List V) : (init ++ [s]).getLast? = some s := by
  simp

/-- The call `firstAvailableSegment` with the directory capacity it leaves: the first segment
when it has room, and otherwise a new empty segment placed before it in the same directory. -/
theorem firstAvailableSegment_cap {d : Deque V} {segs : List (List V)} (h : Inv d segs) :
    ∃ d1 s rest, d.firstAvailableSegment = .ok (d1, d1.BeginFi) ∧ Lay d1 (s :: rest)
      ∧ s.length < 128 ∧ s ++ rest.flatten = segs.flatten ∧ d1.SizeFi = d.SizeFi
      ∧ (∃ k, d1.Segs.length = 2 ^ k) ∧ Shape ((s.length + 1) :: rest.map List.length)
      ∧ d1.Segs.length = d.Segs.length ∧ rest.length ≤ segs.length := by
  have hn := h.cap_pos
  by_cases hav : ∃ s rest, segs = s :: rest ∧ s.length < 128
  · obtain ⟨s, rest, rfl, hs⟩ := hav
    refine ⟨d, s, rest, ?_, h.lay, hs, by simp, rfl, h.pow2, ?_, rfl, by simp⟩
    · unfold Deque.firstAvailableSegment
      rw [h.lay.firstSegment_eq]
      simp only [ok_bind, List.getElem?_cons_zero, Option.map_some', isAvailable_of_lt hs,
        if_true, pure_eq_ok]
    · have := h.shape
      simp only [List.map_cons] at this
      exact this.head_change (by omega) (by omega)
  · have hfirst : isAvailable ((segs[0]?).map Segment.mk) = false := by
      rcases segs with _ | ⟨s, rest⟩
      · rfl
      · have hs : s.length ≤ 128 := (h.shape.1 s.length (by simp)).2
        have : ¬ s.length < 128 := fun hh => hav ⟨s, rest, rfl, hh⟩
        simp only [List.getElem?_cons_zero, Option.map_some']
        exact isAvailable_full (by omega)
    have hlay := h.lay.push_front_seg h.strict []
    refine ⟨{ d with BeginFi := (d.BeginFi + d.Segs.length - 1) % d.Segs.length,
                     Pool := (d.Pool.get (V := V)).2,
                     Segs := d.Segs.set ((d.BeginFi + d.Segs.length - 1) % d.Segs.length)
                       (some ⟨[]⟩) }, [], segs, ?_, hlay, by simp, by simp, rfl,
      by simpa using h.pow2, ?_, by simp, le_refl _⟩
    · unfold Deque.firstAvailableSegment
      rw [h.lay.firstSegment_eq]
      simp only [ok_bind, hfirst, Bool.false_eq_true, if_false]
      rw [Lay.expandIfFull_noop d (by rw [h.used_eq]; exact h.strict)]
      simp only [ok_bind]
      rw [h.lay.firstSegment_eq]
      simp only [ok_bind, hfirst, Bool.false_eq_true, if_false]
      rw [Lay.preIndex_eq d hn]
      simp only [ok_bind, Deque.setSlot, Pool.get]
      rw [if_pos (Nat.mod_lt _ hn)]
      rfl
    · rcases segs with _ | ⟨s, rest⟩
      · exact Shape.single (by simp) (by simp)
      · have hs : s.length ≤ 128 := (h.shape.1 s.length (by simp)).2
        have : ¬ s.length < 128 := fun hh => hav ⟨s, rest, rfl, hh⟩
        have h128 : s.length = 128 := by omega
        have hsh := h.shape
        simp only [List.map_cons, h128] at hsh
        simpa [h128] using hsh.cons_full (x := 1) (by omega) (by omega)

/-- The call `firstAvailableSegment` returns the first segment when it has room, and otherwise a new
empty segment placed before it. -/
theorem firstAvailableSegment_spec {d : Deque V} {segs : List (List V)} (h : Inv d segs) :
    ∃ d1 s rest, d.firstAvailableSegment = .ok (d1, d1.BeginFi) ∧ Lay d1 (s :: rest)
      ∧ s.length < 128 ∧ s ++ rest.flatten = segs.flatten ∧ d1.SizeFi = d.SizeFi
      ∧ (∃ k, d1.Segs.length = 2 ^ k) ∧ Shape ((s.length + 1) :: rest.map List.length) := by
  obtain ⟨d1, s, rest, h1, h2, h3, h4, h5, h6, h7, -⟩ := firstAvailableSegment_cap h
  exact ⟨d1, s, rest, h1, h2, h3, h4, h5, h6, h7⟩

/-- The call `lastAvailableSegment` with the directory capacity it leaves: the last segment
when it has room, and otherwise a new empty segment placed after it in the same directory. -/
theorem lastAvailableSegment_cap {d : Deque V} {segs : List (List V)} (h : Inv d segs) :
    ∃ d1 init s, d.lastAvailableSegment
        = .ok (d1, (d1.BeginFi + init.length) % d1.Segs.length) ∧ Lay d1 (init ++ [s])
      ∧ s.length < 128 ∧ init.flatten ++ s = segs.flatten ∧ d1.SizeFi = d.SizeFi
      ∧ (∃ k, d1.Segs.length = 2 ^ k) ∧ Shape (init.map List.length ++ [s.length + 1])
      ∧ d1.Segs.length = d.Segs.length ∧ init.length ≤ segs.length := by
  have hn := h.cap_pos
  by_cases hav : ∃ init s, segs = init ++ [s] ∧ s.length < 128
  · obtain ⟨init, s, rfl, hs⟩ := hav
    refine ⟨d, init, s, ?_, h.lay, hs, by simp, rfl, h.pow2, ?_, rfl, by simp⟩
    · unfold Deque.lastAvailableSegment
      rw [h.lay.lastSegment_eq]
      simp only [ok_bind, getLast?_snoc, Option.map_some', isAvailable_of_lt hs, if_true]
      rw [Lay.preIndex_eq d hn, h.lay.pre_end (by simp)]
      simp
    · have := h.shape
      simp only [List.map_append, List.map_cons, List.map_nil] at this
      exact this.last_change (by omega) (by omega)
  · have hlast : isAvailable ((segs.getLast?).map Segment.mk) = false := by
      rcases List.eq_nil_or_concat segs with rfl | ⟨init, s, rfl⟩
      · rfl
      · have hs : s.length ≤ 128 := (h.shape.1 s.length (by simp)).2
        have : ¬ s.length < 128 := fun hh => hav ⟨init, s, by simp, hh⟩
        simp only [List.concat_eq_append, getLast?_snoc, Option.map_some']
        exact isAvailable_full (by omega)
    have hlay := h.lay.push_back_seg h.strict []
    refine ⟨{ d with EndFi := (d.EndFi + 1) % d.Segs.length,
                     Pool := (d.Pool.get (V := V)).2,
                     Segs := d.Segs.set d.EndFi (some ⟨[]⟩) }, segs, [], ?_, hlay, by simp,
      by simp, rfl, by simpa using h.pow2, ?_, by simp, le_refl _⟩
    · have he : d.EndFi < d.Segs.length := by
        rw [h.lay.end_eq]; exact Nat.mod_lt _ hn
      unfold Deque.lastAvailableSegment
      rw [h.lay.lastSegment_eq]
      simp only [ok_bind, hlast, Bool.false_eq_true, if_false]
      rw [Lay.expandIfFull_noop d (by rw [h.used_eq]; exact h.strict)]
      simp only [ok_bind]
      rw [h.lay.lastSegment_eq]
      simp only [ok_bind, hlast, Bool.false_eq_true, if_false]
      simp only [Deque.setSlot, Pool.get]
      rw [if_pos he]
      simp only [ok_bind]
      rw [Lay.nextIndex_eq _ (by simpa using hn)]
      simp only [ok_bind, pure_eq_ok, List.length_set]
      rw [← h.lay.end_eq]
    · rcases List.eq_nil_or_concat segs with rfl | ⟨init, s, rfl⟩
      · exact Shape.single (by simp) (by simp)
      · have hs : s.length ≤ 128 := (h.shape.1 s.length (by simp)).2
        have : ¬ s.length < 128 := fun hh => hav ⟨init, s, by simp, hh⟩
        have h128 : s.length = 128 := by omega
        have hsh := h.shape
        simp only [List.concat_eq_append, List.map_append, List.map_cons, List.map_nil, h128]
          at hsh
        simpa [h128] using hsh.snoc_full (x := 1) (by omega) (by omega)

/-- The call `lastAvailableSegment` returns the last segment when it has room, and otherwise a new
empty segment placed after it. -/
theorem lastAvailableSegment_spec {d : Deque V} {segs : List (List V)} (h : Inv d segs) :
    ∃ d1 init s, d.lastAvailableSegment
        = .ok (d1, (d1.BeginFi + init.length) % d1.Segs.length) ∧ Lay d1 (init ++ [s])
      ∧ s.length < 128 ∧ init.flatten ++ s = segs.flatten ∧ d1.SizeFi = d.SizeFi
      ∧ (∃ k, d1.Segs.length = 2 ^ k) ∧ Shape (init.map List.length ++ [s.length + 1]) := by
  obtain ⟨d1, init, s, h1, h2, h3, h4, h5, h6, h7, -⟩ := lastAvailableSegment_cap h
  exact ⟨d1, init, s, h1, h2, h3, h4, h5, h6, h7⟩

theorem Lay.set_first {d : Deque V} {s : List V} {rest : List (List V)}
    (h : Lay d (s :: rest)) (s' : List V) :
    LayT (d.Segs.set d.BeginFi (some ⟨s'⟩)) d.BeginFi d.EndFi (s' :: rest) := by
  have := h.set_seg (i := 0) (by simp) s'
  rwa [Nat.add_zero, Nat.mod_eq_of_lt h.begin_lt] at this

/-- The result of `PushFront` on a well-formed state, with the directory capacity: at most one
segment more, and the same directory size while the segments leave a slot free. -/
theorem PushFront_inv_cap {d : Deque V} {segs : List (List V)} (h : Inv d segs) (v : V) :
    ∃ d' segs', d.PushFront v = .ok d' ∧ Inv d' segs' ∧ segs'.flatten = v :: segs.flatten
      ∧ segs'.length ≤ segs.length + 1
      ∧ (segs'.length < d.Segs.length → d'.Segs.length = d.Segs.length) := by
  obtain ⟨d1, s, rest, h1, l1, hs, hfl, hsz, hp, hsh, hc, hr⟩ := firstAvailableSegment_cap h
  have l2 := l1.set_first (v :: s)
  have l2' : Lay ({ d1.mutate d1.BeginFi ⟨v :: s⟩ with SizeFi := d1.SizeFi + 1 } : Deque V)
      ((v :: s) :: rest) := l2
  obtain ⟨S', b', e', h3, l3, hst, hp3, hsame⟩ := l2'.expandIfFull_spec (by simp) (by simp)
    (by simpa using hp)
  have hcap : ((v :: s) :: rest).length < d.Segs.length → S'.length = d.Segs.length := by
    intro hlt
    have := (hsame (by simpa [hc] using hlt)).1
    rw [this]
    simp [hc]
  refine ⟨{ ({ d1.mutate d1.BeginFi ⟨v :: s⟩ with SizeFi := d1.SizeFi + 1 } : Deque V) with
      Segs := S', BeginFi := b', EndFi := e' }, (v :: s) :: rest, ?_,
    ⟨l3, hst, hp3, ?_, by simpa using hsh⟩, by simp [← hfl], by simp; omega, hcap⟩
  · unfold Deque.PushFront
    rw [h1]
    simp only [ok_bind, l1.slot_begin, List.getElem?_cons_zero, Option.map_some', deref,
      Segment.pushFront_of_lt hs]
    exact h3
  · simp only [mutate_SizeFi, hsz, h.size, ← hfl, List.flatten_cons, List.length_append,
      List.length_cons]
    omega

theorem PushFront_inv {d : Deque V} {segs : List (List V)} (h : Inv d segs) (v : V) :
    ∃ d' segs', d.PushFront v = .ok d' ∧ Inv d' segs' ∧ segs'.flatten = v :: segs.flatten := by
  obtain ⟨d', segs', h1, h2, h3, -⟩ := PushFront_inv_cap h v
  exact ⟨d', segs', h1, h2, h3⟩

/-- The result of `PushBack` on a well-formed state, with the directory capacity: at most one
segment more, and the same directory size while the segments leave a slot free. -/
theorem PushBack_inv_cap {d : Deque V} {segs : List (List V)} (h : Inv d segs) (v : V) :
    ∃ d' segs', d.PushBack v = .ok d' ∧ Inv d' segs' ∧ segs'.flatten = segs.flatten ++ [v]
      ∧ segs'.length ≤ segs.length + 1
      ∧ (segs'.length < d.Segs.length → d'.Segs.length = d.Segs.length) := by
  obtain ⟨d1, init, s, h1, l1, hs, hfl, hsz, hp, hsh, hc, hr⟩ := lastAvailableSegment_cap h
  have l2 := Lay.set_mid (R := []) l1 (s ++ [v])
  have l2' : Lay ({ d1.mutate ((d1.BeginFi + init.length) % d1.Segs.length) ⟨s ++ [v]⟩
      with SizeFi := d1.SizeFi + 1 } : Deque V) (init ++ [s ++ [v]]) := l2
  obtain ⟨S', b', e', h3, l3, hst, hp3, hsame⟩ := l2'.expandIfFull_spec (by simp) (by simp)
    (by simpa using hp)
  have hcap : (init ++ [s ++ [v]]).length < d.Segs.length → S'.length = d.Segs.length := by
    intro hlt
    have := (hsame (by simpa [hc] using hlt)).1
    rw [this]
    simp [hc]
  refine ⟨{ ({ d1.mutate ((d1.BeginFi + init.length) % d1.Segs.length) ⟨s ++ [v]⟩
      with SizeFi := d1.SizeFi + 1 } : Deque V) with Segs := S', BeginFi := b', EndFi := e' },
    init ++ [s ++ [v]], ?_, ⟨l3, hst, hp3, ?_, by simpa using hsh⟩, by simp [← hfl],
    by simp; omega, hcap⟩
  · unfold Deque.PushBack
    rw [h1]
    simp only [ok_bind, Lay.slot_mid (R := []) l1, deref, Segment.pushBack_of_lt hs]
    exact h3
  · simp only [mutate_SizeFi, hsz, h.size, ← hfl, List.flatten_append, List.flatten_cons,
      List.flatten_nil, List.length_append, List.length_cons, List.length_nil, List.append_nil]
    omega

theorem PushBack_inv {d : Deque V} {segs : List (List V)} (h : Inv d segs) (v : V) :
    ∃ d' segs', d.PushBack v = .ok d' ∧ Inv d' segs' ∧ segs'.flatten = segs.flatten ++ [v] := by
  obtain ⟨d', segs', h1, h2, h3, -⟩ := PushBack_inv_cap h v
  exact ⟨d', segs', h1, h2, h3⟩

theorem ZeroCap.inv {d : Deque V} (h : ZeroCap d) :
    Inv ({ d with Segs := [none] } : Deque V) [] := by
  obtain ⟨h1, h2, h3, h4⟩ := h
  refine ⟨⟨by simp, by simp [h2], by simp, by simp [h2, h3], ?_⟩, by simp, ⟨0, by simp⟩,
    by simp [h4], Shape.nil⟩
  intro i hi
  simp only [List.length_singleton] at hi ⊢
  have : i = 0 := by omega
  subst this
  simp [h2]

theorem ZeroCap.firstAvailableSegment_eq {d : Deque V} (h : ZeroCap d) :
    d.firstAvailableSegment = ({ d with Segs := [none] } : Deque V).firstAvailableSegment := by
  obtain ⟨pool, S, b, e, sz⟩ := d
  obtain ⟨h1, h2, h3, h4⟩ := h
  simp only at h1 h2 h3 h4
  subst h1 h2 h3 h4
  rfl

theorem ZeroCap.lastAvailableSegment_eq {d : Deque V} (h : ZeroCap d) :
    d.lastAvailableSegment = ({ d with Segs := [none] } : Deque V).lastAvailableSegment := by
  obtain ⟨pool, S, b, e, sz⟩ := d
  obtain ⟨h1, h2, h3, h4⟩ := h
  simp only at h1 h2 h3 h4
  subst h1 h2 h3 h4
  rfl

theorem ZeroCap.PushFront_eq {d : Deque V} (h : ZeroCap d) (v : V) :
    d.PushFront v = ({ d with Segs := [none] } : Deque V).PushFront v := by
  unfold Deque.PushFront
  rw [h.firstAvailableSegment_eq]

theorem ZeroCap.PushBack_eq {d : Deque V} (h : ZeroCap d) (v : V) :
    d.PushBack v = ({ d with Segs := [none] } : Deque V).PushBack v := by
  unfold Deque.PushBack
  rw [h.lastAvailableSegment_eq]

theorem PushFront_valid {d : Deque V} {L : List V} (h : Valid d L) (v : V) :
    ∃ d', d.PushFront v = .ok d' ∧ Valid d' (v :: L) := by
  rcases h with ⟨hz, rfl⟩ | ⟨segs, hinv, rfl⟩
  · obtain ⟨d', segs', h1, h2, h3⟩ := PushFront_inv hz.inv v
    exact ⟨d', by rw [hz.PushFront_eq, h1], Or.inr ⟨segs', h2, by simpa using h3⟩⟩
  · obtain ⟨d', segs', h1, h2, h3⟩ := PushFront_inv hinv v
    exact ⟨d', h1, Or.inr ⟨segs', h2, h3⟩⟩

theorem PushBack_valid {d : Deque V} {L : List V} (h : Valid d L) (v : V) :
    ∃ d', d.PushBack v = .ok d' ∧ Valid d' (L ++ [v]) := by
  rcases h with ⟨hz, rfl⟩ | ⟨segs, hinv, rfl⟩
  · obtain ⟨d', segs', h1, h2, h3⟩ := PushBack_inv hz.inv v
    exact ⟨d', by rw [hz.PushBack_eq, h1], Or.inr ⟨segs', h2, by simpa using h3⟩⟩
  · obtain ⟨d', segs', h1, h2, h3⟩ := PushBack_inv hinv v
    exact ⟨d', h1, Or.inr ⟨segs', h2, h3⟩⟩

theorem flatMap_getD (segs : List (List V)) :
    (List.range segs.length).flatMap (fun i => segs.getD i []) = segs.flatten := by
  induction segs using List.reverseRecOn with
  | nil => rfl
  | append_singleton init s ih =>
    rw [List.length_append, List.length_singleton, List.range_succ, List.flatMap_append]
    have : List.flatMap (List.range init.length) (fun i => (init ++ [s]).getD i [])
        = List.flatMap (List.range init.length) (fun i => init.getD i []) := by
      apply List.flatMap_congr
      intro i hi
      have hi' : i < init.length := List.mem_range.mp hi
      simp [List.getD_eq_getElem?_getD, List.getElem?_append_left hi']
    rw [this, ih]
    simp [List.getD_eq_getElem?_getD]

theorem toList_eq_flatten {d : Deque V} {segs : List (List V)} (h : Inv d segs) :
    d.toList = segs.flatten := by
  rw [← flatMap_getD segs]
  unfold Deque.toList
  rw [h.used_eq]
  have hle := h.lay.used_le
  apply List.flatMap_congr
  intro i hi
  have hi' : i < segs.length := List.mem_range.mp hi
  rw [h.lay.slots i (by omega), List.getElem?_eq_getElem hi']
  simp [List.getD_eq_getElem?_getD, List.getElem?_eq_getElem hi']

theorem Valid.toList_eq {d : Deque V} {L : List V} (h : Valid d L) : d.toList = L := by
  rcases h with ⟨hz, rfl⟩ | ⟨segs, hinv, rfl⟩
  · obtain ⟨h1, h2, h3, h4⟩ := hz
    simp [Deque.toList, Deque.segUsed, h4]
  · exact toList_eq_flatten hinv

theorem Valid.size_eq {d : Deque V} {L : List V} (h : Valid d L) : d.SizeFi = L.length := by
  rcases h with ⟨hz, rfl⟩ | ⟨segs, hinv, rfl⟩
  · exact hz.2.2.2
  · exact hinv.size

/-- The shrink check on a well-formed state with at least two directory slots. -/
theorem shrink_inv {d : Deque V} {segs : List (List V)} (h : Inv d segs)
    (h2 : 2 ≤ d.Segs.length) :
    ∃ d', d.shrinkIfNeeded = .ok d' ∧ Inv d' segs := by
  obtain ⟨S', b', e', h1, l1, hst, hp⟩ :=
    h.lay.shrinkIfNeeded_spec h.used_eq h.strict h2 h.pow2
  exact ⟨_, h1, ⟨l1, hst, hp, h.size, h.shape⟩⟩

/-- The growth check on a state that is well formed except that its directory may be full. -/
theorem expand_inv {d : Deque V} {segs : List (List V)} (l : Lay d segs) (hne : segs ≠ [])
    (hp : ∃ k, d.Segs.length = 2 ^ k) (hsz : d.SizeFi = segs.flatten.length)
    (hsh : Shape (segs.map List.length)) :
    ∃ d', d.expandIfFull = .ok d' ∧ Inv d' segs := by
  have hpos := flatten_length_pos hne hsh.1
  obtain ⟨S', b', e', h1, l1, hst, hp1, -⟩ := l.expandIfFull_spec (by omega) hne hp
  exact ⟨_, h1, ⟨l1, hst, hp1, hsz, hsh⟩⟩

@[simp] theorem putToPool_Segs (d : Deque V) : d.putToPool.Segs = d.Segs := rfl

@[simp] theorem putToPool_BeginFi (d : Deque V) : d.putToPool.BeginFi = d.BeginFi := rfl

@[simp] theorem putToPool_EndFi (d : Deque V) : d.putToPool.EndFi = d.EndFi := rfl

@[simp] theorem putToPool_SizeFi (d : Deque V) : d.putToPool.SizeFi = d.SizeFi := rfl

theorem setSlot_eq (d : Deque V) {i : Nat} (h : i < d.Segs.length) (x : Option (Segment V)) :
    d.setSlot i x = .ok { d with Segs := d.Segs.set i x } := by
  unfold Deque.setSlot
  rw [if_pos h]

/-- The shrink check on a well-formed state with at least two directory slots, with the
directory it leaves. -/
theorem shrink_inv_cap {d : Deque V} {segs : List (List V)} (h : Inv d segs)
    (h2 : 2 ≤ d.Segs.length) :
    ∃ d', d.shrinkIfNeeded = .ok d' ∧ Inv d' segs
      ∧ (segs.length * 2 * 6 / 5 < d.Segs.length →
          d'.Segs.length = d.Segs.length / 2 ∧ d'.BeginFi = 0 ∧ d'.EndFi = segs.length)
      ∧ (¬ segs.length * 2 * 6 / 5 < d.Segs.length → d'.Segs.length = d.Segs.length) := by
  obtain ⟨S', b', e', h1, l1, hst, hp, hf, hn⟩ :=
    h.lay.shrinkIfNeeded_cap h.used_eq h.strict h2 h.pow2
  exact ⟨_, h1, ⟨l1, hst, hp, h.size, h.shape⟩, hf, fun hh => by rw [(hn hh).1]⟩

/-- The last step of `PopFront` and `PopBack` with the directory it leaves: the shrink check
and the result. -/
theorem finish_shrink_cap {α : Type} (x : α) (T : Deque V) (segs : List (List V)) (L : List V)
    (cap : Nat) (hi : Inv T segs) (h2 : 2 ≤ T.Segs.length) (hL : segs.flatten = L)
    (hc : T.Segs.length = cap) :
    ∃ d' segs', (T.shrinkIfNeeded >>= fun d => (pure (x, d) : Res (α × Deque V))) = .ok (x, d')
      ∧ Inv d' segs' ∧ segs'.flatten = L
      ∧ (segs'.length * 2 * 6 / 5 < cap →
          d'.Segs.length = cap / 2 ∧ d'.BeginFi = 0 ∧ d'.EndFi = segs'.length)
      ∧ (¬ segs'.length * 2 * 6 / 5 < cap → d'.Segs.length = cap) := by
  obtain ⟨d', h3, i3, hf, hn⟩ := shrink_inv_cap hi h2
  rw [hc] at hf hn
  exact ⟨d', segs, by rw [h3]; rfl, i3, hL, hf, hn⟩

/-- The last step of `PopFront` and `PopBack`: the shrink check and the result. -/
theorem finish_shrink {α : Type} (x : α) (T : Deque V) (segs : List (List V)) (L : List V)
    (hi : Inv T segs) (h2 : 2 ≤ T.Segs.length) (hL : segs.flatten = L) :
    ∃ d' segs', (T.shrinkIfNeeded >>= fun d => (pure (x, d) : Res (α × Deque V))) = .ok (x, d')
      ∧ Inv d' segs' ∧ segs'.flatten = L := by
  obtain ⟨d', h3, i3⟩ := shrink_inv hi h2
  exact ⟨d', segs, by rw [h3]; rfl, i3, hL⟩

/-- The result of `PopFront` on a well-formed non-empty state, with the directory it leaves:
halved and rebased when the shrink test fires on the segments left, unchanged in size
otherwise. -/
theorem PopFront_inv_cap [Inhabited V] {d : Deque V} {x : V} {xs : List V}
    {rest : List (List V)} (h : Inv d ((x :: xs) :: rest)) :
    ∃ d' segs', d.PopFront = .ok (x, d') ∧ Inv d' segs' ∧ segs'.flatten = xs ++ rest.flatten
      ∧ (segs'.length * 2 * 6 / 5 < d.Segs.length →
          d'.Segs.length = d.Segs.length / 2 ∧ d'.BeginFi = 0 ∧ d'.EndFi = segs'.length)
      ∧ (¬ segs'.length * 2 * 6 / 5 < d.Segs.length → d'.Segs.length = d.Segs.length) := by
  have hn := h.cap_pos
  have hsz := h.size
  have hst := h.strict
  have hb := h.lay.begin_lt
  simp only [List.flatten_cons, List.length_append, List.length_cons] at hsz hst
  have l1 := h.lay.set_first xs
  unfold Deque.PopFront
  rw [if_neg (by omega), h.lay.slot_begin]
  simp only [ok_bind, List.getElem?_cons_zero, Option.map_some', deref,
    Segment.popFront_cons, Segment.size]
  by_cases hxs : xs = []
  · subst hxs
    have l2 := l1.pop_front_seg
    have hb' : d.BeginFi < (d.mutate d.BeginFi ⟨[]⟩).putToPool.Segs.length := by simpa using hb
    simp only [List.length_nil, if_true, mutate_BeginFi, setSlot_eq _ hb', ok_bind]
    rw [Lay.nextIndex_eq _ (by simpa using hn)]
    simp only [ok_bind, pure_eq_ok]
    refine finish_shrink_cap x _ rest _ _ ⟨by simpa using l2, by simp; omega,
      by simpa using h.pow2, ?_, ?_⟩ (by simp; omega) (by simp) (by simp)
    · simp only [List.length_nil] at hsz
      show d.SizeFi - 1 = rest.flatten.length
      omega
    · have := h.shape
      simp only [List.map_cons] at this
      exact this.tail
  · have hpos : 0 < xs.length := List.length_pos.mpr hxs
    rw [if_neg (by omega)]
    simp only [ok_bind, pure_eq_ok]
    refine finish_shrink_cap x _ (xs :: rest) _ _ ⟨l1, by simpa using h.strict,
      by simpa using h.pow2, ?_, ?_⟩ (by simp; omega) (by simp) (by simp)
    · show d.SizeFi - 1 = (xs :: rest).flatten.length
      simp only [List.flatten_cons, List.length_append]
      omega
    · have := h.shape
      simp only [List.map_cons, List.length_cons] at this
      have hle := (this.1 (xs.length + 1) (by simp)).2
      exact this.head_change (by omega) (by omega)

theorem PopFront_inv [Inhabited V] {d : Deque V} {x : V} {xs : List V} {rest : List (List V)}
    (h : Inv d ((x :: xs) :: rest)) :
    ∃ d' segs', d.PopFront = .ok (x, d') ∧ Inv d' segs' ∧ segs'.flatten = xs ++ rest.flatten := by
  obtain ⟨d', segs', h1, h2, h3, -⟩ := PopFront_inv_cap h
  exact ⟨d', segs', h1, h2, h3⟩

/-- The result of `PopBack` on a well-formed non-empty state, with the directory it leaves:
halved and rebased when the shrink test fires on the segments left, unchanged in size
otherwise. -/
theorem PopBack_inv_cap [Inhabited V] {d : Deque V} {y : V} {ys : List V}
    {init : List (List V)} (h : Inv d (init ++ [ys ++ [y]])) :
    ∃ d' segs', d.PopBack = .ok (y, d') ∧ Inv d' segs' ∧ segs'.flatten = init.flatten ++ ys
      ∧ (segs'.length * 2 * 6 / 5 < d.Segs.length →
          d'.Segs.length = d.Segs.length / 2 ∧ d'.BeginFi = 0 ∧ d'.EndFi = segs'.length)
      ∧ (¬ segs'.length * 2 * 6 / 5 < d.Segs.length → d'.Segs.length = d.Segs.length) := by
  have hn := h.cap_pos
  have hsz := h.size
  have hst := h.strict
  simp only [List.flatten_append, List.flatten_cons, List.flatten_nil, List.append_nil,
    List.length_append, List.length_cons, List.length_nil] at hsz hst
  have l1 := Lay.set_mid (R := []) h.lay ys
  have hpre := h.lay.pre_end (by simp)
  simp only [List.length_append, List.length_singleton, Nat.add_sub_cancel] at hpre
  unfold Deque.PopBack
  rw [if_neg (by omega), Lay.preIndex_eq d hn, hpre]
  simp only [ok_bind, Lay.slot_mid (R := []) h.lay, deref, Segment.popBack_concat,
    Segment.size]
  by_cases hys : ys = []
  · subst hys
    have l1' : LayT (d.Segs.set ((d.BeginFi + init.length) % d.Segs.length) (some ⟨[]⟩))
        d.BeginFi d.EndFi (init ++ [[]]) := l1
    have l2 := l1'.pop_back_seg
    simp only [List.length_set, hpre, List.set_set] at l2
    have hi' : (d.BeginFi + init.length) % d.Segs.length
        < (d.mutate ((d.BeginFi + init.length) % d.Segs.length) ⟨[]⟩).putToPool.Segs.length := by
      simpa using Nat.mod_lt _ hn
    simp only [List.length_nil, if_true, setSlot_eq _ hi', ok_bind, pure_eq_ok]
    refine finish_shrink_cap y _ init _ _ ⟨by simpa using l2, by simp; omega,
      by simpa using h.pow2, ?_, ?_⟩ (by simp; omega) (by simp) (by simp)
    · show d.SizeFi - 1 = init.flatten.length
      simp only [List.length_nil] at hsz
      omega
    · have := h.shape
      simp only [List.map_append, List.map_cons, List.map_nil] at this
      exact this.dropLast
  · have hpos : 0 < ys.length := List.length_pos.mpr hys
    rw [if_neg (by omega)]
    simp only [ok_bind, pure_eq_ok]
    refine finish_shrink_cap y _ (init ++ [ys]) _ _ ⟨l1, by simpa using h.strict,
      by simpa using h.pow2, ?_, ?_⟩ (by simp; omega) (by simp) (by simp)
    · show d.SizeFi - 1 = (init ++ [ys]).flatten.length
      simp only [List.flatten_append, List.flatten_cons, List.flatten_nil, List.append_nil,
        List.length_append]
      omega
    · have := h.shape
      simp only [List.map_append, List.map_cons, List.map_nil, List.length_append,
        List.length_cons, List.length_nil] at this
      have hle := (this.1 (ys.length + (0 + 1)) (by simp)).2
      simp only [List.map_append, List.map_cons, List.map_nil]
      exact this.last_change (by omega) (by omega)

theorem PopBack_inv [Inhabited V] {d : Deque V} {y : V} {ys : List V} {init : List (List V)}
    (h : Inv d (init ++ [ys ++ [y]])) :
    ∃ d' segs', d.PopBack = .ok (y, d') ∧ Inv d' segs' ∧ segs'.flatten = init.flatten ++ ys := by
  obtain ⟨d', segs', h1, h2, h3, -⟩ := PopBack_inv_cap h
  exact ⟨d', segs', h1, h2, h3⟩

theorem flatten_full (P : List (List V)) (h : ∀ m ∈ P, m.length = 128) :
    P.flatten.length = 128 * P.length := by
  induction P with
  | nil => rfl
  | cons m P ih =>
    have h1 := h m (List.mem_cons_self _ _)
    have h2 := ih (fun m' hm' => h m' (List.mem_cons_of_mem _ hm'))
    simp only [List.flatten_cons, List.length_append, List.length_cons, h1, h2]
    omega

/-- Every position of the element sequence lies in exactly one segment. -/
theorem locate (segs : List (List V)) :
    ∀ p, p < segs.flatten.length →
      ∃ P s R o, segs = P ++ s :: R ∧ o < s.length ∧ p = P.flatten.length + o := by
  induction segs with
  | nil => intro p hp; simp at hp
  | cons s rest ih =>
    intro p hp
    simp only [List.flatten_cons, List.length_append] at hp
    by_cases h : p < s.length
    · exact ⟨[], s, rest, p, rfl, h, by simp⟩
    · obtain ⟨P, s', R, o, h1, h2, h3⟩ := ih (p - s.length) (by omega)
      refine ⟨s :: P, s', R, o, by rw [h1]; rfl, h2, ?_⟩
      simp only [List.flatten_cons, List.length_append]
      omega

theorem Shape.mid_full {a b : Nat} {A C : List Nat} (h : Shape (a :: (A ++ b :: C))) :
    ∀ x ∈ A, x = 128 := by
  intro x hx
  apply h.2 x
  simp only [List.tail_cons]
  rw [List.dropLast_append_of_ne_nil _ (by simp)]
  exact List.mem_append_left _ hx

theorem Shape.mid_full_segs {t s : List V} {P R : List (List V)}
    (h : Shape ((t :: (P ++ s :: R)).map List.length)) : ∀ m ∈ P, m.length = 128 := by
  intro m hm
  simp only [List.map_cons, List.map_append] at h
  exact h.mid_full m.length (List.mem_map_of_mem _ hm)

namespace Inv

variable {d : Deque V}

/-- The positional resolution `pos` finds the segment and the offset of a valid position. -/
theorem pos_eq {P R : List (List V)} {s : List V} (h : Inv d (P ++ s :: R)) {o : Nat}
    (ho : o < s.length) : d.pos (P.flatten.length + o) = .ok (P.length, o) := by
  unfold Deque.pos
  rw [h.lay.firstSegment_eq]
  rcases P with _ | ⟨t, P⟩
  · simp only [List.nil_append, List.getElem?_cons_zero, Option.map_some', deref, ok_bind,
      Segment.size, List.flatten_nil, List.length_nil, Nat.zero_add]
    rw [if_pos (by omega)]
    rfl
  · have hfull := flatten_full P h.shape.mid_full_segs
    have hs := (h.shape.1 s.length (by simp)).2
    simp only [List.cons_append, List.getElem?_cons_zero, Option.map_some', deref, ok_bind,
      Segment.size, List.flatten_cons, List.length_append, List.length_cons, SegmentCapacity_eq]
    rw [if_neg (by omega)]
    simp only [pure_eq_ok]
    congr 2 <;> omega

end Inv

theorem getElem?_mid_flatten (P R : List (List V)) (s : List V) (o : Nat) (ho : o < s.length) :
    (P ++ s :: R).flatten[P.flatten.length + o]? = s[o]? := by
  simp only [List.flatten_append, List.flatten_cons]
  rw [List.getElem?_append_right (by omega), Nat.add_sub_cancel_left,
    List.getElem?_append_left ho]

theorem set_mid_flatten (P R : List (List V)) (s : List V) (o : Nat) (v : V)
    (ho : o < s.length) :
    (P ++ s.set o v :: R).flatten = (P ++ s :: R).flatten.set (P.flatten.length + o) v := by
  simp only [List.flatten_append, List.flatten_cons]
  rw [List.set_append_right _ _ (by omega), Nat.add_sub_cancel_left, List.set_append_left _ _ ho]

theorem Valid.inv_of_ne_nil {d : Deque V} {L : List V} (h : Valid d L) (hL : L ≠ []) :
    ∃ segs, Inv d segs ∧ segs.flatten = L := by
  rcases h with ⟨-, rfl⟩ | h
  · exact absurd rfl hL
  · exact h

theorem At_out [Inhabited V] (d : Deque V) (pos : Int) (h : pos < 0 ∨ pos ≥ d.Size) :
    d.At pos = .ok default := by
  unfold Deque.At
  rw [if_pos h]
  rfl

theorem At_valid [Inhabited V] {d : Deque V} {L : List V} (h : Valid d L) (p : Nat)
    (hp : p < L.length) : d.At (p : Int) = .ok L[p] := by
  obtain ⟨segs, hinv, rfl⟩ := h.inv_of_ne_nil (by rintro rfl; simp at hp)
  obtain ⟨P, s, R, o, rfl, ho, rfl⟩ := locate segs p hp
  have hsz := hinv.size
  unfold Deque.At Deque.Size
  rw [if_neg (by omega)]
  simp only [Int.toNat_ofNat, hinv.pos_eq ho, ok_bind, hinv.lay.segmentAt_mid, deref,
    Segment.at, List.getElem?_eq_getElem ho]
  have := getElem?_mid_flatten P R s o ho
  rw [List.getElem?_eq_getElem hp, List.getElem?_eq_getElem ho] at this
  rw [Option.some.inj this]

theorem Set_out (d : Deque V) (pos : Int) (v : V) (h : pos < 0 ∨ pos ≥ d.SizeFi) :
    d.Set pos v = .ok (d, some .ErrOutOffRange) := by
  unfold Deque.Set
  rw [if_pos h]
  rfl

theorem Set_valid {d : Deque V} {L : List V} (h : Valid d L) (p : Nat)
    (hp : p < L.length) (v : V) :
    ∃ d', d.Set (p : Int) v = .ok (d', none) ∧ Valid d' (L.set p v)
      ∧ d'.SizeFi = d.SizeFi := by
  obtain ⟨segs, hinv, rfl⟩ := h.inv_of_ne_nil (by rintro rfl; simp at hp)
  obtain ⟨P, s, R, o, rfl, ho, rfl⟩ := locate segs p hp
  have hsz := hinv.size
  have l1 := hinv.lay.set_mid (s.set o v)
  refine ⟨d.mutate ((d.BeginFi + P.length) % d.Segs.length) ⟨s.set o v⟩, ?_, Or.inr
    ⟨P ++ s.set o v :: R, ⟨l1, by simpa using hinv.strict, by simpa using hinv.pow2, ?_, ?_⟩,
      set_mid_flatten P R s o v ho⟩, rfl⟩
  · unfold Deque.Set
    rw [if_neg (by omega)]
    simp only [Int.toNat_ofNat, hinv.pos_eq ho, ok_bind, hinv.lay.segIndex_nat,
      hinv.lay.slot_mid, deref, Segment.set, if_pos ho, pure_eq_ok]
  · rw [mutate_SizeFi, hsz, set_mid_flatten P R s o v ho, List.length_set]
  · simpa using hinv.shape

theorem Pop_empty_front [Inhabited V] (d : Deque V) (h : d.SizeFi = 0) :
    d.PopFront = .ok (default, d) := by
  unfold Deque.PopFront
  rw [if_pos h]
  rfl

theorem Pop_empty_back [Inhabited V] (d : Deque V) (h : d.SizeFi = 0) :
    d.PopBack = .ok (default, d) := by
  unfold Deque.PopBack
  rw [if_pos h]
  rfl

theorem PopFront_valid [Inhabited V] {d : Deque V} {x : V} {L : List V}
    (h : Valid d (x :: L)) : ∃ d', d.PopFront = .ok (x, d') ∧ Valid d' L := by
  obtain ⟨segs, hinv, hfl⟩ := h.inv_of_ne_nil (by simp)
  rcases segs with _ | ⟨s, rest⟩
  · simp at hfl
  · have hs := (hinv.shape.1 s.length (by simp)).1
    rcases s with _ | ⟨x', xs⟩
    · simp at hs
    · simp only [List.flatten_cons, List.cons_append, List.cons.injEq] at hfl
      obtain ⟨rfl, rfl⟩ := hfl
      obtain ⟨d', segs', h1, h2, h3⟩ := PopFront_inv hinv
      exact ⟨d', h1, Or.inr ⟨segs', h2, h3⟩⟩

theorem PopBack_valid [Inhabited V] {d : Deque V} {y : V} {L : List V}
    (h : Valid d (L ++ [y])) : ∃ d', d.PopBack = .ok (y, d') ∧ Valid d' L := by
  obtain ⟨segs, hinv, hfl⟩ := h.inv_of_ne_nil (by simp)
  rcases List.eq_nil_or_concat segs with rfl | ⟨init, s, rfl⟩
  · simp at hfl
  · have hs := (hinv.shape.1 s.length (by simp)).1
    rcases List.eq_nil_or_concat s with rfl | ⟨ys, y', rfl⟩
    · simp at hs
    · simp only [List.concat_eq_append, List.flatten_append, List.flatten_cons,
        List.flatten_nil, List.append_nil, ← List.append_assoc] at hfl
      obtain ⟨rfl, h2⟩ := List.append_inj' hfl rfl
      simp only [List.cons.injEq, and_true] at h2
      subst h2
      have hinv' : Inv d (init ++ [ys ++ [y']]) := by simpa using hinv
      obtain ⟨d', segs', h1, h2, h3⟩ := PopBack_inv hinv'
      exact ⟨d', h1, Or.inr ⟨segs', h2, h3⟩⟩

theorem erase_mid_flatten (P R : List (List V)) (s : List V) (o : Nat) (ho : o < s.length) :
    (P ++ s.eraseIdx o :: R).flatten
      = (P ++ s :: R).flatten.eraseIdx (P.flatten.length + o) := by
  simp only [List.flatten_append, List.flatten_cons]
  rw [List.eraseIdx_append_of_length_le (by omega), Nat.add_sub_cancel_left,
    List.eraseIdx_append_of_lt_length ho]

theorem dropLast_append_last (t : List V) : t.dropLast ++ (t.getLast?).toList = t := by
  rcases List.eq_nil_or_concat t with rfl | ⟨ys, y, rfl⟩
  · rfl
  · simp

/-- The shrink check of `EraseAt`, evaluated before `SizeFi` is decremented, when a
segment remains in use. -/
theorem finish_shrink_size (T : Deque V) (segs : List (List V)) (L : List V) (l : Lay T segs)
    (hne : segs ≠ []) (hs : T.SizeFi ≠ 0) (hst : segs.length < T.Segs.length)
    (hp : ∃ k, T.Segs.length = 2 ^ k) (hsz : T.SizeFi - 1 = segs.flatten.length)
    (hsh : Shape (segs.map List.length)) (hL : segs.flatten = L) :
    ∃ d' segs',
      (T.shrinkIfNeeded >>= fun d => (pure { d with SizeFi := d.SizeFi - 1 } : Res (Deque V)))
        = .ok d' ∧ Inv d' segs' ∧ segs'.flatten = L := by
  have hpos : 0 < segs.length := List.length_pos.mpr hne
  obtain ⟨S', b', e', h1, l1, hst1, hp1⟩ :=
    l.shrinkIfNeeded_spec (l.segUsed_eq hs hne) hst (by omega) hp
  exact ⟨_, segs, by rw [h1]; rfl, ⟨l1, hst1, hp1, hsz, hsh⟩, hL⟩

/-- The shrink check of `EraseAt` when the last segment has just been released: `segUsed()`
still sees `SizeFi = 1` and reports a full directory, so nothing is reallocated. -/
theorem finish_noop_size (T : Deque V) (L : List V) (l : Lay T []) (hs : T.SizeFi = 1)
    (hp : ∃ k, T.Segs.length = 2 ^ k) (hL : L = []) :
    ∃ d' segs',
      (T.shrinkIfNeeded >>= fun d => (pure { d with SizeFi := d.SizeFi - 1 } : Res (Deque V)))
        = .ok d' ∧ Inv d' segs' ∧ segs'.flatten = L := by
  have hsu := l.segUsed_nil (by omega)
  have hn := l.cap_pos
  refine ⟨{ T with SizeFi := T.SizeFi - 1 }, [], ?_, ⟨l, hn, hp, ?_, Shape.nil⟩, by simp [hL]⟩
  · rw [Lay.shrinkIfNeeded_noop _ (by rw [hsu]; omega)]
    rfl
  · show T.SizeFi - 1 = 0
    omega

theorem Segment.empty_nil : (⟨[]⟩ : Segment V).empty = true := rfl

theorem Segment.empty_of_ne {c : List V} (h : c.length ≠ 0) : (⟨c⟩ : Segment V).empty = false := by
  rcases c with _ | ⟨x, xs⟩
  · simp at h
  · rfl

theorem Segment.empty_mk (c : List V) : (⟨c⟩ : Segment V).empty = decide (c.length = 0) := by
  rcases c with _ | ⟨x, xs⟩ <;> simp [Segment.empty]

/-- The backward cascade of `EraseAt`: the gap left in segment `|P|` travels to the first
segment. -/
theorem cascade_back {d : Deque V} {P R : List (List V)} {s c : List V}
    (hsh : Shape ((P ++ s :: R).map List.length)) {S1 : List (Option (Segment V))}
    (l1 : LayT S1 d.BeginFi d.EndFi (P ++ c :: R)) (hc : c.length + 1 = s.length) :
    ∃ S2 f Rest, shiftBackLoop P.length ({ d with Segs := S1 } : Deque V) (P.length : Int)
        = .ok { d with Segs := S2 }
      ∧ S2.length = S1.length ∧ LayT S2 d.BeginFi d.EndFi (f :: Rest)
      ∧ (f :: Rest).flatten = (P ++ c :: R).flatten
      ∧ ∃ a tl, (P ++ s :: R).map List.length = a :: tl ∧ f.length = a - 1
          ∧ Rest.map List.length = tl := by
  have hs128 := (hsh.1 s.length (by simp)).2
  rcases P with _ | ⟨t, ms⟩
  · exact ⟨S1, c, R, rfl, rfl, l1, rfl, s.length, R.map List.length, rfl, by omega, rfl⟩
  · have ht := (hsh.1 t.length (by simp)).1
    have hms : ∀ m ∈ ms, m ≠ [] ∧ m.length ≤ 128 := by
      intro m hm
      have := hsh.1 m.length (List.mem_map_of_mem _ (by simp [hm]))
      exact ⟨List.length_pos.mp (by omega), this.2⟩
    have l1' : Lay ({ d with Segs := S1 } : Deque V) ([] ++ t :: (ms ++ c :: R)) := l1
    obtain ⟨S2, X, e2, len2, l2, hX, hXl⟩ := Lay.shiftBackLoop_spec ms _ [] t c R l1'
      (by omega) hms (List.length_pos.mp (by omega))
    refine ⟨S2, t.dropLast, X ++ R, ?_, len2, l2, ?_, t.length,
      ms.map List.length ++ s.length :: R.map List.length, by simp, by simp, ?_⟩
    · have : (((t :: ms).length : Nat) : Int) = (([] : List (List V)).length + ms.length + 1 : Nat) := by
        simp
      rw [this, List.length_cons, e2]
    · simp only [List.flatten_cons, List.flatten_append, hX, List.cons_append]
      rw [← List.append_assoc, ← List.append_assoc, ← List.append_assoc, dropLast_append_last]
      simp
    · simp [hXl, hc]

theorem no_successor {d : Deque V} {P R : List (List V)} {s : List V} (h : Inv d (P ++ s :: R))
    (hcond : ¬ (P.length : Int) < (d.SizeFi : Int) - P.length - 1) : R = [] := by
  by_contra hR
  have hsz := h.size
  have hsh := h.shape
  have hs := (hsh.1 s.length (by simp)).1
  have hRpos : 0 < R.flatten.length :=
    flatten_length_pos hR (fun x hx => hsh.1 x (by
      simp only [List.map_append, List.map_cons, List.mem_append, List.mem_cons]
      exact Or.inr (Or.inr hx)))
  simp only [List.flatten_append, List.flatten_cons, List.length_append] at hsz
  rcases P with _ | ⟨t, ms⟩
  · simp only [List.length_nil, List.flatten_nil] at hsz hcond
    omega
  · have hfull := flatten_full ms hsh.mid_full_segs
    obtain ⟨r, R', rfl⟩ := List.exists_cons_of_ne_nil hR
    have hs128 : s.length = 128 := by
      have h1 : Shape (t.length :: ((ms.map List.length ++ [s.length])
          ++ r.length :: R'.map List.length)) := by simpa using hsh
      exact h1.mid_full s.length (by simp)
    simp only [List.flatten_cons, List.length_append, List.length_cons] at hsz hcond
    push_cast at hcond
    omega

theorem EraseAt_inv {d : Deque V} {P R : List (List V)} {s : List V} (h : Inv d (P ++ s :: R))
    {o : Nat} (ho : o < s.length) :
    ∃ d' segs', d.EraseAt ((P.flatten.length + o : Nat) : Int) = .ok d' ∧ Inv d' segs'
      ∧ segs'.flatten = (P ++ s :: R).flatten.eraseIdx (P.flatten.length + o) := by
  have hn := h.cap_pos
  have hsz := h.size
  have hst := h.strict
  have hsh := h.shape
  have hs128 := (hsh.1 s.length (by simp)).2
  have hb := h.lay.begin_lt
  simp only [List.flatten_append, List.flatten_cons, List.length_append, List.length_cons]
    at hsz hst
  obtain ⟨S1, e1, len1, l1⟩ := h.lay.eraseInSegment_ok ho
  have hc : (s.eraseIdx o).length = s.length - 1 := List.length_eraseIdx_of_lt ho
  have hfl := erase_mid_flatten P R s o ho
  have hLlen : ((P ++ s :: R).flatten.eraseIdx (P.flatten.length + o)).length = d.SizeFi - 1 := by
    have hlt : P.flatten.length + o < (P ++ s :: R).flatten.length := by
      simp only [List.flatten_append, List.flatten_cons, List.length_append]
      omega
    rw [List.length_eraseIdx_of_lt hlt]
    simp only [List.flatten_append, List.flatten_cons, List.length_append]
    omega
  unfold Deque.EraseAt
  rw [if_neg (by omega)]
  simp only [Int.toNat_ofNat, h.pos_eq ho, ok_bind, e1]
  by_cases hcond : (P.length : Int) < (d.SizeFi : Int) - P.length - 1
  · rw [if_pos hcond]
    obtain ⟨S2, f, Rest, e2, len2, l2, hfl2, a, tl, hlens, hf, hRest⟩ :=
      cascade_back (d := d) hsh l1 (by omega)
    rw [hlens] at hsh
    have ha := hsh.1 a (by simp)
    have l2' : Lay ({ d with Segs := S2 } : Deque V) (f :: Rest) := l2
    rw [e2]
    simp only [ok_bind, l2'.firstSegment_eq, List.getElem?_cons_zero, Option.map_some', deref]
    by_cases hf0 : f.length = 0
    · have hfnil : f = [] := List.length_eq_zero.mp hf0
      subst hfnil
      have hb' : d.BeginFi < (({ d with Segs := S2 } : Deque V).putToPool).Segs.length := by
        simpa [len2, len1] using hb
      simp only [Segment.empty_nil, if_true, setSlot_eq _ hb', ok_bind]
      rw [Lay.nextIndex_eq _ (by simpa [len2, len1] using hn)]
      simp only [ok_bind]
      have hRne : Rest ≠ [] := by
        rintro rfl
        rw [← hfl, ← hfl2] at hLlen
        simp only [List.flatten_cons, List.flatten_nil, List.append_nil, List.length_nil]
          at hLlen
        omega
      have hule := l2.used_le
      simp only [List.length_cons] at hule
      refine finish_shrink_size _ Rest _ (by simpa using l2.pop_front_seg) hRne
        (show d.SizeFi ≠ 0 by omega) (by simp; omega) (by simpa [len2, len1] using h.pow2) ?_
        (by rw [hRest]; exact hsh.tail) (by rw [← hfl, ← hfl2]; simp)
      show d.SizeFi - 1 = Rest.flatten.length
      rw [← hLlen, ← hfl, ← hfl2]; simp
    · simp only [Segment.empty_of_ne hf0, Bool.false_eq_true, if_false, pure_eq_ok, ok_bind]
      refine ⟨_, f :: Rest, rfl, ⟨l2, ?_, by simpa [len2, len1] using h.pow2, ?_, ?_⟩,
        by rw [← hfl, ← hfl2]⟩
      · have e : (f :: Rest).length = (P ++ s :: R).length := by
          have := congrArg List.length hlens
          simp only [List.length_map, List.length_cons] at this
          rw [this, List.length_cons, ← hRest, List.length_map]
        show (f :: Rest).length < S2.length
        rw [e, len2, len1]
        exact h.strict
      · show d.SizeFi - 1 = (f :: Rest).flatten.length
        rw [← hLlen, ← hfl, ← hfl2]
      · simp only [List.map_cons, hRest, hf]
        exact hsh.head_change (by omega) (by omega)
  · rw [if_neg hcond]
    have hR := no_successor h hcond
    subst hR
    have l1' : Lay ({ d with Segs := S1 } : Deque V) (P ++ [s.eraseIdx o]) := l1
    have hsu : ({ d with Segs := S1 } : Deque V).segUsed = P.length + 1 := by
      rw [l1'.segUsed_eq (show d.SizeFi ≠ 0 by omega) (by simp)]
      simp
    simp only [hsu, Nat.add_sub_cancel_left, Nat.add_sub_cancel, Nat.sub_self,
      Lay.shiftFrontLoop_zero, ok_bind, l1'.lastSegment_eq, getLast?_snoc, Option.map_some',
      deref]
    by_cases hc0 : (s.eraseIdx o).length = 0
    · have hcnil : s.eraseIdx o = [] := List.length_eq_zero.mp hc0
      rw [hcnil] at l1 l1' hfl
      have hpre := l1'.pre_end (by simp)
      simp only [List.length_append, List.length_singleton, Nat.add_sub_cancel] at hpre
      have hi' : (d.BeginFi + P.length) % S1.length
          < (({ d with Segs := S1 } : Deque V).putToPool).Segs.length := by
        simpa using Nat.mod_lt _ (by omega)
      rw [hcnil, Lay.preIndex_eq _ (show 0 < S1.length by omega)]
      simp only [Segment.empty_nil, if_true, ok_bind, hpre, setSlot_eq _ hi']
      rw [Lay.preIndex_eq _ (by simpa using (show 0 < S1.length by omega))]
      simp only [ok_bind, putToPool_EndFi, putToPool_Segs, List.length_set, hpre]
      have l2 := l1.pop_back_seg
      rw [hpre] at l2
      simp only [List.flatten_nil, List.length_nil, Nat.add_zero] at hsz
      by_cases hP : P = []
      · subst hP
        refine finish_noop_size _ _ l2 ?_ (by simpa [len1] using h.pow2) (by rw [← hfl]; simp)
        show d.SizeFi = 1
        simp only [List.flatten_nil, List.length_nil] at hsz
        omega
      · refine finish_shrink_size _ P _ l2 hP (show d.SizeFi ≠ 0 by omega) (by simp; omega)
          (by simpa [len1] using h.pow2) ?_ ?_ (by rw [← hfl]; simp)
        · show d.SizeFi - 1 = P.flatten.length
          rw [← hLlen, ← hfl]; simp
        · have := hsh
          simp only [List.map_append, List.map_cons, List.map_nil] at this
          exact this.dropLast
    · simp only [Segment.empty_of_ne hc0, Bool.false_eq_true, if_false, pure_eq_ok, ok_bind]
      refine ⟨_, P ++ [s.eraseIdx o], rfl, ⟨l1, by simpa [len1] using h.strict,
        by simpa [len1] using h.pow2, ?_, ?_⟩, hfl⟩
      · show d.SizeFi - 1 = (P ++ [s.eraseIdx o]).flatten.length
        rw [← hLlen, ← hfl]
      · have := hsh
        simp only [List.map_append, List.map_cons, List.map_nil] at this ⊢
        exact this.last_change (by omega) (by omega)

theorem ins_append_right (A B : List V) (o : Nat) (v : V) :
    ins (A.length + o) v (A ++ B) = A ++ ins o v B := by
  unfold ins
  rw [List.take_append, List.drop_append]
  simp

theorem ins_append_left (A B : List V) (o : Nat) (v : V) (ho : o ≤ A.length) :
    ins o v (A ++ B) = ins o v A ++ B := by
  unfold ins
  rw [List.take_append_of_le_length ho, List.drop_append_of_le_length ho]
  simp

theorem ins_mid_flatten (P R : List (List V)) (s : List V) (o : Nat) (v : V)
    (ho : o ≤ s.length) :
    (P ++ ins o v s :: R).flatten = ins (P.flatten.length + o) v (P ++ s :: R).flatten := by
  simp only [List.flatten_append, List.flatten_cons]
  rw [ins_append_right, ins_append_left _ _ _ _ ho]

theorem ins_length (p : Nat) (v : V) (l : List V) (hp : p ≤ l.length) :
    (ins p v l).length = l.length + 1 := by
  unfold ins
  simp
  omega

theorem ins_drop_one (t : List V) (o : Nat) (v : V) (h1 : 1 ≤ o) (h2 : o ≤ t.length) :
    t.take 1 ++ ins (o - 1) v (t.drop 1) = ins o v t := by
  rcases t with _ | ⟨x, xs⟩
  · simp at h2; omega
  · obtain ⟨k, rfl⟩ : ∃ k, o = k + 1 := ⟨o - 1, by omega⟩
    simp [ins]

theorem ins_end (l : List V) (v : V) : ins l.length v l = l ++ [v] := by
  simp [ins]

theorem getLast?_append_one {α : Type} (l : List α) (a : α) : (l ++ [a]).getLast? = some a := by
  simp

theorem ins_dropLast (s : List V) (o : Nat) (v : V) (ho : o < s.length) :
    ins o v s.dropLast ++ (s.getLast?).toList = ins o v s := by
  rcases List.eq_nil_or_concat s with rfl | ⟨ys, y, rfl⟩
  · simp at ho
  · simp only [List.concat_eq_append, List.length_append, List.length_singleton] at ho
    simp only [List.concat_eq_append, List.dropLast_concat, getLast?_append_one, Option.toList_some]
    rw [ins_append_left _ _ _ _ (by omega)]

theorem insertAt_ins {d : Deque V} {P R : List (List V)} {s : List V} (h : Lay d (P ++ s :: R))
    {o : Nat} (ho : o ≤ s.length) (v : V) :
    ∃ S', d.insertAt (P.length : Int) o v = .ok { d with Segs := S' }
      ∧ S'.length = d.Segs.length
      ∧ LayT S' d.BeginFi d.EndFi (P ++ ins o v s :: R) :=
  h.insertAt_ok ho v

/-- The forward cascade followed by the insertion, as `moveFrontInsert` runs them on a chain
whose first segment has room. -/
theorem frontShiftInsert_spec {d : Deque V} {c t : List V} {ms R : List (List V)}
    (l : Lay d (c :: (ms ++ t :: R))) (hc : c.length < 128)
    (hms : ∀ m ∈ ms, m ≠ [] ∧ m.length ≤ 128) (ht : t ≠ []) {q : Nat}
    (hq : q + 1 ≤ t.length) (v : V) :
    ∃ S' segs', d.frontShiftInsert ((ms.length + 1 : Nat) : Int) q v = .ok { d with Segs := S' }
      ∧ S'.length = d.Segs.length ∧ LayT S' d.BeginFi d.EndFi segs'
      ∧ segs'.flatten = c ++ ms.flatten ++ (t.take 1 ++ ins q v (t.drop 1)) ++ R.flatten
      ∧ segs'.map List.length
          = (c.length + 1) :: (ms.map List.length ++ t.length :: R.map List.length) := by
  have l' : Lay d ([] ++ c :: (ms ++ t :: R)) := l
  obtain ⟨S2, X, e2, len2, l2, hX, hXl⟩ := Lay.shiftFrontLoop_spec ms d [] c t R l' hc hms ht
  have hXlen : X.length = ms.length + 1 := by
    have := congrArg List.length hXl
    simpa using this
  have htl : (t.drop 1).length = t.length - 1 := by simp
  have l2' : Lay ({ d with Segs := S2 } : Deque V) (X ++ t.drop 1 :: R) := by simpa using l2
  obtain ⟨S3, e3, len3, l3⟩ := insertAt_ins l2' (o := q) (by omega) v
  refine ⟨S3, X ++ ins q v (t.drop 1) :: R, ?_, by rw [len3]; exact len2, l3, ?_, ?_⟩
  · unfold Deque.frontShiftInsert
    simp only [List.length_nil, Nat.cast_zero] at e2
    rw [Int.toNat_ofNat, e2]
    simp only [ok_bind]
    rw [← hXlen, e3]
  · simp [hX]
  · have hpos : 0 < t.length := List.length_pos.mpr ht
    simp only [List.map_append, List.map_cons, hXl, ins_length q v (t.drop 1) (by omega), htl,
      List.cons_append]
    congr 3
    omega

/-- The backward cascade followed by the insertion, as `moveBackInsert` runs them on a chain
whose last segment has room. -/
theorem backShiftInsert_spec {d : Deque V} {P ms : List (List V)} {s c : List V}
    (l : Lay d (P ++ s :: (ms ++ [c]))) (hc : c.length < 128)
    (hms : ∀ m ∈ ms, m ≠ [] ∧ m.length ≤ 128) {o : Nat} (ho : o < s.length) (v : V) :
    ∃ S' segs', (shiftBackLoop (ms.length + 1) d ((P.length + ms.length + 1 : Nat) : Int)
          >>= fun d' => d'.insertAt (P.length : Int) o v) = .ok { d with Segs := S' }
      ∧ S'.length = d.Segs.length ∧ LayT S' d.BeginFi d.EndFi segs'
      ∧ segs'.flatten = P.flatten ++ ins o v s ++ ms.flatten ++ c
      ∧ segs'.map List.length
          = P.map List.length ++ s.length :: (ms.map List.length ++ [c.length + 1]) := by
  have hs : s ≠ [] := List.length_pos.mp (by omega)
  obtain ⟨S2, X, e2, len2, l2, hX, hXl⟩ := Lay.shiftBackLoop_spec ms d P s c [] l hc hms hs
  have hdl : s.dropLast.length = s.length - 1 := by simp
  have l2' : Lay ({ d with Segs := S2 } : Deque V) (P ++ s.dropLast :: (X ++ [])) := l2
  obtain ⟨S3, e3, len3, l3⟩ := insertAt_ins l2' (o := o) (by omega) v
  refine ⟨S3, P ++ ins o v s.dropLast :: (X ++ []), ?_, by rw [len3]; exact len2, l3, ?_, ?_⟩
  · rw [e2]
    simp only [ok_bind]
    rw [e3]
  · simp only [List.append_nil, List.flatten_append, List.flatten_cons, hX]
    rw [← ins_dropLast s o v ho]
    simp
  · simp only [List.map_append, List.map_cons, List.append_nil, hXl,
      ins_length o v s.dropLast (by omega), hdl]
    congr 2
    omega

theorem Segment.full_mk (c : List V) : (⟨c⟩ : Segment V).full = decide (c.length = 128) := by
  unfold Segment.full
  simp only [SegmentCapacity_eq]
  by_cases h : c.length = 128 <;> simp [h]

theorem Segment.full_of_eq {c : List V} (h : c.length = 128) : (⟨c⟩ : Segment V).full = true := by
  rw [Segment.full_mk]; simp [h]

theorem Segment.full_of_ne {c : List V} (h : c.length ≠ 128) : (⟨c⟩ : Segment V).full = false := by
  rw [Segment.full_mk]; simp [h]

/-- The lemma `frontShiftInsert_spec` with the resulting state named. -/
theorem frontShiftInsert_state {d : Deque V} {c t : List V} {ms R : List (List V)}
    (l : Lay d (c :: (ms ++ t :: R))) (hc : c.length < 128)
    (hms : ∀ m ∈ ms, m ≠ [] ∧ m.length ≤ 128) (ht : t ≠ []) {q : Nat}
    (hq : q + 1 ≤ t.length) (v : V) {i : Int} (hi : i = ((ms.length + 1 : Nat) : Int)) :
    ∃ T segs', d.frontShiftInsert i q v = .ok T
      ∧ T.SizeFi = d.SizeFi ∧ T.Segs.length = d.Segs.length ∧ Lay T segs'
      ∧ segs'.flatten = c ++ ms.flatten ++ (t.take 1 ++ ins q v (t.drop 1)) ++ R.flatten
      ∧ segs'.map List.length
          = (c.length + 1) :: (ms.map List.length ++ t.length :: R.map List.length) := by
  obtain ⟨S', segs', h1, h2, h3, h4, h5⟩ := frontShiftInsert_spec l hc hms ht hq v
  exact ⟨{ d with Segs := S' }, segs', by rw [hi, h1], rfl, h2, h3, h4, h5⟩

/-- A direct insertion into the first segment, no cascade. -/
theorem frontInsert_direct {d : Deque V} {c : List V} {R : List (List V)}
    (l : Lay d (c :: R)) {q : Nat} (hq : q ≤ c.length) (v : V) :
    ∃ T, d.frontShiftInsert 0 q v = .ok T
      ∧ T.SizeFi = d.SizeFi ∧ T.Segs.length = d.Segs.length ∧ Lay T (ins q v c :: R) := by
  have l' : Lay d ([] ++ c :: R) := l
  obtain ⟨S', h1, h2, h3⟩ := insertAt_ins l' hq v
  refine ⟨{ d with Segs := S' }, ?_, rfl, h2, h3⟩
  unfold Deque.frontShiftInsert
  simp only [Int.toNat_zero, Lay.shiftFrontLoop_zero, ok_bind]
  simpa using h1

theorem frontInsert_direct_err {d : Deque V} {c : List V} {R : List (List V)}
    (l : Lay d (c :: R)) {q : Nat} (hq : c.length < q) (v : V) :
    d.frontShiftInsert 0 q v = .error .segmentContract := by
  have l' : Lay d ([] ++ c :: R) := l
  have := l'.insertAt_err hq v
  unfold Deque.frontShiftInsert
  simp only [Int.toNat_zero, Lay.shiftFrontLoop_zero, ok_bind]
  simpa using this

theorem last_full {ms R : List (List V)} {tl s : List V}
    (hsh : Shape ((ms ++ tl :: s :: R).map List.length))
    (h0 : ms = [] → tl.length = 128) : tl.length = 128 := by
  rcases ms with _ | ⟨t, ms'⟩
  · exact h0 rfl
  · have h1 : Shape (t.length :: ((ms'.map List.length ++ [tl.length])
        ++ s.length :: R.map List.length)) := by simpa using hsh
    exact h1.mid_full tl.length (by simp)

theorem mem_lens {segs : List (List V)} (hsh : Shape (segs.map List.length)) {m : List V}
    (hm : m ∈ segs) : m ≠ [] ∧ m.length ≤ 128 := by
  have := hsh.1 m.length (List.mem_map_of_mem _ hm)
  exact ⟨List.length_pos.mp (by omega), this.2⟩

theorem moveFrontInsert_ok {d : Deque V} {P R : List (List V)} {s : List V}
    (h : Inv d (P ++ s :: R)) {o : Nat} (ho : o < s.length) (hp : 0 < P.flatten.length + o)
    (hnb : ¬ FrontBug P o) (v : V) :
    ∃ T segs', d.moveFrontInsert P.length o v = .ok T ∧ T.SizeFi = d.SizeFi
      ∧ T.Segs.length = d.Segs.length ∧ Lay T segs'
      ∧ segs'.flatten = ins (P.flatten.length + o) v (P ++ s :: R).flatten
      ∧ Shape (segs'.map List.length)
      ∧ segs'.map List.length ≠ [] ∧ segs'.length ≤ (P ++ s :: R).length + 1 := by
  have hn := h.cap_pos
  have hsh := h.shape
  obtain ⟨f0, Q, hQ⟩ : ∃ f0 Q, P ++ s :: R = f0 :: Q := List.exists_cons_of_ne_nil (by simp)
  have hshQ : Shape (f0.length :: Q.map List.length) := by
    have := hsh
    rw [hQ] at this
    simpa using this
  have hf0 := hshQ.1 f0.length (by simp)
  have hfl := ins_mid_flatten P R s o v (le_of_lt ho)
  have hlenQ : (P ++ s :: R).length = Q.length + 1 := by rw [hQ]; rfl
  have hget : (P ++ s :: R)[0]? = some f0 := by rw [hQ]; simp
  unfold Deque.moveFrontInsert
  rw [h.lay.firstSegment_eq]
  simp only [hget, Option.map_some', deref, ok_bind]
  by_cases hfull : f0.length = 128
  · rw [Segment.full_of_eq hfull]
    simp only [if_true]
    rw [Lay.expandIfFull_noop d (by rw [h.used_eq]; exact h.strict)]
    simp only [ok_bind]
    rw [Lay.preIndex_eq d hn]
    simp only [ok_bind, Deque.setSlot, Pool.get]
    rw [if_pos (Nat.mod_lt _ hn)]
    simp only [ok_bind, SegmentCapacity_eq]
    have l1 := h.lay.push_front_seg h.strict []
    have hshape1 : Shape (1 :: f0.length :: Q.map List.length) := by
      rw [hfull] at hshQ ⊢
      exact hshQ.cons_full (by omega) (by omega)
    by_cases ho0 : o = 0
    · subst ho0
      rw [if_pos rfl]
      have hPne : P ≠ [] := by rintro rfl; simp at hp
      obtain ⟨ms, tl, rfl⟩ : ∃ ms tl, P = ms ++ [tl] := by
        rcases List.eq_nil_or_concat P with h0 | ⟨ms, tl, h1⟩
        · exact absurd h0 hPne
        · exact ⟨ms, tl, by simpa using h1⟩
      have hsh' : Shape ((ms ++ tl :: s :: R).map List.length) := by simpa using hsh
      have htl : tl.length = 128 := last_full hsh' (by
        rintro rfl
        simp only [List.nil_append, List.cons_append, List.cons.injEq] at hQ
        rw [hQ.1]; exact hfull)
      have l1' : Lay
          ({ d with
              BeginFi := (d.BeginFi + d.Segs.length - 1) % d.Segs.length,
              Pool := (d.Pool.get (V := V)).2,
              Segs := d.Segs.set ((d.BeginFi + d.Segs.length - 1) % d.Segs.length) (some ⟨[]⟩) }
            : Deque V) ([] :: (ms ++ tl :: (s :: R))) := by simpa using l1
      obtain ⟨T, segs', e1, e2, e3, e4, e5, e6⟩ := frontShiftInsert_state l1' (by simp)
        (fun m hm => mem_lens hsh' (by simp [hm])) (List.length_pos.mp (by omega))
        (q := 127) (by omega) v (i := ((ms ++ [tl]).length : Int)) (by simp)
      refine ⟨T, segs', e1, e2, by simpa using e3, e4, ?_, ?_, ?_, ?_⟩
      · rw [e5, ← hfl]
        have := ins_drop_one tl 128 v (by omega) (by omega)
        simp only [Nat.add_one_sub_one] at this
        have h128 : ins 128 v tl = tl ++ [v] := by rw [← htl]; exact ins_end tl v
        rw [this, h128]
        simp [ins]
      · rw [e6]
        have : (ms ++ [tl] ++ s :: R).map List.length = f0.length :: Q.map List.length := by
          rw [hQ]; rfl
        simp only [List.map_append, List.map_cons, List.map_nil] at this
        simp only [List.length_nil, Nat.zero_add, List.map_cons]
        rw [show ms.map List.length ++ tl.length :: s.length :: R.map List.length
          = f0.length :: Q.map List.length by rw [← this]; simp]
        exact hshape1
      · rw [e6]; simp
      · have := congrArg List.length e6
        simp only [List.length_map, List.length_cons, List.length_append] at this
        simp only [List.length_append, List.length_cons, List.length_nil]
        omega
    · rw [if_neg ho0]
      have l1' : Lay
          ({ d with
              BeginFi := (d.BeginFi + d.Segs.length - 1) % d.Segs.length,
              Pool := (d.Pool.get (V := V)).2,
              Segs := d.Segs.set ((d.BeginFi + d.Segs.length - 1) % d.Segs.length) (some ⟨[]⟩) }
            : Deque V) ([] :: (P ++ s :: R)) := l1
      obtain ⟨T, segs', e1, e2, e3, e4, e5, e6⟩ := frontShiftInsert_state l1' (by simp)
        (fun m hm => mem_lens hsh (by simp [hm])) (List.length_pos.mp (by omega))
        (q := o - 1) (by omega) v (i := (P.length : Int) + 1) (by push_cast; rfl)
      refine ⟨T, segs', e1, e2, by simpa using e3, e4, ?_, ?_, ?_, ?_⟩
      · rw [e5, ← hfl, ins_drop_one s o v (by omega) (by omega)]
        simp
      · rw [e6]
        have : (P ++ s :: R).map List.length = f0.length :: Q.map List.length := by
          rw [hQ]; rfl
        simp only [List.map_append, List.map_cons] at this
        simp only [List.length_nil, Nat.zero_add]
        rw [this]
        exact hshape1
      · rw [e6]; simp
      · have := congrArg List.length e6
        simp only [List.length_map, List.length_cons, List.length_append] at this
        simp only [List.length_append, List.length_cons]
        omega
  · rw [Segment.full_of_ne hfull]
    simp only [Bool.false_eq_true, if_false, SegmentCapacity_eq]
    have hshape1 : Shape ((f0.length + 1) :: Q.map List.length) :=
      hshQ.head_change (by omega) (by omega)
    by_cases ho0 : o = 0
    · subst ho0
      rw [if_pos rfl]
      rcases P with _ | ⟨t, P'⟩
      · simp at hp
      · simp only [List.cons_append, List.cons.injEq] at hQ
        obtain ⟨rfl, rfl⟩ := hQ
        rcases List.eq_nil_or_concat P' with rfl | ⟨ms, tl, rfl⟩
        · have ht127 : t.length = 127 := by
            by_contra hne
            exact hnb ⟨rfl, rfl, by simp; omega⟩
          obtain ⟨T, e1, e2, e3, e4⟩ := frontInsert_direct (d := d) (c := t) (R := s :: R)
            h.lay (q := 127) (by omega) v
          refine ⟨T, ins 127 v t :: s :: R, by simpa using e1, e2, e3, e4, ?_, ?_, by simp,
            by simp⟩
          · rw [← hfl]
            have : ins 127 v t = t ++ [v] := by rw [← ht127]; exact ins_end t v
            rw [this]
            simp [ins]
          · simp only [List.map_cons, ins_length 127 v t (by omega)]
            simpa using hshape1
        · have hsh' : Shape ((t :: (ms ++ tl :: s :: R)).map List.length) := by simpa using hsh
          have htl : tl.length = 128 := by
            have h1 : Shape (t.length :: ((ms.map List.length ++ [tl.length])
                ++ s.length :: R.map List.length)) := by simpa using hsh
            exact h1.mid_full tl.length (by simp)
          have l1' : Lay d (t :: (ms ++ tl :: (s :: R))) := by simpa using h.lay
          obtain ⟨T, segs', e1, e2, e3, e4, e5, e6⟩ := frontShiftInsert_state l1' (by omega)
            (fun m hm => mem_lens hsh' (by simp [hm])) (List.length_pos.mp (by omega))
            (q := 127) (by omega) v (i := ((t :: ms.concat tl).length : Int) - 1)
            (by simp)
          refine ⟨T, segs', e1, e2, e3, e4, ?_, ?_, ?_, ?_⟩
          · rw [e5, ← hfl]
            have := ins_drop_one tl 128 v (by omega) (by omega)
            simp only [Nat.add_one_sub_one] at this
            have h128 : ins 128 v tl = tl ++ [v] := by rw [← htl]; exact ins_end tl v
            rw [this, h128]
            simp [ins]
          · rw [e6]
            simpa using hshape1
          · rw [e6]; simp
          · have := congrArg List.length e6
            simp only [List.length_map, List.length_cons, List.length_append] at this
            simp only [List.length_append, List.length_cons, List.concat_eq_append,
              List.length_nil]
            omega
    · rw [if_neg ho0]
      rcases P with _ | ⟨t, P'⟩
      · simp only [List.nil_append, List.cons.injEq] at hQ
        obtain ⟨rfl, rfl⟩ := hQ
        simp only [List.length_nil, ne_eq, not_true_eq_false, if_false]
        obtain ⟨T, e1, e2, e3, e4⟩ := frontInsert_direct (d := d) (c := s) (R := R)
          h.lay (q := o) (by omega) v
        refine ⟨T, ins o v s :: R, by simpa using e1, e2, e3, e4, by rw [← hfl]; simp, ?_,
          by simp, by simp⟩
        simp only [List.map_cons, ins_length o v s (by omega)]
        exact hshape1
      · simp only [List.cons_append, List.cons.injEq] at hQ
        obtain ⟨rfl, rfl⟩ := hQ
        rw [if_pos (by simp)]
        have l1' : Lay d (t :: (P' ++ s :: R)) := h.lay
        obtain ⟨T, segs', e1, e2, e3, e4, e5, e6⟩ := frontShiftInsert_state l1' (by omega)
          (fun m hm => mem_lens hsh (by simp [hm])) (List.length_pos.mp (by omega))
          (q := o - 1) (by omega) v (i := ((t :: P').length : Int)) (by simp)
        refine ⟨T, segs', e1, e2, e3, e4, ?_, ?_, ?_, ?_⟩
        · rw [e5, ← hfl, ins_drop_one s o v (by omega) (by omega)]
          simp
        · rw [e6]
          simpa using hshape1
        · rw [e6]; simp
        · have := congrArg List.length e6
          simp only [List.length_map, List.length_cons, List.length_append] at this
          simp only [List.length_append, List.length_cons]
          omega

theorem moveFrontInsert_err {d : Deque V} {P R : List (List V)} {s : List V}
    (h : Inv d (P ++ s :: R)) {o : Nat} (hb : FrontBug P o) (v : V) :
    d.moveFrontInsert P.length o v = .error .segmentContract := by
  obtain ⟨h1, rfl, h3⟩ := hb
  obtain ⟨t, rfl⟩ : ∃ t, P = [t] := List.length_eq_one.mp h1
  simp only [List.flatten_cons, List.flatten_nil, List.append_nil] at h3
  unfold Deque.moveFrontInsert
  rw [h.lay.firstSegment_eq]
  simp only [List.cons_append, List.nil_append, List.getElem?_cons_zero, Option.map_some',
    deref, ok_bind]
  rw [Segment.full_of_ne (by omega)]
  simp only [Bool.false_eq_true, if_false, if_true, SegmentCapacity_eq, List.length_cons,
    List.length_nil]
  have := frontInsert_direct_err (d := d) (c := t) (R := s :: R) h.lay (q := 127) (by omega) v
  simpa using this

theorem moveBackInsert_ok {d : Deque V} {P R : List (List V)} {s : List V}
    (h : Inv d (P ++ s :: R)) {o : Nat} (ho : o < s.length) (v : V) :
    ∃ T segs', d.moveBackInsert P.length o v = .ok T ∧ T.SizeFi = d.SizeFi
      ∧ T.Segs.length = d.Segs.length ∧ Lay T segs'
      ∧ segs'.flatten = ins (P.flatten.length + o) v (P ++ s :: R).flatten
      ∧ Shape (segs'.map List.length)
      ∧ segs'.map List.length ≠ [] ∧ segs'.length ≤ (P ++ s :: R).length + 1 := by
  have hn := h.cap_pos
  have hsh := h.shape
  have hsz := h.size
  have hs128 := hsh.1 s.length (by simp)
  obtain ⟨I, z, hI⟩ : ∃ I z, P ++ s :: R = I ++ [z] := by
    rcases List.eq_nil_or_concat (P ++ s :: R) with h0 | ⟨I, z, h1⟩
    · simp at h0
    · exact ⟨I, z, by simpa using h1⟩
  have hshI : Shape (I.map List.length ++ [z.length]) := by
    have := hsh
    rw [hI] at this
    simpa using this
  have hz := hshI.1 z.length (by simp)
  have hfl := ins_mid_flatten P R s o v (le_of_lt ho)
  have hlast : (P ++ s :: R).getLast? = some z := by rw [hI]; simp
  have hsize0 : d.SizeFi ≠ 0 := h.size_ne_zero (by simp)
  have he : d.EndFi < d.Segs.length := by
    rw [h.lay.end_eq]; exact Nat.mod_lt _ hn
  unfold Deque.moveBackInsert
  rw [h.lay.lastSegment_eq]
  simp only [hlast, Option.map_some', deref, ok_bind]
  by_cases hfull : z.length = 128
  · rw [Segment.full_of_eq hfull]
    simp only [if_true]
    rw [Lay.expandIfFull_noop d (by rw [h.used_eq]; exact h.strict)]
    simp only [ok_bind, Deque.setSlot, Pool.get]
    rw [if_pos he]
    simp only [ok_bind]
    rw [Lay.nextIndex_eq _ (by simpa using hn)]
    simp only [ok_bind, pure_eq_ok, List.length_set]
    have l1 := h.lay.push_back_seg h.strict []
    have l1' : Lay
        ({ d with
            EndFi := (d.EndFi + 1) % d.Segs.length,
            Pool := ⟨d.Pool.idle - 1⟩,
            Segs := d.Segs.set d.EndFi (some ⟨[]⟩) } : Deque V)
        (P ++ s :: (R ++ [[]])) := by simpa using l1
    have hsu := l1'.segUsed_eq hsize0 (by simp)
    simp only [List.length_append, List.length_cons, List.length_nil] at hsu
    have hcount : P.length + (R.length + (0 + 1) + 1) - 1 - P.length = R.length + 1 := by omega
    have hidx : ((P.length + (R.length + (0 + 1) + 1) : Nat) : Int) - 1
        = ((P.length + R.length + 1 : Nat) : Int) := by push_cast; ring
    rw [hsu, hcount, hidx]
    obtain ⟨S', segs', e1, e2, e3, e4, e5⟩ := backShiftInsert_spec l1' (by simp)
      (fun m hm => mem_lens hsh (by simp [hm])) ho v
    refine ⟨_, segs', e1, rfl, by simpa using e2, e3, ?_, ?_, ?_, ?_⟩
    · rw [e4, ← hfl]; simp
    · rw [e5]
      have : (P ++ s :: R).map List.length = I.map List.length ++ [z.length] := by
        rw [hI]; simp
      simp only [List.map_append, List.map_cons] at this
      have e : P.map List.length ++ s.length :: (R.map List.length ++ [([] : List V).length + 1])
          = I.map List.length ++ [128, 1] := by
        rw [← List.cons_append, ← List.append_assoc, this, hfull]
        simp
      rw [e]
      rw [hfull] at hshI
      exact hshI.snoc_full (by omega) (by omega)
    · rw [e5]; simp
    · have := congrArg List.length e5
      simp only [List.length_map, List.length_cons, List.length_append, List.length_nil] at this
      simp only [List.length_append, List.length_cons]
      omega
  · rw [Segment.full_of_ne hfull]
    simp only [Bool.false_eq_true, if_false, ok_bind, pure_eq_ok]
    have hsu := h.used_eq
    simp only [List.length_append, List.length_cons] at hsu
    rcases List.eq_nil_or_concat R with rfl | ⟨ms, c, rfl⟩
    · simp only [List.length_nil] at hsu
      have hcount : P.length + (0 + 1) - 1 - P.length = 0 := by omega
      rw [hsu, hcount]
      simp only [Lay.shiftBackLoop_zero, ok_bind]
      have hzs : z = s := by
        have := hI
        simp only [← List.concat_eq_append] at this
        have h2 := List.append_inj' (show P ++ [s] = I ++ [z] by simpa using hI) rfl
        simpa using h2.2.symm
      subst hzs
      obtain ⟨S', e1, e2, e3⟩ := insertAt_ins h.lay (o := o) (by omega) v
      refine ⟨_, P ++ [ins o v z], e1, rfl, e2, e3, hfl, ?_, by simp, by simp⟩
      have := hsh
      simp only [List.map_append, List.map_cons, List.map_nil, ins_length o v z (by omega)]
        at this ⊢
      exact this.last_change (by omega) (by omega)
    · have hzc : z = c := by
        have h2 := List.append_inj' (show (P ++ s :: ms) ++ [c] = I ++ [z] by simpa using hI) rfl
        simpa using h2.2.symm
      subst hzc
      simp only [List.concat_eq_append, List.length_append, List.length_cons, List.length_nil]
        at hsu
      have hcount : P.length + (ms.length + (0 + 1) + 1) - 1 - P.length = ms.length + 1 := by
        omega
      have hidx : ((P.length + (ms.length + (0 + 1) + 1) : Nat) : Int) - 1
          = ((P.length + ms.length + 1 : Nat) : Int) := by push_cast; ring
      rw [hsu, hcount, hidx]
      have l1' : Lay d (P ++ s :: (ms ++ [z])) := by simpa using h.lay
      have hsh' : Shape ((P ++ s :: (ms ++ [z])).map List.length) := by simpa using hsh
      obtain ⟨S', segs', e1, e2, e3, e4, e5⟩ := backShiftInsert_spec l1' (by omega)
        (fun m hm => mem_lens hsh' (by simp [hm])) ho v
      refine ⟨_, segs', e1, rfl, e2, e3, ?_, ?_, ?_, ?_⟩
      · rw [e4, ← hfl]; simp
      · rw [e5]
        have := hsh'
        simp only [List.map_append, List.map_cons, List.map_nil] at this
        rw [← List.cons_append, ← List.append_assoc] at this ⊢
        exact this.last_change (by omega) (by omega)
      · rw [e5]; simp
      · have := congrArg List.length e5
        simp only [List.length_map, List.length_cons, List.length_append, List.length_nil] at this
        simp only [List.length_append, List.length_cons, List.concat_eq_append, List.length_nil]
        omega

/-- The last step of `Insert`: count the element and run the growth check. -/
theorem finish_insert {T : Deque V} {segs' : List (List V)} {L' : List V} {n : Nat}
    (hsz : T.SizeFi + 1 = L'.length) (hlen : ∃ k, T.Segs.length = 2 ^ k) (l : Lay T segs')
    (hfl : segs'.flatten = L') (hsh : Shape (segs'.map List.length))
    (hne : segs'.map List.length ≠ []) (_hn : n = T.SizeFi) :
    ∃ d' segs'', expandIfFull ({ T with SizeFi := T.SizeFi + 1 } : Deque V) = .ok d'
      ∧ Inv d' segs'' ∧ segs''.flatten = L' := by
  have hne' : segs' ≠ [] := by
    rintro rfl
    exact hne rfl
  obtain ⟨d', h1, h2⟩ := expand_inv (d := ({ T with SizeFi := T.SizeFi + 1 } : Deque V))
    (show Lay ({ T with SizeFi := T.SizeFi + 1 } : Deque V) segs' from l) hne' hlen (by rw [hfl]; exact hsz) hsh
  exact ⟨d', segs', h1, h2, hfl⟩

theorem Insert_mid_inv {d : Deque V} {P R : List (List V)} {s : List V}
    (h : Inv d (P ++ s :: R)) {o : Nat} (ho : o < s.length) (hp : 0 < P.flatten.length + o)
    (v : V) :
    (P.length ≤ R.length ∧ FrontBug P o →
        d.Insert ((P.flatten.length + o : Nat) : Int) v = .error .segmentContract)
    ∧ (¬ (P.length ≤ R.length ∧ FrontBug P o) →
        ∃ d' segs', d.Insert ((P.flatten.length + o : Nat) : Int) v = .ok d' ∧ Inv d' segs'
          ∧ segs'.flatten = ins (P.flatten.length + o) v (P ++ s :: R).flatten) := by
  have hsz := h.size
  have hsu := h.used_eq
  simp only [List.flatten_append, List.flatten_cons, List.length_append, List.length_cons]
    at hsz hsu
  have hLlen : (ins (P.flatten.length + o) v (P ++ s :: R).flatten).length = d.SizeFi + 1 := by
    rw [ins_length _ _ _ (by rw [← h.size]; omega), ← h.size]
  have hunf : d.Insert ((P.flatten.length + o : Nat) : Int) v
      = (do
          let T ← if (P.length : Int) < (d.segUsed : Int) - P.length
            then d.moveFrontInsert P.length o v else d.moveBackInsert P.length o v
          expandIfFull { T with SizeFi := T.SizeFi + 1 }) := by
    unfold Deque.Insert
    rw [if_neg (by omega), if_neg (by omega), if_neg (by omega)]
    simp only [Int.toNat_ofNat, h.pos_eq ho, ok_bind]
  rw [hunf, hsu]
  by_cases hfront : P.length ≤ R.length
  · rw [if_pos (by push_cast; omega)]
    constructor
    · rintro ⟨-, hb⟩
      rw [moveFrontInsert_err h hb v]
      rfl
    · intro hnb
      obtain ⟨T, segs', e1, e2, e3, e4, e5, e6, e7, e8⟩ :=
        moveFrontInsert_ok h ho hp (fun hb => hnb ⟨hfront, hb⟩) v
      rw [e1]
      simp only [ok_bind]
      exact finish_insert (n := T.SizeFi) (by rw [e2, hLlen]) (by rw [e3]; exact h.pow2) e4 e5 e6
        e7 rfl
  · rw [if_neg (by push_cast; omega)]
    constructor
    · rintro ⟨hf, -⟩
      exact absurd hf hfront
    · intro _
      obtain ⟨T, segs', e1, e2, e3, e4, e5, e6, e7, e8⟩ := moveBackInsert_ok h ho v
      rw [e1]
      simp only [ok_bind]
      exact finish_insert (n := T.SizeFi) (by rw [e2, hLlen]) (by rw [e3]; exact h.pow2) e4 e5 e6
        e7 rfl

theorem Insert_out (d : Deque V) (pos : Int) (v : V) (h : pos < 0 ∨ pos > d.SizeFi) :
    d.Insert pos v = .ok d := by
  unfold Deque.Insert
  rw [if_pos h]
  rfl

theorem Insert_zero (d : Deque V) (v : V) : d.Insert 0 v = d.PushFront v := by
  unfold Deque.Insert
  rw [if_neg (by omega), if_pos rfl]

theorem Insert_size (d : Deque V) (v : V) (h : d.SizeFi ≠ 0) :
    d.Insert (d.SizeFi : Int) v = d.PushBack v := by
  unfold Deque.Insert
  rw [if_neg (by omega), if_neg (by omega), if_pos rfl]

/-- Whenever `Insert` at a valid position returns, it has inserted. -/
theorem Insert_valid {d : Deque V} {L : List V} (h : Valid d L) (p : Nat) (hp : p ≤ L.length)
    (v : V) {d' : Deque V} (hok : d.Insert (p : Int) v = .ok d') : Valid d' (ins p v L) := by
  have hsz := h.size_eq
  by_cases h0 : p = 0
  · subst h0
    rw [show ((0 : Nat) : Int) = 0 from rfl, Insert_zero] at hok
    obtain ⟨d'', h1, h2⟩ := PushFront_valid h v
    rw [h1] at hok
    cases hok
    simpa [ins] using h2
  · by_cases hend : p = L.length
    · subst hend
      rw [← hsz, Insert_size d v (by omega)] at hok
      obtain ⟨d'', h1, h2⟩ := PushBack_valid h v
      rw [h1] at hok
      cases hok
      simpa [ins] using h2
    · obtain ⟨segs, hinv, rfl⟩ := h.inv_of_ne_nil (by rintro rfl; simp at hp; omega)
      obtain ⟨P, s, R, o, rfl, ho, rfl⟩ := locate segs p (by omega)
      obtain ⟨herr, hgood⟩ := Insert_mid_inv hinv ho (by omega) v
      by_cases hb : P.length ≤ R.length ∧ FrontBug P o
      · rw [herr hb] at hok
        cases hok
      · obtain ⟨d'', segs', h1, h2, h3⟩ := hgood hb
        rw [h1] at hok
        cases hok
        exact Or.inr ⟨segs', h2, h3⟩

theorem EraseAt_out (d : Deque V) (pos : Int) (h : pos < 0 ∨ pos ≥ d.SizeFi) :
    d.EraseAt pos = .ok d := by
  unfold Deque.EraseAt
  rw [if_pos h]
  rfl

theorem EraseAt_valid {d : Deque V} {L : List V} (h : Valid d L) (p : Nat)
    (hp : p < L.length) : ∃ d', d.EraseAt (p : Int) = .ok d' ∧ Valid d' (L.eraseIdx p) := by
  obtain ⟨segs, hinv, rfl⟩ := h.inv_of_ne_nil (by rintro rfl; simp at hp)
  obtain ⟨P, s, R, o, rfl, ho, rfl⟩ := locate segs p hp
  obtain ⟨d', segs', h1, h2, h3⟩ := EraseAt_inv hinv ho
  exact ⟨d', h1, Or.inr ⟨segs', h2, h3⟩⟩

theorem segUsed_zero (d : Deque V) (h : d.SizeFi = 0) : d.segUsed = 0 := by
  unfold Deque.segUsed
  rw [if_pos h]

theorem three_segments_long {segs : List (List V)} (hsh : Shape (segs.map List.length))
    (h3 : 3 ≤ segs.length) : 128 ≤ segs.flatten.length := by
  rcases segs with _ | ⟨t, _ | ⟨m, _ | ⟨z, rest⟩⟩⟩
  · simp at h3
  · simp at h3
  · simp at h3
  · have hm : m.length = 128 := hsh.2 m.length (by simp)
    simp only [List.flatten_cons, List.length_append]
    omega

/-- A valid `Insert` fails exactly on `InsertDefect`, and inserts otherwise. -/
theorem Insert_cases {d : Deque V} {L : List V} (h : Valid d L) (p : Nat) (hp : p ≤ L.length)
    (v : V) :
    (InsertDefect d p → d.Insert (p : Int) v = .error .segmentContract)
      ∧ (¬ InsertDefect d p → ∃ d', d.Insert (p : Int) v = .ok d' ∧ Valid d' (ins p v L)) := by
  have hsz := h.size_eq
  constructor
  · rintro ⟨h3, h127, hpos⟩
    have hne : L ≠ [] := by
      rintro rfl
      rw [segUsed_zero d (by simpa using hsz)] at h3
      omega
    obtain ⟨segs, hinv, rfl⟩ := h.inv_of_ne_nil hne
    rw [hinv.used_eq] at h3
    have hlong := three_segments_long hinv.shape h3
    obtain ⟨P, s, R, o, rfl, ho, rfl⟩ := locate segs p (by omega)
    rw [hinv.pos_eq ho] at hpos
    simp only [Except.ok.injEq, Prod.mk.injEq] at hpos
    obtain ⟨hP, rfl⟩ := hpos
    obtain ⟨t, rfl⟩ := List.length_eq_one.mp hP
    have ht := (mem_lens hinv.shape (show t ∈ [t] ++ s :: R by simp)).1
    have htl : 0 < t.length := List.length_pos.mpr ht
    simp only [List.length_append, List.length_cons, List.length_singleton, List.length_nil]
      at h3
    have hfl : ([t] : List (List V)).flatten.length = t.length := by simp
    have hRlen : ([t] : List (List V)).length ≤ R.length := by
      simp only [List.length_singleton]
      omega
    exact (Insert_mid_inv hinv ho (by omega) v).1 ⟨hRlen, rfl, rfl, by omega⟩
  · intro hnd
    by_cases h0 : p = 0
    · subst h0
      rw [show ((0 : Nat) : Int) = 0 from rfl, Insert_zero]
      obtain ⟨d'', h1, h2⟩ := PushFront_valid h v
      exact ⟨d'', h1, by simpa [ins] using h2⟩
    · by_cases hend : p = L.length
      · subst hend
        rw [← hsz, Insert_size d v (by omega)]
        obtain ⟨d'', h1, h2⟩ := PushBack_valid h v
        exact ⟨d'', h1, by simpa [ins, hsz] using h2⟩
      · obtain ⟨segs, hinv, rfl⟩ := h.inv_of_ne_nil (by rintro rfl; simp at hp; omega)
        obtain ⟨P, s, R, o, rfl, ho, rfl⟩ := locate segs p (by omega)
        obtain ⟨-, hgood⟩ := Insert_mid_inv hinv ho (by omega) v
        have hb : ¬ (P.length ≤ R.length ∧ FrontBug P o) := by
          rintro ⟨hPR, hP, rfl, hlt⟩
          apply hnd
          refine ⟨?_, by omega, ?_⟩
          · rw [hinv.used_eq]
            simp only [List.length_append, List.length_cons]
            omega
          · rw [hinv.pos_eq ho, hP]
        obtain ⟨d'', segs', h1, h2, h3⟩ := hgood hb
        exact ⟨d'', h1, Or.inr ⟨segs', h2, h3⟩⟩

/-- The first copy loop of `EraseRange` moves the elements behind the range down by `k`. -/
theorem copyDownLoop_spec [Inhabited V] (k : Nat) (hk : 1 ≤ k) :
    ∀ (n : Nat) (d : Deque V) (L : List V) (p : Nat), Valid d L → p + n + k ≤ L.length →
      ∃ d' L', copyDownLoop (k : Int) n d (p : Int) = .ok d' ∧ Valid d' L'
        ∧ L'.length = L.length
        ∧ ∀ i, L'[i]? = if p ≤ i ∧ i < p + n then L[i + k]? else L[i]? := by
  intro n
  induction n with
  | zero =>
    intro d L p h _
    refine ⟨d, L, rfl, h, rfl, fun i => ?_⟩
    rw [if_neg (by omega)]
  | succ n ih =>
    intro d L p h hb
    have hpk : p + k < L.length := by omega
    have hat := At_valid h (p + k) hpk
    obtain ⟨d1, hset, h1, -⟩ := Set_valid h p (by omega) L[p + k]
    obtain ⟨d', L', e1, e2, e3, e4⟩ := ih d1 (L.set p L[p + k]) (p + 1) h1
      (by rw [List.length_set]; omega)
    refine ⟨d', L', ?_, e2, by simpa using e3, ?_⟩
    · unfold Deque.copyDownLoop
      have : ((p : Int) + (k : Int)) = ((p + k : Nat) : Int) := by push_cast; rfl
      rw [this, hat]
      simp only [ok_bind, hset]
      have : ((p : Int) + 1) = ((p + 1 : Nat) : Int) := by push_cast; rfl
      rw [this, e1]
    · intro i
      rw [e4 i]
      have hpk : p + k < L.length := by omega
      by_cases hi : i = p
      · subst hi
        have c1 : ¬ (i + 1 ≤ i ∧ i < i + 1 + n) := by omega
        have c2 : i ≤ i ∧ i < i + (n + 1) := by omega
        rw [if_neg c1, if_pos c2, List.getElem?_set, if_pos rfl, if_pos (by omega),
          List.getElem?_eq_getElem hpk]
      · have c4 : ¬ p = i := fun hh => hi hh.symm
        by_cases h2 : p + 1 ≤ i ∧ i < p + 1 + n
        · have c2 : p ≤ i ∧ i < p + (n + 1) := by omega
          have c3 : ¬ p = i + k := by omega
          rw [if_pos h2, if_pos c2, List.getElem?_set, if_neg c3]
        · have c2 : ¬ (p ≤ i ∧ i < p + (n + 1)) := by omega
          rw [if_neg h2, if_neg c2, List.getElem?_set, if_neg c4]

/-- The second copy loop of `EraseRange` moves the elements before the range up by `k`. -/
theorem copyUpLoop_spec [Inhabited V] (k : Nat) (hk : 1 ≤ k) :
    ∀ (n : Nat) (d : Deque V) (L : List V) (p : Nat), Valid d L → p < L.length →
      n + k ≤ p + 1 →
      ∃ d' L', copyUpLoop (k : Int) n d (p : Int) = .ok d' ∧ Valid d' L'
        ∧ L'.length = L.length
        ∧ ∀ i, L'[i]? = if p + 1 ≤ i + n ∧ i ≤ p then L[i - k]? else L[i]? := by
  intro n
  induction n with
  | zero =>
    intro d L p h _ _
    refine ⟨d, L, rfl, h, rfl, fun i => ?_⟩
    rw [if_neg (by omega)]
  | succ n ih =>
    intro d L p h hp hb
    have hpk : p - k < L.length := by omega
    have hat := At_valid h (p - k) hpk
    obtain ⟨d1, hset, h1, -⟩ := Set_valid h p hp L[p - k]
    obtain ⟨d', L', e1, e2, e3, e4⟩ := ih d1 (L.set p L[p - k]) (p - 1) h1
      (by rw [List.length_set]; omega) (by omega)
    refine ⟨d', L', ?_, e2, by simpa using e3, ?_⟩
    · unfold Deque.copyUpLoop
      have : ((p : Int) - (k : Int)) = ((p - k : Nat) : Int) := by omega
      rw [this, hat]
      simp only [ok_bind, hset]
      have : ((p : Int) - 1) = ((p - 1 : Nat) : Int) := by omega
      rw [this, e1]
    · intro i
      rw [e4 i]
      have hpk : p - k < L.length := by omega
      by_cases hi : i = p
      · subst hi
        have c1 : ¬ (i - 1 + 1 ≤ i + n ∧ i ≤ i - 1) := by omega
        have c2 : i + 1 ≤ i + (n + 1) ∧ i ≤ i := by omega
        rw [if_neg c1, if_pos c2, List.getElem?_set, if_pos rfl, if_pos (by omega),
          List.getElem?_eq_getElem hpk]
      · have c4 : ¬ p = i := fun hh => hi hh.symm
        by_cases h2 : p - 1 + 1 ≤ i + n ∧ i ≤ p - 1
        · have c2 : p + 1 ≤ i + (n + 1) ∧ i ≤ p := by omega
          have c3 : ¬ p = i - k := by omega
          rw [if_pos h2, if_pos c2, List.getElem?_set, if_neg c3]
        · have c2 : ¬ (p + 1 ≤ i + (n + 1) ∧ i ≤ p) := by omega
          rw [if_neg h2, if_neg c2, List.getElem?_set, if_neg c4]

theorem popBackLoop_spec [Inhabited V] :
    ∀ (n : Nat) (d : Deque V) (L : List V), Valid d L → n ≤ L.length →
      ∃ d', popBackLoop n d = .ok d' ∧ Valid d' (L.take (L.length - n)) := by
  intro n
  induction n with
  | zero =>
    intro d L h _
    exact ⟨d, rfl, by simpa using h⟩
  | succ n ih =>
    intro d L h hn
    rcases List.eq_nil_or_concat L with rfl | ⟨L0, y, rfl⟩
    · simp at hn
    · simp only [List.concat_eq_append] at h hn ⊢
      obtain ⟨d1, h1, h2⟩ := PopBack_valid h
      simp only [List.length_append, List.length_singleton] at hn
      obtain ⟨d', e1, e2⟩ := ih d1 L0 h2 (by omega)
      refine ⟨d', ?_, ?_⟩
      · unfold Deque.popBackLoop
        rw [h1]
        simp only [ok_bind, e1]
      · have : (L0 ++ [y]).length - (n + 1) = L0.length - n := by simp
        rw [this, List.take_append_of_le_length (by omega)]
        exact e2

theorem popFrontLoop_spec [Inhabited V] :
    ∀ (n : Nat) (d : Deque V) (L : List V), Valid d L → n ≤ L.length →
      ∃ d', popFrontLoop n d = .ok d' ∧ Valid d' (L.drop n) := by
  intro n
  induction n with
  | zero =>
    intro d L h _
    exact ⟨d, rfl, by simpa using h⟩
  | succ n ih =>
    intro d L h hn
    rcases L with _ | ⟨x, L0⟩
    · simp at hn
    · obtain ⟨d1, h1, h2⟩ := PopFront_valid h
      simp only [List.length_cons] at hn
      obtain ⟨d', e1, e2⟩ := ih d1 L0 h2 (by omega)
      refine ⟨d', ?_, by simpa using e2⟩
      unfold Deque.popFrontLoop
      rw [h1]
      simp only [ok_bind, e1]

theorem getElem?_take_append_drop (L : List V) (a b i : Nat) (ha : a ≤ L.length) :
    (L.take a ++ L.drop b)[i]? = if i < a then L[i]? else L[b + (i - a)]? := by
  have hlen : (L.take a).length = a := by simp; omega
  by_cases hi : i < a
  · rw [if_pos hi, List.getElem?_append_left (by omega), List.getElem?_take_of_lt hi]
  · rw [if_neg hi, List.getElem?_append_right (by omega), List.getElem?_drop, hlen]

theorem EraseRange_out [Inhabited V] (d : Deque V) (first last : Int)
    (h : first < 0 ∨ first ≥ last ∨ last > d.SizeFi) : d.EraseRange first last = .ok d := by
  unfold Deque.EraseRange
  rw [if_pos h]
  rfl

theorem EraseRange_valid [Inhabited V] {d : Deque V} {L : List V} (h : Valid d L) (a b : Nat)
    (hab : a < b) (hb : b ≤ L.length) :
    ∃ d', d.EraseRange (a : Int) (b : Int) = .ok d' ∧ Valid d' (L.take a ++ L.drop b) := by
  have hsz := h.size_eq
  unfold Deque.EraseRange
  rw [if_neg (by omega)]
  have hnum : ((b : Int) - (a : Int)) = ((b - a : Nat) : Int) := by omega
  simp only [hnum, Int.toNat_ofNat]
  by_cases hbr : (d.SizeFi : Int) - (a : Int) < (b : Int)
  · rw [if_pos hbr]
    obtain ⟨d1, L1, e1, v1, len1, g1⟩ := copyDownLoop_spec (b - a) (by omega) (d.SizeFi - b) d L a h
      (by omega)
    obtain ⟨d2, e2, v2⟩ := popBackLoop_spec (b - a) d1 L1 v1 (by omega)
    refine ⟨d2, by rw [e1]; exact e2, ?_⟩
    have : L1.take (L1.length - (b - a)) = L.take a ++ L.drop b := by
      apply List.ext_getElem?
      intro i
      rw [getElem?_take_append_drop L a b i (by omega)]
      by_cases hi : i < a
      · have c1 : ¬ (a ≤ i ∧ i < a + (d.SizeFi - b)) := by omega
        rw [List.getElem?_take_of_lt (by omega), g1 i, if_neg c1, if_pos hi]
      · rw [if_neg hi]
        by_cases hi2 : i < L1.length - (b - a)
        · have c1 : a ≤ i ∧ i < a + (d.SizeFi - b) := by omega
          rw [List.getElem?_take_of_lt hi2, g1 i, if_pos c1]
          congr 1
          omega
        · rw [List.getElem?_take_eq_none (by omega), List.getElem?_eq_none (by omega)]
    rw [← this]
    exact v2
  · rw [if_neg hbr]
    obtain ⟨d1, L1, e1, v1, len1, g1⟩ := copyUpLoop_spec (b - a) (by omega) a d L (b - 1) h
      (by omega) (by omega)
    obtain ⟨d2, e2, v2⟩ := popFrontLoop_spec (b - a) d1 L1 v1 (by omega)
    have hidx : ((b : Int) - 1) = ((b - 1 : Nat) : Int) := by omega
    refine ⟨d2, by rw [hidx, e1]; exact e2, ?_⟩
    have : L1.drop (b - a) = L.take a ++ L.drop b := by
      apply List.ext_getElem?
      intro i
      rw [getElem?_take_append_drop L a b i (by omega), List.getElem?_drop, g1 (b - a + i)]
      by_cases hi : i < a
      · have c1 : b - 1 + 1 ≤ b - a + i + a ∧ b - a + i ≤ b - 1 := by omega
        rw [if_pos c1, if_pos hi]
        congr 1
        omega
      · have c1 : ¬ (b - 1 + 1 ≤ b - a + i + a ∧ b - a + i ≤ b - 1) := by omega
        rw [if_neg c1, if_neg hi]
        congr 1
        omega
    rw [← this]
    exact v2

theorem Clear_valid [Inhabited V] {d : Deque V} {L : List V} (h : Valid d L) :
    ∃ d', d.Clear = .ok d' ∧ Valid d' [] := by
  unfold Deque.Clear
  by_cases h0 : L = []
  · subst h0
    have := h.size_eq
    refine ⟨d, ?_, h⟩
    rw [EraseRange_out d _ _ (by simp only [List.length_nil] at this; omega)]
  · have hpos : 0 < L.length := List.length_pos.mpr h0
    obtain ⟨d', h1, h2⟩ := EraseRange_valid h 0 L.length hpos (le_refl _)
    refine ⟨d', ?_, by simpa using h2⟩
    rw [h.size_eq]
    exact h1

theorem Valid.new : Valid (New : Deque V) [] := Or.inl ⟨⟨rfl, rfl, rfl, rfl⟩, rfl⟩

theorem map_ok {α β : Type} (f : α → β) (a : α) : (Except.ok a : Res α).map f = .ok (f a) := rfl

theorem step_valid [Inhabited V] {d d' : Deque V} {L : List V} (h : Valid d L) (op : Op V)
    (hok : step d op = .ok d') : Valid d' (refStep L op) := by
  have hsz := h.size_eq
  cases op with
  | pushFront v =>
    obtain ⟨d1, h1, h2⟩ := PushFront_valid h v
    simp only [step, h1] at hok
    cases hok
    exact h2
  | pushBack v =>
    obtain ⟨d1, h1, h2⟩ := PushBack_valid h v
    simp only [step, h1] at hok
    cases hok
    exact h2
  | insert pos v =>
    simp only [step] at hok
    simp only [refStep]
    by_cases hout : pos < 0 ∨ pos > (L.length : Int)
    · rw [Insert_out d pos v (by rw [hsz]; exact hout)] at hok
      cases hok
      rw [if_pos hout]
      exact h
    · rw [if_neg hout]
      obtain ⟨p, rfl⟩ : ∃ p : Nat, pos = (p : Int) := ⟨pos.toNat, by omega⟩
      have := Insert_valid h p (by omega) v hok
      simpa [ins] using this
  | set pos v =>
    simp only [step] at hok
    simp only [refStep]
    by_cases hout : pos < 0 ∨ pos ≥ (L.length : Int)
    · rw [Set_out d pos v (by rw [hsz]; exact hout), map_ok] at hok
      cases hok
      rw [if_pos hout]
      exact h
    · rw [if_neg hout]
      obtain ⟨p, rfl⟩ : ∃ p : Nat, pos = (p : Int) := ⟨pos.toNat, by omega⟩
      obtain ⟨d1, h1, h2, -⟩ := Set_valid h p (by omega) v
      rw [h1, map_ok] at hok
      cases hok
      simpa using h2
  | popFront =>
    simp only [step] at hok
    simp only [refStep]
    rcases L with _ | ⟨x, rest⟩
    · rw [Pop_empty_front d (by simpa using hsz), map_ok] at hok
      cases hok
      exact h
    · obtain ⟨d1, h1, h2⟩ := PopFront_valid h
      rw [h1, map_ok] at hok
      cases hok
      simpa using h2
  | popBack =>
    simp only [step] at hok
    simp only [refStep]
    rcases List.eq_nil_or_concat L with rfl | ⟨init, y, rfl⟩
    · rw [Pop_empty_back d (by simpa using hsz), map_ok] at hok
      cases hok
      exact h
    · simp only [List.concat_eq_append] at h ⊢
      obtain ⟨d1, h1, h2⟩ := PopBack_valid h
      rw [h1, map_ok] at hok
      cases hok
      simpa using h2
  | eraseAt pos =>
    simp only [step] at hok
    simp only [refStep]
    by_cases hout : pos < 0 ∨ pos ≥ (L.length : Int)
    · rw [EraseAt_out d pos (by rw [hsz]; exact hout)] at hok
      cases hok
      rw [if_pos hout]
      exact h
    · rw [if_neg hout]
      obtain ⟨p, rfl⟩ : ∃ p : Nat, pos = (p : Int) := ⟨pos.toNat, by omega⟩
      obtain ⟨d1, h1, h2⟩ := EraseAt_valid h p (by omega)
      rw [h1] at hok
      cases hok
      simpa using h2
  | eraseRange first last =>
    simp only [step] at hok
    simp only [refStep]
    by_cases hout : first < 0 ∨ first ≥ last ∨ last > (L.length : Int)
    · rw [EraseRange_out d first last (by rw [hsz]; exact hout)] at hok
      cases hok
      rw [if_pos hout]
      exact h
    · rw [if_neg hout]
      obtain ⟨a, rfl⟩ : ∃ a : Nat, first = (a : Int) := ⟨first.toNat, by omega⟩
      obtain ⟨b, rfl⟩ : ∃ b : Nat, last = (b : Int) := ⟨last.toNat, by omega⟩
      obtain ⟨d1, h1, h2⟩ := EraseRange_valid h a b (by omega) (by omega)
      rw [h1] at hok
      cases hok
      simpa using h2
  | clear =>
    simp only [step] at hok
    simp only [refStep]
    obtain ⟨d1, h1, h2⟩ := Clear_valid h
    rw [h1] at hok
    cases hok
    exact h2

theorem run_valid [Inhabited V] (ops : List (Op V)) :
    ∀ {d d' : Deque V} {L : List V}, Valid d L → run ops d = .ok d' →
      Valid d' (refRun ops L) := by
  induction ops with
  | nil =>
    intro d d' L h hok
    simp only [run] at hok
    cases hok
    exact h
  | cons op ops ih =>
    intro d d' L h hok
    simp only [run] at hok
    cases hs : step d op with
    | error e => rw [hs] at hok; cases hok
    | ok d1 =>
      rw [hs] at hok
      exact ih (step_valid h op hs) hok

theorem Reachable.valid [Inhabited V] {d : Deque V} (h : Reachable d) : Valid d d.toList := by
  obtain ⟨ops, hops⟩ := h
  have hv := run_valid ops Valid.new hops
  rw [hv.toList_eq]
  exact hv

theorem runEnds_valid [Inhabited V] (ops : List (EndOp V)) :
    ∀ {d : Deque V} {L L' outs : List V}, Valid d L → refEnds ops L = some (outs, L') →
      ∃ d', runEnds ops d = .ok (outs, d') ∧ Valid d' L'
        ∧ (L'.length : Int) = L.length + pushCount ops - popCount ops := by
  induction ops with
  | nil =>
    intro d L L' outs h href
    simp only [refEnds, Option.some.injEq, Prod.mk.injEq] at href
    obtain ⟨rfl, rfl⟩ := href
    exact ⟨d, rfl, h, by simp [pushCount, popCount]⟩
  | cons op ops ih =>
    intro d L L' outs h href
    cases op with
    | pushFront v =>
      obtain ⟨d1, h1, h2⟩ := PushFront_valid h v
      obtain ⟨d', e1, e2, e3⟩ := ih h2 (by simpa [refEnds] using href)
      refine ⟨d', by simp only [runEnds, h1, ok_bind, e1], e2, ?_⟩
      simp only [List.length_cons] at e3
      simp only [pushCount, popCount]
      push_cast
      omega
    | pushBack v =>
      obtain ⟨d1, h1, h2⟩ := PushBack_valid h v
      obtain ⟨d', e1, e2, e3⟩ := ih h2 (by simpa [refEnds] using href)
      refine ⟨d', by simp only [runEnds, h1, ok_bind, e1], e2, ?_⟩
      simp only [List.length_append, List.length_singleton] at e3
      simp only [pushCount, popCount]
      push_cast at e3 ⊢
      omega
    | popFront =>
      rcases L with _ | ⟨x, rest⟩
      · simp [refEnds] at href
      · simp only [refEnds, Option.map_eq_some', Prod.mk.injEq] at href
        obtain ⟨⟨o1, L1⟩, hr, rfl, rfl⟩ := href
        obtain ⟨d1, h1, h2⟩ := PopFront_valid h
        obtain ⟨d', e1, e2, e3⟩ := ih h2 hr
        refine ⟨d', by simp only [runEnds, h1, ok_bind, e1, map_ok], e2, ?_⟩
        simp only [List.length_cons, pushCount, popCount]
        push_cast
        omega
    | popBack =>
      rcases List.eq_nil_or_concat L with rfl | ⟨init, y, rfl⟩
      · simp [refEnds] at href
      · simp only [List.concat_eq_append, refEnds, getLast?_append_one, List.dropLast_concat,
          Option.map_eq_some', Prod.mk.injEq] at href h
        obtain ⟨⟨o1, L1⟩, hr, rfl, rfl⟩ := href
        obtain ⟨d1, h1, h2⟩ := PopBack_valid h
        obtain ⟨d', e1, e2, e3⟩ := ih h2 hr
        refine ⟨d', by simp only [runEnds, h1, ok_bind, e1, map_ok], e2, ?_⟩
        simp only [List.concat_eq_append, List.length_append, List.length_singleton, pushCount,
          popCount]
        push_cast
        omega

theorem eraseIdx_length_succ (L : List V) (p : Nat) (hp : p < L.length) :
    (L.eraseIdx p).length + 1 = L.length := by
  rw [List.length_eraseIdx]
  simp only [hp, if_true]
  omega

/-- C2: for every reachable deque and every position `0 ≤ pos < Size()`, `EraseAt(pos)`
returns, the element sequence afterwards is the old one with exactly the element of index
`pos` removed, and `Size()` is one less. -/
theorem EraseAt_spec [Inhabited V] (d : Deque V) (hd : Reachable d) (pos : Int)
    (h0 : 0 ≤ pos) (h1 : pos < d.Size) :
    ∃ d', d.EraseAt pos = .ok d' ∧ d'.toList = d.toList.eraseIdx pos.toNat
      ∧ d'.Size + 1 = d.Size := by
  have hv := hd.valid
  have hsz := hv.size_eq
  obtain ⟨p, rfl⟩ : ∃ p : Nat, pos = (p : Int) := ⟨pos.toNat, by omega⟩
  simp only [Deque.Size] at h1 ⊢
  obtain ⟨d', e1, e2⟩ := EraseAt_valid hv p (by omega)
  refine ⟨d', e1, by simpa using e2.toList_eq, ?_⟩
  rw [e2.size_eq, hsz]
  exact eraseIdx_length_succ _ _ (by omega)

/-- C3: after any sequence of public mutations the element sequence is that of the reference
list on which the same calls were made, `At(pos)` returns its element of index `pos` when
`0 ≤ pos < Size()`, and returns nil when `pos < 0` or `pos ≥ Size()`. -/
theorem At_spec [Inhabited V] (ops : List (Op V)) (d : Deque V) (hrun : run ops New = .ok d)
    (pos : Int) :
    d.toList = refRun ops [] ∧ d.Size = (refRun ops []).length
      ∧ (0 ≤ pos → pos < d.Size →
          ∃ x, (refRun ops [])[pos.toNat]? = some x ∧ d.At pos = .ok x)
      ∧ (pos < 0 ∨ pos ≥ d.Size → d.At pos = .ok default) := by
  have hv := run_valid ops Valid.new hrun
  have hsz := hv.size_eq
  refine ⟨hv.toList_eq, hsz, ?_, At_out d pos⟩
  intro h0 h1
  obtain ⟨p, rfl⟩ : ∃ p : Nat, pos = (p : Int) := ⟨pos.toNat, by omega⟩
  simp only [Deque.Size] at h1
  have hp : p < (refRun ops []).length := by omega
  exact ⟨(refRun ops [])[p], by simp [hp], At_valid hv p hp⟩

/-- C4: for every reachable deque with element sequence `s` and every value `v`,
`PushBack(v)` returns with element sequence `s ++ [v]` and `PushFront(v)` with `v :: s`, each
with `Size()` one more. -/
theorem Push_spec [Inhabited V] (d : Deque V) (hd : Reachable d) (v : V) :
    (∃ d', d.PushBack v = .ok d' ∧ d'.toList = d.toList ++ [v] ∧ d'.Size = d.Size + 1)
      ∧ (∃ d', d.PushFront v = .ok d' ∧ d'.toList = v :: d.toList ∧ d'.Size = d.Size + 1) := by
  have hv := hd.valid
  have hsz := hv.size_eq
  constructor
  · obtain ⟨d', e1, e2⟩ := PushBack_valid hv v
    refine ⟨d', e1, e2.toList_eq, ?_⟩
    simp only [Deque.Size]
    rw [e2.size_eq, hsz]
    simp
  · obtain ⟨d', e1, e2⟩ := PushFront_valid hv v
    refine ⟨d', e1, e2.toList_eq, ?_⟩
    simp only [Deque.Size]
    rw [e2.size_eq, hsz]
    simp

theorem refEnds_pushBacks (vs : List V) (rest : List (EndOp V)) :
    ∀ L : List V, refEnds (vs.map EndOp.pushBack ++ rest) L = refEnds rest (L ++ vs) := by
  induction vs with
  | nil => intro L; simp
  | cons v vs ih =>
    intro L
    have h := ih (L ++ [v])
    simp only [List.append_assoc, List.singleton_append] at h
    simpa only [List.map_cons, List.cons_append, refEnds] using h

theorem refEnds_popFronts (L : List V) :
    refEnds (List.replicate L.length EndOp.popFront) L = some (L, []) := by
  induction L with
  | nil => rfl
  | cons x L ih => simp [List.replicate_succ, refEnds, ih]

theorem refEnds_popBacks (n : Nat) :
    ∀ L vs : List V, vs.length = n →
      refEnds (List.replicate n EndOp.popBack) (L ++ vs) = some (vs.reverse, L) := by
  induction n with
  | zero =>
    intro L vs h
    obtain rfl := List.length_eq_zero.mp h
    simp [refEnds]
  | succ n ih =>
    intro L vs h
    rcases List.eq_nil_or_concat vs with rfl | ⟨init, y, rfl⟩
    · simp at h
    · simp only [List.concat_eq_append, List.length_append, List.length_singleton,
        Nat.add_right_cancel_iff] at h
      simp only [List.concat_eq_append, List.replicate_succ, refEnds]
      rw [← List.append_assoc, getLast?_append_one]
      simp only [List.dropLast_concat]
      rw [ih L init h]
      simp

/-- C5: for every reachable deque, `PopFront()` on the element sequence `x :: rest` returns
`x` and leaves `rest`, `PopBack()` on `init ++ [y]` returns `y` and leaves `init`, each with
`Size()` one less; a sequence of pushes and pops whose pops all meet a non-empty deque returns
what the same sequence returns on a list, with `Size()` changed by pushes minus pops; so
values pushed at the back come out at the front in the order they went in, after those
already there, and come out at the back in the opposite order. -/
theorem Pop_spec [Inhabited V] (d : Deque V) (hd : Reachable d) :
    (∀ x rest, d.toList = x :: rest →
        ∃ d', d.PopFront = .ok (x, d') ∧ d'.toList = rest ∧ d'.Size + 1 = d.Size)
      ∧ (∀ init y, d.toList = init ++ [y] →
        ∃ d', d.PopBack = .ok (y, d') ∧ d'.toList = init ∧ d'.Size + 1 = d.Size)
      ∧ (∀ ops outs L, refEnds ops d.toList = some (outs, L) →
        ∃ d', runEnds ops d = .ok (outs, d') ∧ d'.toList = L
          ∧ (d'.Size : Int) = d.Size + pushCount ops - popCount ops)
      ∧ (∀ vs : List V, ∃ d',
        runEnds (vs.map EndOp.pushBack
            ++ List.replicate (d.toList ++ vs).length EndOp.popFront) d
          = .ok (d.toList ++ vs, d') ∧ d'.Size = 0)
      ∧ (∀ vs : List V, ∃ d',
        runEnds (vs.map EndOp.pushBack ++ List.replicate vs.length EndOp.popBack) d
          = .ok (vs.reverse, d') ∧ d'.toList = d.toList ∧ d'.Size = d.Size) := by
  have hv := hd.valid
  have hsz := hv.size_eq
  have key : ∀ ops outs L, refEnds ops d.toList = some (outs, L) →
      ∃ d', runEnds ops d = .ok (outs, d') ∧ d'.toList = L ∧ d'.Size = L.length
        ∧ (d'.Size : Int) = d.Size + pushCount ops - popCount ops := by
    intro ops outs L href
    obtain ⟨d', e1, e2, e3⟩ := runEnds_valid ops hv href
    refine ⟨d', e1, e2.toList_eq, e2.size_eq, ?_⟩
    simp only [Deque.Size]
    rw [e2.size_eq, hsz]
    exact e3
  refine ⟨?_, ?_, ?_, ?_, ?_⟩
  · intro x rest hL
    rw [hL] at hv
    obtain ⟨d', e1, e2⟩ := PopFront_valid hv
    refine ⟨d', e1, e2.toList_eq, ?_⟩
    simp only [Deque.Size]
    rw [e2.size_eq, hsz, hL]
    rfl
  · intro init y hL
    rw [hL] at hv
    obtain ⟨d', e1, e2⟩ := PopBack_valid hv
    refine ⟨d', e1, e2.toList_eq, ?_⟩
    simp only [Deque.Size]
    rw [e2.size_eq, hsz, hL]
    simp
  · intro ops outs L href
    obtain ⟨d', e1, e2, -, e4⟩ := key ops outs L href
    exact ⟨d', e1, e2, e4⟩
  · intro vs
    obtain ⟨d', e1, -, e3, -⟩ := key _ (d.toList ++ vs) []
      (by rw [refEnds_pushBacks, refEnds_popFronts])
    exact ⟨d', e1, e3⟩
  · intro vs
    obtain ⟨d', e1, e2, e3, -⟩ := key _ vs.reverse d.toList
      (by rw [refEnds_pushBacks, refEnds_popBacks _ _ _ rfl])
    refine ⟨d', e1, e2, ?_⟩
    rw [e3]
    simp only [Deque.Size]
    omega

/-- C6: for every reachable deque and all integers `0 ≤ first < last ≤ Size()`,
`EraseRange(first, last)` returns, the element sequence afterwards is
`take first old ++ drop last old`, and `Size()` has decreased by exactly `last - first`. -/
theorem EraseRange_spec [Inhabited V] (d : Deque V) (hd : Reachable d) (first last : Int)
    (h0 : 0 ≤ first) (h1 : first < last) (h2 : last ≤ d.Size) :
    ∃ d', d.EraseRange first last = .ok d'
      ∧ d'.toList = d.toList.take first.toNat ++ d.toList.drop last.toNat
      ∧ (d'.Size : Int) = d.Size - (last - first) := by
  have hv := hd.valid
  have hsz := hv.size_eq
  obtain ⟨a, rfl⟩ : ∃ a : Nat, first = (a : Int) := ⟨first.toNat, by omega⟩
  obtain ⟨b, rfl⟩ : ∃ b : Nat, last = (b : Int) := ⟨last.toNat, by omega⟩
  simp only [Deque.Size] at h2 ⊢
  obtain ⟨d', e1, e2⟩ := EraseRange_valid hv a b (by omega) (by omega)
  refine ⟨d', e1, by simpa using e2.toList_eq, ?_⟩
  rw [e2.size_eq, hsz]
  simp only [List.length_append, List.length_take, List.length_drop]
  omega

/-- C7: for every reachable deque, every integer `pos` and every value `v`, `Set(pos, v)`
returns `ErrOutOffRange` exactly when `pos < 0` or `pos ≥ Size()`, and then the deque is the
one it was; otherwise it returns nil, the element of index `pos` is `v`, every other element
is the one it was, and `Size()` is unchanged. -/
theorem Set_spec [Inhabited V] (d : Deque V) (hd : Reachable d) (pos : Int) (v : V) :
    ((∃ d', d.Set pos v = .ok (d', some Error.ErrOutOffRange)) ↔ (pos < 0 ∨ pos ≥ d.Size))
      ∧ (pos < 0 ∨ pos ≥ d.Size → d.Set pos v = .ok (d, some Error.ErrOutOffRange))
      ∧ (0 ≤ pos → pos < d.Size →
          ∃ d', d.Set pos v = .ok (d', none) ∧ d'.toList = d.toList.set pos.toNat v
            ∧ d'.Size = d.Size) := by
  have hv := hd.valid
  have hsz := hv.size_eq
  have hin : 0 ≤ pos → pos < d.Size →
      ∃ d', d.Set pos v = .ok (d', none) ∧ d'.toList = d.toList.set pos.toNat v
        ∧ d'.Size = d.Size := by
    intro h0 h1
    obtain ⟨p, rfl⟩ : ∃ p : Nat, pos = (p : Int) := ⟨pos.toNat, by omega⟩
    simp only [Deque.Size] at h1 ⊢
    obtain ⟨d', e1, e2, e3⟩ := Set_valid hv p (by omega) v
    exact ⟨d', e1, by simpa using e2.toList_eq, e3⟩
  refine ⟨⟨?_, fun h => ⟨d, Set_out d pos v h⟩⟩, Set_out d pos v, hin⟩
  rintro ⟨d', hd'⟩
  by_contra hcon
  obtain ⟨d'', e1, -⟩ := hin (by omega) (by omega)
  rw [e1] at hd'
  cases hd'

/-- C8: `Insert(pos, v)` with `pos < 0` or `pos > Size()`, `EraseAt(pos)` with `pos < 0` or
`pos ≥ Size()`, and `EraseRange(first, last)` with `first < 0`, `first ≥ last` or
`last > Size()` return the state they were given, field for field; this holds for every
deque state, the reachable ones among them. -/
theorem Guards_spec [Inhabited V] (d : Deque V) (pos first last : Int) (v : V) :
    (pos < 0 ∨ pos > d.Size → d.Insert pos v = .ok d)
      ∧ (pos < 0 ∨ pos ≥ d.Size → d.EraseAt pos = .ok d)
      ∧ (first < 0 ∨ first ≥ last ∨ last > d.Size → d.EraseRange first last = .ok d) :=
  ⟨Insert_out d pos v, EraseAt_out d pos, EraseRange_out d first last⟩

/-- C9: on a deque with `Size() == 0`, `PopFront()` and `PopBack()` return nil and the state
they were given, field for field. -/
theorem PopEmpty_spec [Inhabited V] (d : Deque V) (h : d.Size = 0) :
    d.PopFront = .ok (default, d) ∧ d.PopBack = .ok (default, d) :=
  ⟨Pop_empty_front d h, Pop_empty_back d h⟩

/-- X1: for every reachable deque, every valid position `0 ≤ pos ≤ Size()` and every value
`v`, `Insert(pos, v)` fails in the call of `Segment.insert` exactly on `InsertDefect` (three or
more segments in use, `pos` below `SegmentCapacity - 1` and resolved to the start of the
second segment); on every other valid argument it returns, the element sequence afterwards is
`take pos old ++ [v] ++ drop pos old`, and `Size()` is one more. -/
theorem Insert_spec_outside_defect [Inhabited V] (d : Deque V) (hd : Reachable d) (pos : Int)
    (h0 : 0 ≤ pos) (h1 : pos ≤ d.Size) (v : V) :
    (InsertDefect d pos.toNat → d.Insert pos v = .error .segmentContract)
      ∧ (¬ InsertDefect d pos.toNat →
          ∃ d', d.Insert pos v = .ok d'
            ∧ d'.toList = d.toList.take pos.toNat ++ v :: d.toList.drop pos.toNat
            ∧ d'.Size = d.Size + 1) := by
  have hv := hd.valid
  have hsz := hv.size_eq
  obtain ⟨p, rfl⟩ : ∃ p : Nat, pos = (p : Int) := ⟨pos.toNat, by omega⟩
  simp only [Deque.Size] at h1 ⊢
  have hp : p ≤ d.toList.length := by omega
  obtain ⟨c1, c2⟩ := Insert_cases hv p hp v
  refine ⟨by simpa using c1, fun hnd => ?_⟩
  obtain ⟨d', e1, e2⟩ := c2 (by simpa using hnd)
  refine ⟨d', e1, by simpa [ins] using e2.toList_eq, ?_⟩
  rw [e2.size_eq, hsz, ins_length _ _ _ hp]

theorem stateAfter_reachable (ops : List (Op Nat)) (h : (run ops New).isOk = true) :
    Reachable (stateAfter ops) := by
  refine ⟨ops, ?_⟩
  unfold stateAfter
  cases hr : run ops New with
  | ok d => rfl
  | error e => rw [hr] at h; cases h

/-- C2 at the example: `EraseAt(0)` on `[0 1 2 3 99 4 5 6 7 8]` leaves
`[1 2 3 99 4 5 6 7 8]`. -/
theorem EraseAt_spec_witness :
    example1.toList = [0, 1, 2, 3, 99, 4, 5, 6, 7, 8]
      ∧ ∃ d', example1.EraseAt 0 = .ok d' ∧ d'.toList = [1, 2, 3, 99, 4, 5, 6, 7, 8]
        ∧ d'.Size + 1 = 10 := by
  obtain ⟨d', e1, e2, e3⟩ :=
    EraseAt_spec example1 (stateAfter_reachable _ (by decide)) 0 (by decide) (by decide)
  have hl : example1.toList = [0, 1, 2, 3, 99, 4, 5, 6, 7, 8] := by decide
  have hs : example1.Size = 10 := by decide
  rw [hl] at e2
  rw [hs] at e3
  exact ⟨hl, d', e1, e2, e3⟩

/-- C3 at the example: `At(4)` on the deque built by `PushBack` of 0..8 and `Insert(4, 99)`
is 99, the element of index 4 of the reference list. -/
theorem At_spec_witness :
    refRun (pushBacks 9 ++ [Op.insert 4 99]) [] = [0, 1, 2, 3, 99, 4, 5, 6, 7, 8]
      ∧ example1.toList = [0, 1, 2, 3, 99, 4, 5, 6, 7, 8]
      ∧ example1.At 4 = .ok 99 := by
  have hrun : run (pushBacks 9 ++ [Op.insert 4 99]) New = .ok example1 := by decide
  obtain ⟨e1, -, e3, -⟩ := At_spec (pushBacks 9 ++ [Op.insert 4 99]) example1 hrun 4
  have hr : refRun (pushBacks 9 ++ [Op.insert 4 99]) [] = [0, 1, 2, 3, 99, 4, 5, 6, 7, 8] := by
    decide
  obtain ⟨x, hx, hat⟩ := e3 (by decide) (by decide)
  rw [hr] at hx e1
  have h99 : x = 99 := by simpa using hx.symm
  rw [h99] at hat
  exact ⟨hr, e1, hat⟩

/-- C4 at the example: the ninth `PushBack` on `New()` gives `[0 1 2 3 4 5 6 7 8]`. -/
theorem Push_spec_witness :
    ∃ d', (stateAfter (pushBacks 8)).PushBack 8 = .ok d'
      ∧ d'.toList = [0, 1, 2, 3, 4, 5, 6, 7, 8] ∧ d'.Size = 9 := by
  obtain ⟨d', e1, e2, e3⟩ :=
    (Push_spec (stateAfter (pushBacks 8)) (stateAfter_reachable _ (by decide)) 8).1
  have hl : (stateAfter (pushBacks 8)).toList = [0, 1, 2, 3, 4, 5, 6, 7] := by decide
  have hs : (stateAfter (pushBacks 8)).Size = 8 := by decide
  rw [hl] at e2
  rw [hs] at e3
  exact ⟨d', e1, e2, e3⟩

/-- C5 at the example: on `[1 2 3 99 4 5 6 7 8]`, `PopFront()` returns 1 and the new
`Front()` is 2. -/
theorem Pop_spec_witness :
    example2.toList = [1, 2, 3, 99, 4, 5, 6, 7, 8]
      ∧ (∃ d', example2.PopFront = .ok (1, d') ∧ d'.toList = [2, 3, 99, 4, 5, 6, 7, 8]
        ∧ d'.Size + 1 = 9)
      ∧ (example2.PopFront >>= fun r => r.2.Front) = .ok 2 := by
  have hl : example2.toList = [1, 2, 3, 99, 4, 5, 6, 7, 8] := by decide
  have hs : example2.Size = 9 := by decide
  obtain ⟨d', e1, e2, e3⟩ :=
    (Pop_spec example2 (stateAfter_reachable _ (by decide))).1 1 [2, 3, 99, 4, 5, 6, 7, 8] hl
  rw [hs] at e3
  exact ⟨hl, ⟨d', e1, e2, e3⟩, by decide⟩

/-- C6 on `[0 1 2 3 4 5 6 7 8]`: `EraseRange(2, 5)` leaves `[0 1 5 6 7 8]`. -/
theorem EraseRange_spec_witness :
    ∃ d', (stateAfter (pushBacks 9)).EraseRange 2 5 = .ok d'
      ∧ d'.toList = [0, 1, 5, 6, 7, 8] ∧ (d'.Size : Int) = 9 - (5 - 2) := by
  obtain ⟨d', e1, e2, e3⟩ :=
    EraseRange_spec (stateAfter (pushBacks 9)) (stateAfter_reachable _ (by decide)) 2 5
      (by decide) (by decide) (by decide)
  have hl : (stateAfter (pushBacks 9)).toList = [0, 1, 2, 3, 4, 5, 6, 7, 8] := by decide
  have hs : (stateAfter (pushBacks 9)).Size = 9 := by decide
  rw [hl] at e2
  rw [hs] at e3
  exact ⟨d', e1, e2, e3⟩

/-- C7 on `[0 1 2 3 4 5 6 7 8]`: `Set(3, 42)` returns nil and leaves
`[0 1 2 42 4 5 6 7 8]`; `Set(9, 42)` returns `ErrOutOffRange` and the same deque. -/
theorem Set_spec_witness :
    (∃ d', (stateAfter (pushBacks 9)).Set 3 42 = .ok (d', none)
        ∧ d'.toList = [0, 1, 2, 42, 4, 5, 6, 7, 8] ∧ d'.Size = 9)
      ∧ (stateAfter (pushBacks 9)).Set 9 42
        = .ok (stateAfter (pushBacks 9), some Error.ErrOutOffRange) := by
  have hl : (stateAfter (pushBacks 9)).toList = [0, 1, 2, 3, 4, 5, 6, 7, 8] := by decide
  have hs : (stateAfter (pushBacks 9)).Size = 9 := by decide
  have hr : Reachable (stateAfter (pushBacks 9)) := stateAfter_reachable _ (by decide)
  obtain ⟨d', e1, e2, e3⟩ :=
    (Set_spec (stateAfter (pushBacks 9)) hr 3 42).2.2 (by decide) (by decide)
  rw [hl] at e2
  rw [hs] at e3
  exact ⟨⟨d', e1, e2, e3⟩, (Set_spec (stateAfter (pushBacks 9)) hr 9 42).2.1 (by decide)⟩

/-- C8 on `[0 1 2]`: `Insert(4, 7)`, `EraseAt(3)` and `EraseRange(2, 2)` return the state
they were given. -/
theorem Guards_spec_witness :
    (stateAfter (pushBacks 3)).Insert 4 7 = .ok (stateAfter (pushBacks 3))
      ∧ (stateAfter (pushBacks 3)).EraseAt 3 = .ok (stateAfter (pushBacks 3))
      ∧ (stateAfter (pushBacks 3)).EraseRange 2 2 = .ok (stateAfter (pushBacks 3)) :=
  ⟨(Guards_spec (stateAfter (pushBacks 3)) 4 2 2 7).1 (by decide),
    (Guards_spec (stateAfter (pushBacks 3)) 3 2 2 7).2.1 (by decide),
    (Guards_spec (stateAfter (pushBacks 3)) 4 2 2 7).2.2 (by decide)⟩

/-- C9 on a deque emptied by a pop: `PopFront()` and `PopBack()` return nil and the same
state, whose directory still has its one slot. -/
theorem PopEmpty_spec_witness :
    (stateAfter [Op.pushBack 1, Op.popFront]).Size = 0
      ∧ (stateAfter [Op.pushBack 1, Op.popFront]).Segs.length = 1
      ∧ (stateAfter [Op.pushBack 1, Op.popFront]).PopFront
        = .ok (0, stateAfter [Op.pushBack 1, Op.popFront])
      ∧ (stateAfter [Op.pushBack 1, Op.popFront]).PopBack
        = .ok (0, stateAfter [Op.pushBack 1, Op.popFront]) :=
  ⟨by decide, by decide,
    (PopEmpty_spec (stateAfter [Op.pushBack 1, Op.popFront]) (by decide)).1,
    (PopEmpty_spec (stateAfter [Op.pushBack 1, Op.popFront]) (by decide)).2⟩

/-- X1 at the example: `Insert(4, 99)` on `[0 1 2 3 4 5 6 7 8]` gives
`[0 1 2 3 99 4 5 6 7 8]`. -/
theorem Insert_spec_outside_defect_witness :
    ∃ d', (stateAfter (pushBacks 9)).Insert 4 99 = .ok d'
      ∧ d'.toList = [0, 1, 2, 3, 99, 4, 5, 6, 7, 8] ∧ d'.Size = 10 := by
  have hnd : ¬ InsertDefect (stateAfter (pushBacks 9)) (4 : Int).toNat := by
    rintro ⟨h3, -⟩
    revert h3
    decide
  obtain ⟨d', e1, e2, e3⟩ :=
    (Insert_spec_outside_defect (stateAfter (pushBacks 9)) (stateAfter_reachable _ (by decide))
      4 (by decide) (by decide) 99).2 hnd
  have hl : (stateAfter (pushBacks 9)).toList = [0, 1, 2, 3, 4, 5, 6, 7, 8] := by decide
  have hs : (stateAfter (pushBacks 9)).Size = 9 := by decide
  rw [hl] at e2
  rw [hs] at e3
  exact ⟨d', e1, e2, e3⟩

/-- The directory read from `BeginFi` on: the segments in use in order, then nil slots. -/
theorem Lay.rotate_eq {d : Deque V} {segs : List (List V)} (h : Lay d segs) :
    d.Segs.rotate d.BeginFi
      = segs.map (fun s => some (Segment.mk s))
        ++ List.replicate (d.Segs.length - segs.length) none := by
  have hle := h.used_le
  apply List.ext_getElem?
  intro i
  by_cases hi : i < d.Segs.length
  · rw [List.getElem?_rotate hi, Nat.add_comm i, h.slots i hi]
    by_cases hs : i < segs.length
    · rw [List.getElem?_append_left (by simpa using hs)]
      simp [hs]
    · rw [List.getElem?_append_right (by simpa using hs)]
      simp only [List.length_map, List.getElem?_replicate]
      rw [if_pos (by omega), List.getElem?_eq_none (by omega)]
      rfl
  · rw [List.getElem?_eq_none (by simp; omega), List.getElem?_eq_none (by simp; omega)]

/-- The slots that hold a segment are as many as the segments in use. -/
theorem Lay.count_used {d : Deque V} {segs : List (List V)} (h : Lay d segs) :
    d.Segs.countP Option.isSome = segs.length := by
  rw [← (List.rotate_perm d.Segs d.BeginFi).countP_eq, h.rotate_eq, List.countP_append,
    List.countP_replicate, List.countP_map]
  simp

/-- With no segment in use every slot is nil. -/
theorem Lay.slots_none {d : Deque V} (h : Lay d []) : ∀ x ∈ d.Segs, x = none := by
  intro x hx
  have hx' := ((List.rotate_perm d.Segs d.BeginFi).mem_iff).mpr hx
  rw [h.rotate_eq] at hx'
  simp only [List.map_nil, List.nil_append] at hx'
  exact (List.mem_replicate.mp hx').2

theorem Valid.all_none {d : Deque V} (h : Valid d []) : ∀ x ∈ d.Segs, x = none := by
  rcases h with ⟨hz, -⟩ | ⟨segs, hinv, hfl⟩
  · intro x hx
    rw [hz.1] at hx
    simp at hx
  · have hnil : segs = [] := by
      by_contra hne
      have := flatten_length_pos hne hinv.shape.1
      rw [hfl] at this
      simp at this
    subst hnil
    exact hinv.lay.slots_none

theorem Valid.segUsed_lt {d : Deque V} {L : List V} (h : Valid d L) :
    d.segUsed < d.Segs.length
      ∨ (d.Segs = [] ∧ d.BeginFi = 0 ∧ d.EndFi = 0 ∧ d.SizeFi = 0 ∧ d.segUsed = 0) := by
  rcases h with ⟨hz, -⟩ | ⟨segs, hinv, -⟩
  · exact Or.inr ⟨hz.1, hz.2.1, hz.2.2.1, hz.2.2.2, segUsed_zero d hz.2.2.2⟩
  · exact Or.inl (by rw [hinv.used_eq]; exact hinv.strict)

theorem Valid.count_isSome {d : Deque V} {L : List V} (h : Valid d L) :
    d.Segs.countP Option.isSome = d.segUsed := by
  rcases h with ⟨hz, -⟩ | ⟨segs, hinv, -⟩
  · rw [segUsed_zero d hz.2.2.2, hz.1]
    rfl
  · rw [hinv.used_eq, hinv.lay.count_used]

theorem Front_valid {d : Deque V} {x : V} {L : List V} (h : Valid d (x :: L)) :
    d.Front = .ok x := by
  obtain ⟨segs, hinv, hfl⟩ := h.inv_of_ne_nil (by simp)
  rcases segs with _ | ⟨s, rest⟩
  · simp at hfl
  · have hs := (hinv.shape.1 s.length (by simp)).1
    rcases s with _ | ⟨x', xs⟩
    · simp at hs
    · simp only [List.flatten_cons, List.cons_append, List.cons.injEq] at hfl
      obtain ⟨rfl, -⟩ := hfl
      unfold Deque.Front
      rw [hinv.lay.firstSegment_eq]
      simp only [ok_bind, List.getElem?_cons_zero, Option.map_some', deref, Segment.front,
        List.head?_cons]

theorem Back_valid {d : Deque V} {y : V} {L : List V} (h : Valid d (L ++ [y])) :
    d.Back = .ok y := by
  obtain ⟨segs, hinv, hfl⟩ := h.inv_of_ne_nil (by simp)
  rcases List.eq_nil_or_concat segs with rfl | ⟨init, s, rfl⟩
  · simp at hfl
  · have hs := (hinv.shape.1 s.length (by simp)).1
    rcases List.eq_nil_or_concat s with rfl | ⟨ys, y', rfl⟩
    · simp at hs
    · simp only [List.concat_eq_append, List.flatten_append, List.flatten_cons,
        List.flatten_nil, List.append_nil, ← List.append_assoc] at hfl
      obtain ⟨-, h2⟩ := List.append_inj' hfl rfl
      simp only [List.cons.injEq, and_true] at h2
      subst h2
      unfold Deque.Back
      rw [hinv.lay.lastSegment_eq]
      simp only [List.concat_eq_append, getLast?_snoc, Option.map_some', ok_bind, deref,
        Segment.back, getLast?_append_one]

theorem Valid.segs_nil {d : Deque V} {segs : List (List V)} (hinv : Inv d segs)
    (hfl : segs.flatten = []) : segs = [] := by
  by_contra hne
  have := flatten_length_pos hne hinv.shape.1
  rw [hfl] at this
  simp at this

theorem Front_empty {d : Deque V} (h : Valid d []) : d.Front = .error .nilSegment := by
  rcases h with ⟨hz, -⟩ | ⟨segs, hinv, hfl⟩
  · unfold Deque.Front Deque.firstSegment
    rw [hz.1]
    rfl
  · obtain rfl := Valid.segs_nil hinv hfl
    unfold Deque.Front
    rw [hinv.lay.firstSegment_eq]
    rfl

theorem Back_empty {d : Deque V} (h : Valid d []) : d.Back = .error .nilSegment := by
  rcases h with ⟨hz, -⟩ | ⟨segs, hinv, hfl⟩
  · unfold Deque.Back Deque.lastSegment
    rw [hz.1]
    rfl
  · obtain rfl := Valid.segs_nil hinv hfl
    unfold Deque.Back
    rw [hinv.lay.lastSegment_eq]
    rfl

/-- The pop `PopFront` on a non-empty deque with the directory it leaves. -/
theorem PopFront_valid_cap [Inhabited V] {d : Deque V} {x : V} {L : List V}
    (h : Valid d (x :: L)) :
    ∃ d', d.PopFront = .ok (x, d') ∧ Valid d' L ∧ 0 < d'.Segs.length
      ∧ (d'.segUsed * 2 * 6 / 5 < d.Segs.length →
          d'.Segs.length = d.Segs.length / 2 ∧ d'.BeginFi = 0 ∧ d'.EndFi = d'.segUsed)
      ∧ (¬ d'.segUsed * 2 * 6 / 5 < d.Segs.length → d'.Segs.length = d.Segs.length) := by
  obtain ⟨segs, hinv, hfl⟩ := h.inv_of_ne_nil (by simp)
  rcases segs with _ | ⟨s, rest⟩
  · simp at hfl
  · have hs := (hinv.shape.1 s.length (by simp)).1
    rcases s with _ | ⟨x', xs⟩
    · simp at hs
    · simp only [List.flatten_cons, List.cons_append, List.cons.injEq] at hfl
      obtain ⟨rfl, rfl⟩ := hfl
      obtain ⟨d', segs', h1, h2, h3, h4, h5⟩ := PopFront_inv_cap hinv
      rw [← h2.used_eq] at h4 h5
      exact ⟨d', h1, Or.inr ⟨segs', h2, h3⟩, h2.cap_pos, h4, h5⟩

/-- The pop `PopBack` on a non-empty deque with the directory it leaves. -/
theorem PopBack_valid_cap [Inhabited V] {d : Deque V} {y : V} {L : List V}
    (h : Valid d (L ++ [y])) :
    ∃ d', d.PopBack = .ok (y, d') ∧ Valid d' L ∧ 0 < d'.Segs.length
      ∧ (d'.segUsed * 2 * 6 / 5 < d.Segs.length →
          d'.Segs.length = d.Segs.length / 2 ∧ d'.BeginFi = 0 ∧ d'.EndFi = d'.segUsed)
      ∧ (¬ d'.segUsed * 2 * 6 / 5 < d.Segs.length → d'.Segs.length = d.Segs.length) := by
  obtain ⟨segs, hinv, hfl⟩ := h.inv_of_ne_nil (by simp)
  rcases List.eq_nil_or_concat segs with rfl | ⟨init, s, rfl⟩
  · simp at hfl
  · have hs := (hinv.shape.1 s.length (by simp)).1
    rcases List.eq_nil_or_concat s with rfl | ⟨ys, y', rfl⟩
    · simp at hs
    · simp only [List.concat_eq_append, List.flatten_append, List.flatten_cons,
        List.flatten_nil, List.append_nil, ← List.append_assoc] at hfl
      obtain ⟨rfl, h2⟩ := List.append_inj' hfl rfl
      simp only [List.cons.injEq, and_true] at h2
      subst h2
      have hinv' : Inv d (init ++ [ys ++ [y']]) := by simpa using hinv
      obtain ⟨d', segs', h1, h2, h3, h4, h5⟩ := PopBack_inv_cap hinv'
      rw [← h2.used_eq] at h4 h5
      exact ⟨d', h1, Or.inr ⟨segs', h2, h3⟩, h2.cap_pos, h4, h5⟩

theorem Valid.inv_of_cap {d : Deque V} {L : List V} (h : Valid d L) (hc : 0 < d.Segs.length) :
    ∃ segs, Inv d segs ∧ segs.flatten = L := by
  rcases h with ⟨hz, -⟩ | h
  · rw [hz.1] at hc
    simp at hc
  · exact h

/-- The push `PushFront` on a deque whose directory is allocated, with the directory it
leaves. -/
theorem PushFront_valid_cap {d : Deque V} {L : List V} (h : Valid d L)
    (hc : 0 < d.Segs.length) (v : V) :
    ∃ d', d.PushFront v = .ok d' ∧ Valid d' (v :: L) ∧ d'.segUsed ≤ d.segUsed + 1
      ∧ (d'.segUsed < d.Segs.length → d'.Segs.length = d.Segs.length) := by
  obtain ⟨segs, hinv, rfl⟩ := h.inv_of_cap hc
  obtain ⟨d', segs', h1, h2, h3, h4, h5⟩ := PushFront_inv_cap hinv v
  rw [← h2.used_eq] at h4 h5
  rw [← hinv.used_eq] at h4
  exact ⟨d', h1, Or.inr ⟨segs', h2, h3⟩, h4, h5⟩

/-- The push `PushBack` on a deque whose directory is allocated, with the directory it
leaves. -/
theorem PushBack_valid_cap {d : Deque V} {L : List V} (h : Valid d L)
    (hc : 0 < d.Segs.length) (v : V) :
    ∃ d', d.PushBack v = .ok d' ∧ Valid d' (L ++ [v]) ∧ d'.segUsed ≤ d.segUsed + 1
      ∧ (d'.segUsed < d.Segs.length → d'.Segs.length = d.Segs.length) := by
  obtain ⟨segs, hinv, rfl⟩ := h.inv_of_cap hc
  obtain ⟨d', segs', h1, h2, h3, h4, h5⟩ := PushBack_inv_cap hinv v
  rw [← h2.used_eq] at h4 h5
  rw [← hinv.used_eq] at h4
  exact ⟨d', h1, Or.inr ⟨segs', h2, h3⟩, h4, h5⟩

/-- A directory of more than eight slots has at least sixteen, an even number. -/
theorem pow2_large {n : Nat} (hp : ∃ k, n = 2 ^ k) (h : 8 < n) : 16 ≤ n ∧ n % 2 = 0 := by
  obtain ⟨k, rfl⟩ := hp
  rcases k with _ | _ | _ | _ | k
  · simp at h
  · simp at h
  · simp at h
  · simp at h
  · have : 2 ^ (k + 1 + 1 + 1 + 1) = 16 * 2 ^ k := by ring
    have hpos : 0 < 2 ^ k := Nat.two_pow_pos k
    omega

theorem string_length_pos {r : String} (h : r ≠ "") : 0 < r.length := by
  rcases r with ⟨l⟩
  rcases l with _ | ⟨c, l⟩
  · exact absurd rfl h
  · simp [String.length]

theorem ne_bracket {str : String} (h : 2 ≤ str.length) : str ≠ "[" := by
  rintro rfl
  simp [String.length] at h

theorem foldl_stringStep_long (rs : List String) :
    ∀ str : String, 2 ≤ str.length →
      rs.foldl stringStep str = rs.foldl (fun acc x => acc ++ " " ++ x) str := by
  induction rs with
  | nil => intro str _; rfl
  | cons r rs ih =>
    intro str h
    have hstep : stringStep str r = str ++ " " ++ r := by
      unfold stringStep
      rw [if_pos (ne_bracket h)]
    simp only [List.foldl_cons, hstep]
    exact ih _ (by simp only [String.length_append]; omega)

theorem foldl_join_append (rs : List String) :
    ∀ a b : String, rs.foldl (fun acc x => acc ++ " " ++ x) (a ++ b)
      = a ++ rs.foldl (fun acc x => acc ++ " " ++ x) b := by
  induction rs with
  | nil => intro a b; rfl
  | cons r rs ih =>
    intro a b
    simp only [List.foldl_cons]
    rw [String.append_assoc a b " ", String.append_assoc a (b ++ " ") r, ih]

/-- The loop of `String()` on the renderings alone: renderings that are empty leave the
string at its opening bracket, so the ones before the first non-empty rendering get no
separator. -/
theorem foldl_stringStep (rs : List String) :
    rs.foldl stringStep "[" = "[" ++ joinSpace (rs.dropWhile (fun r => r == "")) := by
  induction rs with
  | nil => rfl
  | cons r rs ih =>
    by_cases hr : r = ""
    · subst hr
      have hstep : stringStep "[" "" = "[" := by decide
      simp only [List.foldl_cons, hstep, ih, List.dropWhile_cons, beq_self_eq_true, if_true]
    · have hstep : stringStep "[" r = "[" ++ r := by
        unfold stringStep
        rw [if_neg (by simp)]
      have hlen : 2 ≤ ("[" ++ r).length := by
        have := string_length_pos hr
        simp only [String.length_append]
        have : ("[" : String).length = 1 := by decide
        omega
      have hb : (r == "") = false := by simpa using hr
      simp only [List.foldl_cons, hstep, List.dropWhile_cons, hb, Bool.false_eq_true, if_false]
      rw [foldl_stringStep_long rs _ hlen, foldl_join_append]
      rfl

theorem stringLoop_valid [Inhabited V] (render : V → String) {d : Deque V} {L : List V}
    (h : Valid d L) (n : Nat) :
    ∀ (i : Nat) (str : String), i + n ≤ L.length →
      stringLoop render d n (i : Int) str
        = .ok ((((L.drop i).take n).map render).foldl stringStep str) := by
  induction n with
  | zero =>
    intro i str _
    simp [stringLoop]
  | succ n ih =>
    intro i str hi
    have hlt : i < L.length := by omega
    have hdrop : L.drop i = L[i] :: L.drop (i + 1) := List.drop_eq_getElem_cons hlt
    have hcast : ((i : Nat) : Int) + 1 = ((i + 1 : Nat) : Int) := by push_cast; rfl
    simp only [stringLoop, At_valid h i hlt, ok_bind, hcast]
    rw [ih (i + 1) _ (by omega), hdrop]
    simp only [List.take_succ_cons, List.map_cons, List.foldl_cons]
    rfl

/-- The string `String()` returns, exactly. -/
theorem String_valid [Inhabited V] (render : V → String) {d : Deque V} {L : List V}
    (h : Valid d L) :
    d.String render
      = .ok ("[" ++ joinSpace ((L.map render).dropWhile (fun r => r == "")) ++ "]") := by
  unfold Deque.String Deque.Size
  have := stringLoop_valid render h d.SizeFi 0 "[" (by rw [h.size_eq]; omega)
  simp only [Nat.cast_zero] at this
  rw [this, h.size_eq]
  simp only [List.drop_zero, List.take_length, ok_bind, pure_eq_ok, foldl_stringStep]

/-- C11: for every reachable non-empty deque, `Front()` returns what `At(0)` returns and
`Back()` returns what `At(Size() - 1)` returns; for every reachable deque with
`Size() == 0`, `Front()` and `Back()` return no value: each calls a method through the nil
segment pointer that `firstSegment()` or `lastSegment()` gives. -/
theorem FrontBack_spec [Inhabited V] (d : Deque V) (hd : Reachable d) :
    (d.Size ≠ 0 →
        ∃ x y, d.Front = .ok x ∧ d.At 0 = .ok x
          ∧ d.Back = .ok y ∧ d.At ((d.Size : Int) - 1) = .ok y)
      ∧ (d.Size = 0 → d.Front = .error .nilSegment ∧ d.Back = .error .nilSegment) := by
  have hv := hd.valid
  have hsz := hv.size_eq
  simp only [Deque.Size]
  generalize d.toList = L at hv hsz
  constructor
  · intro hne
    have hpos : 0 < L.length := by omega
    have h0 := At_valid hv 0 hpos
    have hlast : L.length - 1 < L.length := by omega
    have hc : ((L.length - 1 : Nat) : Int) = (d.SizeFi : Int) - 1 := by omega
    have h1 : d.At ((d.SizeFi : Int) - 1) = .ok L[L.length - 1] :=
      (congrArg d.At hc).symm.trans (At_valid hv (L.length - 1) hlast)
    rcases List.eq_nil_or_concat L with rfl | ⟨init, y, rfl⟩
    · simp at hpos
    · rcases init with _ | ⟨x, rest⟩
      · refine ⟨y, y, Front_valid hv, h0, Back_valid (L := []) hv, ?_⟩
        rw [h1]
        simp
      · refine ⟨x, y, Front_valid hv, h0, ?_, ?_⟩
        · exact Back_valid (L := x :: rest) (by simpa using hv)
        · rw [h1]
          simp
  · intro h0
    have hnil : L = [] := List.length_eq_zero.mp (by omega)
    rw [hnil] at hv
    exact ⟨Front_empty hv, Back_empty hv⟩

/-- C13: for every reachable deque, `Clear()` is `EraseRange(0, Size())`, it returns, and the
deque it leaves has `Size() == 0`, `Empty() == true`, no element and no directory slot
holding a segment. -/
theorem Clear_spec [Inhabited V] (d : Deque V) (hd : Reachable d) :
    d.Clear = d.EraseRange 0 d.Size
      ∧ ∃ d', d.Clear = .ok d' ∧ d'.Size = 0 ∧ d'.Empty = true ∧ d'.toList = []
        ∧ ∀ x ∈ d'.Segs, x = none := by
  refine ⟨rfl, ?_⟩
  obtain ⟨d', h1, h2⟩ := Clear_valid hd.valid
  have hs : d'.SizeFi = 0 := by simpa using h2.size_eq
  exact ⟨d', h1, hs, by simp [Deque.Empty, hs], h2.toList_eq, h2.all_none⟩

theorem nat_of_range {pos : Int} {n : Nat} (h : ¬ (pos < 0 ∨ pos ≥ (n : Int))) :
    ∃ p : Nat, pos = (p : Int) ∧ p < n :=
  ⟨pos.toNat, by omega, by omega⟩

theorem PopFront_total [Inhabited V] {d : Deque V} {L : List V} (h : Valid d L) :
    ∃ r, d.PopFront = .ok r := by
  rcases L with _ | ⟨x, rest⟩
  · exact ⟨_, Pop_empty_front d (by simpa using h.size_eq)⟩
  · obtain ⟨d', h1, -⟩ := PopFront_valid h
    exact ⟨_, h1⟩

theorem PopBack_total [Inhabited V] {d : Deque V} {L : List V} (h : Valid d L) :
    ∃ r, d.PopBack = .ok r := by
  rcases List.eq_nil_or_concat L with rfl | ⟨init, y, rfl⟩
  · exact ⟨_, Pop_empty_back d (by simpa using h.size_eq)⟩
  · obtain ⟨d', h1, -⟩ := PopBack_valid (by simpa using h)
    exact ⟨_, h1⟩

theorem At_total [Inhabited V] {d : Deque V} {L : List V} (h : Valid d L) (pos : Int) :
    ∃ x, d.At pos = .ok x := by
  by_cases hout : pos < 0 ∨ pos ≥ (d.Size : Int)
  · exact ⟨_, At_out d pos hout⟩
  · simp only [Deque.Size, h.size_eq] at hout
    obtain ⟨p, rfl, hp⟩ := nat_of_range hout
    exact ⟨_, At_valid h p hp⟩

theorem Set_total {d : Deque V} {L : List V} (h : Valid d L) (pos : Int) (v : V) :
    ∃ r, d.Set pos v = .ok r := by
  by_cases hout : pos < 0 ∨ pos ≥ (d.SizeFi : Int)
  · exact ⟨_, Set_out d pos v hout⟩
  · rw [h.size_eq] at hout
    obtain ⟨p, rfl, hp⟩ := nat_of_range hout
    obtain ⟨d', h1, -⟩ := Set_valid h p hp v
    exact ⟨_, h1⟩

theorem EraseAt_total {d : Deque V} {L : List V} (h : Valid d L) (pos : Int) :
    ∃ d', d.EraseAt pos = .ok d' := by
  by_cases hout : pos < 0 ∨ pos ≥ (d.SizeFi : Int)
  · exact ⟨_, EraseAt_out d pos hout⟩
  · rw [h.size_eq] at hout
    obtain ⟨p, rfl, hp⟩ := nat_of_range hout
    obtain ⟨d', h1, -⟩ := EraseAt_valid h p hp
    exact ⟨_, h1⟩

theorem EraseRange_total [Inhabited V] {d : Deque V} {L : List V} (h : Valid d L)
    (first last : Int) : ∃ d', d.EraseRange first last = .ok d' := by
  by_cases hout : first < 0 ∨ first ≥ last ∨ last > (d.SizeFi : Int)
  · exact ⟨_, EraseRange_out d first last hout⟩
  · rw [h.size_eq] at hout
    obtain ⟨a, rfl⟩ : ∃ a : Nat, first = (a : Int) := ⟨first.toNat, by omega⟩
    obtain ⟨b, rfl⟩ : ∃ b : Nat, last = (b : Int) := ⟨last.toNat, by omega⟩
    obtain ⟨d', h1, -⟩ := EraseRange_valid h a b (by omega) (by omega)
    exact ⟨_, h1⟩

theorem Insert_total {d : Deque V} {L : List V} (h : Valid d L) (pos : Int) (v : V)
    (hok : pos < 0 ∨ pos > (d.SizeFi : Int) ∨ ¬ InsertDefect d pos.toNat) :
    ∃ d', d.Insert pos v = .ok d' := by
  by_cases hout : pos < 0 ∨ pos > (d.SizeFi : Int)
  · exact ⟨_, Insert_out d pos v hout⟩
  · have hnd : ¬ InsertDefect d pos.toNat := by
      rcases hok with h1 | h1 | h1
      · exact absurd (Or.inl h1) hout
      · exact absurd (Or.inr h1) hout
      · exact h1
    rw [h.size_eq] at hout
    obtain ⟨p, rfl⟩ : ∃ p : Nat, pos = (p : Int) := ⟨pos.toNat, by omega⟩
    obtain ⟨d', h1, -⟩ := (Insert_cases h p (by omega) v).2 (by simpa using hnd)
    exact ⟨_, h1⟩

theorem FrontBack_total {d : Deque V} {L : List V} (h : Valid d L) (hne : L ≠ []) :
    (∃ x, d.Front = .ok x) ∧ ∃ y, d.Back = .ok y := by
  constructor
  · rcases L with _ | ⟨x, rest⟩
    · exact absurd rfl hne
    · exact ⟨x, Front_valid h⟩
  · rcases List.eq_nil_or_concat L with rfl | ⟨init, y, rfl⟩
    · exact absurd rfl hne
    · exact ⟨y, Back_valid (by simpa using h)⟩

theorem Insert_ok_or_contract {d : Deque V} {L : List V} (h : Valid d L) (pos : Int) (v : V) :
    (∃ d', d.Insert pos v = .ok d') ∨ d.Insert pos v = .error .segmentContract := by
  by_cases hout : pos < 0 ∨ pos > (d.SizeFi : Int)
  · exact Or.inl ⟨_, Insert_out d pos v hout⟩
  · rw [h.size_eq] at hout
    obtain ⟨p, rfl⟩ : ∃ p : Nat, pos = (p : Int) := ⟨pos.toNat, by omega⟩
    obtain ⟨c1, c2⟩ := Insert_cases h p (by omega) v
    by_cases hd : InsertDefect d p
    · exact Or.inr (c1 hd)
    · obtain ⟨d', h1, -⟩ := c2 hd
      exact Or.inl ⟨d', h1⟩

/-- C14, amended: on every deque reachable from `New()` and for every argument, `PushFront`,
`PushBack`, `At`, `Set`, `PopFront`, `PopBack`, `EraseAt`, `EraseRange`, `Clear` and `String`
return without a fault; `Front` and `Back` return on every non-empty deque and end in the
call through a nil segment pointer on every empty one; `Insert` never meets a nil segment,
a directory index out of range or a zero directory capacity: on every argument it returns or
ends in the call `Segment.insert` made beyond the count, and it returns on every argument
outside `InsertDefect`.  `Size` and `Empty` read one field and are total functions. -/
theorem NoFault_spec [Inhabited V] (d : Deque V) (hd : Reachable d) :
    (∀ v, ∃ d', d.PushFront v = .ok d') ∧ (∀ v, ∃ d', d.PushBack v = .ok d')
      ∧ (∀ (pos : Int) (v : V),
          (∃ d', d.Insert pos v = .ok d') ∨ d.Insert pos v = .error .segmentContract)
      ∧ (∀ (pos : Int) (v : V), pos < 0 ∨ pos > d.Size ∨ ¬ InsertDefect d pos.toNat →
          ∃ d', d.Insert pos v = .ok d')
      ∧ (d.Size ≠ 0 → (∃ x, d.Front = .ok x) ∧ ∃ y, d.Back = .ok y)
      ∧ (d.Size = 0 → d.Front = .error .nilSegment ∧ d.Back = .error .nilSegment)
      ∧ (∀ pos, ∃ x, d.At pos = .ok x)
      ∧ (∀ pos v, ∃ r, d.Set pos v = .ok r)
      ∧ (∃ r, d.PopFront = .ok r) ∧ (∃ r, d.PopBack = .ok r)
      ∧ (∀ pos, ∃ d', d.EraseAt pos = .ok d')
      ∧ (∀ first last, ∃ d', d.EraseRange first last = .ok d')
      ∧ (∃ d', d.Clear = .ok d')
      ∧ (∀ render : V → String, ∃ s, d.String render = .ok s) := by
  have hv := hd.valid
  have hsz := hv.size_eq
  refine ⟨fun v => ?_, fun v => ?_, Insert_ok_or_contract hv,
    fun pos v h => Insert_total hv pos v h, fun hne => ?_, fun h0 => ?_,
    At_total hv, Set_total hv, PopFront_total hv, PopBack_total hv, EraseAt_total hv,
    EraseRange_total hv, ?_, fun render => ⟨_, String_valid render hv⟩⟩
  · obtain ⟨d', h1, -⟩ := PushFront_valid hv v
    exact ⟨d', h1⟩
  · obtain ⟨d', h1, -⟩ := PushBack_valid hv v
    exact ⟨d', h1⟩
  · refine FrontBack_total hv ?_
    intro hnil
    apply hne
    simp only [Deque.Size]
    rw [hsz, hnil]
    rfl
  · simp only [Deque.Size] at h0
    have hnil : d.toList = [] := List.length_eq_zero.mp (by omega)
    rw [hnil] at hv
    exact ⟨Front_empty hv, Back_empty hv⟩
  · obtain ⟨d', h1, -⟩ := Clear_valid hv
    exact ⟨d', h1⟩

theorem Shape.inner_full {lens : List Nat} (h : Shape lens) {i : Nat} (h0 : 0 < i)
    (h1 : i + 1 < lens.length) : lens[i]? = some 128 := by
  have hi : i < lens.length := by omega
  rw [List.getElem?_eq_getElem hi]
  congr 1
  apply h.2
  rw [List.mem_iff_getElem]
  refine ⟨i - 1, by simp; omega, ?_⟩
  simp only [List.getElem_dropLast, List.getElem_tail]
  congr 1
  omega

/-- The layout of the directory of a well-formed state, slot by slot. -/
theorem Inv.layout {d : Deque V} {segs : List (List V)} (h : Inv d segs) :
    (∀ i, i < d.segUsed →
        ∃ s : Segment V, d.Segs[(d.BeginFi + i) % d.Segs.length]? = some (some s)
          ∧ 1 ≤ s.size ∧ s.size ≤ SegmentCapacity
          ∧ (0 < i → i + 1 < d.segUsed → s.size = SegmentCapacity))
      ∧ (∀ i, d.segUsed ≤ i → i < d.Segs.length →
        d.Segs[(d.BeginFi + i) % d.Segs.length]? = some none) := by
  have hu := h.used_eq
  have hst := h.strict
  constructor
  · intro i hi
    rw [hu] at hi
    refine ⟨⟨segs[i]⟩, ?_, ?_, ?_, ?_⟩
    · rw [h.lay.slots i (by omega), List.getElem?_eq_getElem hi]
      rfl
    · exact (h.shape.1 segs[i].length (List.mem_map_of_mem _ (List.getElem_mem _))).1
    · exact (h.shape.1 segs[i].length (List.mem_map_of_mem _ (List.getElem_mem _))).2
    · intro h0 h1
      rw [hu] at h1
      have := h.shape.inner_full h0 (by simpa using h1)
      simpa [hi] using this
  · intro i hi hlt
    rw [hu] at hi
    rw [h.lay.slots i hlt, List.getElem?_eq_none (by omega)]
    rfl

/-- C16: in every deque reachable from `New()` every segment in use (the slots `BeginFi`,
`BeginFi + 1`, ... circularly, `segUsed()` of them) is present and holds between 1 and
`SegmentCapacity` elements, every one other than the first and the last holds exactly
`SegmentCapacity`, every directory slot outside that range is nil, and for every
`0 ≤ p < Size()` the resolution `pos(p)` returns a segment index below `segUsed()` and an
offset below the count of that segment. -/
theorem Layout_spec [Inhabited V] (d : Deque V) (hd : Reachable d) :
    (∀ i, i < d.segUsed →
        ∃ s : Segment V, d.Segs[(d.BeginFi + i) % d.Segs.length]? = some (some s)
          ∧ 1 ≤ s.size ∧ s.size ≤ SegmentCapacity
          ∧ (0 < i → i + 1 < d.segUsed → s.size = SegmentCapacity))
      ∧ (∀ i, d.segUsed ≤ i → i < d.Segs.length →
        d.Segs[(d.BeginFi + i) % d.Segs.length]? = some none)
      ∧ (∀ p : Nat, p < d.Size →
        ∃ (seg off : Nat) (s : Segment V), d.pos p = .ok (seg, off) ∧ seg < d.segUsed
          ∧ d.segmentAt (seg : Int) = .ok (some s) ∧ off < s.size) := by
  rcases hd.valid with ⟨hz, -⟩ | ⟨segs, hinv, hfl⟩
  · have hu := segUsed_zero d hz.2.2.2
    refine ⟨fun i hi => ?_, fun i _ hlt => ?_, fun p hp => ?_⟩
    · rw [hu] at hi
      omega
    · rw [hz.1] at hlt
      simp at hlt
    · simp only [Deque.Size, hz.2.2.2] at hp
      omega
  · refine ⟨hinv.layout.1, hinv.layout.2, fun p hp => ?_⟩
    simp only [Deque.Size, hinv.size] at hp
    obtain ⟨P, s, R, o, rfl, ho, rfl⟩ := locate segs p hp
    refine ⟨P.length, o, ⟨s⟩, hinv.pos_eq ho, ?_, hinv.lay.segmentAt_mid, ho⟩
    rw [hinv.used_eq]
    simp

/-- C17, amended: every deque reachable from `New()`, and so the deque every public mutating
operation leaves, has a directory with strictly more slots than segments in use, unless its
directory is the unallocated one of `New()`: no slot, no segment in use, `BeginFi`, `EndFi`
and `Size()` zero.  A deque that holds an element is never in that state, so every push
leaves the strict inequality. -/
theorem Capacity_spec [Inhabited V] (d : Deque V) (hd : Reachable d) :
    (d.segUsed < d.Segs.length
        ∨ (d.Segs = [] ∧ d.BeginFi = 0 ∧ d.EndFi = 0 ∧ d.Size = 0 ∧ d.segUsed = 0))
      ∧ (d.Size ≠ 0 → d.segUsed < d.Segs.length)
      ∧ (∀ op d', step d op = .ok d' →
          (d'.segUsed < d'.Segs.length
            ∨ (d'.Segs = [] ∧ d'.BeginFi = 0 ∧ d'.EndFi = 0 ∧ d'.Size = 0 ∧ d'.segUsed = 0))
          ∧ (d'.Size ≠ 0 → d'.segUsed < d'.Segs.length))
      ∧ (∀ v, ∃ d', d.PushFront v = .ok d' ∧ d'.segUsed < d'.Segs.length)
      ∧ (∀ v, ∃ d', d.PushBack v = .ok d' ∧ d'.segUsed < d'.Segs.length) := by
  have key : ∀ (e : Deque V) (L : List V), Valid e L →
      (e.segUsed < e.Segs.length
        ∨ (e.Segs = [] ∧ e.BeginFi = 0 ∧ e.EndFi = 0 ∧ e.Size = 0 ∧ e.segUsed = 0))
      ∧ (e.Size ≠ 0 → e.segUsed < e.Segs.length) := by
    intro e L he
    have h1 := he.segUsed_lt
    refine ⟨h1, fun hne => ?_⟩
    rcases h1 with h1 | h1
    · exact h1
    · exact absurd h1.2.2.2.1 hne
  have hv := hd.valid
  refine ⟨(key d _ hv).1, (key d _ hv).2, fun op d' hstep => key d' _ (step_valid hv op hstep),
    fun v => ?_, fun v => ?_⟩
  · obtain ⟨d', h1, h2⟩ := PushFront_valid hv v
    refine ⟨d', h1, (key d' _ h2).2 ?_⟩
    simp only [Deque.Size]
    rw [h2.size_eq]
    simp
  · obtain ⟨d', h1, h2⟩ := PushBack_valid hv v
    refine ⟨d', h1, (key d' _ h2).2 ?_⟩
    simp only [Deque.Size]
    rw [h2.size_eq]
    simp

/-- C18: in every deque reachable from `New()`, `Size()` is the sum of the element counts of
the segments in use (also the length of their concatenation), `Size() == 0` holds exactly
when no directory slot holds a segment, `Empty()` is true exactly when `Size() == 0`, and
`segUsed()` is the number of directory slots that hold a segment. -/
theorem Size_spec [Inhabited V] (d : Deque V) (hd : Reachable d) :
    (∃ segs : List (Segment V), segs.length = d.segUsed
        ∧ (∀ i, i < segs.length →
            d.Segs[(d.BeginFi + i) % d.Segs.length]? = some (segs[i]?))
        ∧ d.Size = (segs.map Segment.size).sum)
      ∧ d.Size = d.toList.length
      ∧ (d.Size = 0 ↔ ∀ x ∈ d.Segs, x = none)
      ∧ (d.Empty = true ↔ d.Size = 0)
      ∧ d.Segs.countP Option.isSome = d.segUsed := by
  have hv := hd.valid
  have hcount := hv.count_isSome
  refine ⟨?_, hv.size_eq, ⟨fun h0 => ?_, fun hall => ?_⟩, by simp [Deque.Empty, Deque.Size],
    hcount⟩
  · rcases hv with ⟨hz, -⟩ | ⟨segs, hinv, -⟩
    · exact ⟨[], (segUsed_zero d hz.2.2.2).symm, fun i hi => by simp at hi,
        by simp [Deque.Size, hz.2.2.2]⟩
    · refine ⟨segs.map Segment.mk, by simp [hinv.used_eq], fun i hi => ?_, ?_⟩
      · have hi' : i < d.Segs.length := by
          have := hinv.strict
          simp only [List.length_map] at hi
          omega
        rw [hinv.lay.slots i hi']
        simp
      · simp only [Deque.Size, hinv.size, List.length_flatten, List.map_map]
        rfl
  · have hnil : d.toList = [] := by
      apply List.length_eq_zero.mp
      rw [← hv.size_eq]
      exact h0
    rw [hnil] at hv
    exact hv.all_none
  · have h0 : d.Segs.countP Option.isSome = 0 := by
      rw [List.countP_eq_zero]
      intro x hx
      rw [hall x hx]
      simp
    rw [hcount] at h0
    rcases hv with ⟨hz, -⟩ | ⟨segs, hinv, -⟩
    · exact hz.2.2.2
    · rw [hinv.used_eq] at h0
      have hnil : segs = [] := List.length_eq_zero.mp h0
      simp [Deque.Size, hinv.size, hnil]

/-- C19, amended: for every reachable non-empty deque, `PopFront()` and `PopBack()` return;
the directory is reallocated to half its capacity, with `BeginFi = 0`, `EndFi` the number of
segments in use and the elements in their order, exactly when
`int(float64(segUsed() * 2) * 1.2) < capacity`, that is `2.4 × segmentsInUse < capacity`,
holds for the segment count after the pop and the capacity before it; otherwise the capacity
is left unchanged. -/
theorem Shrink_spec [Inhabited V] (d : Deque V) (hd : Reachable d) (hne : d.Size ≠ 0) :
    d.Segs.length / 2 < d.Segs.length
      ∧ (∃ x d', d.PopFront = .ok (x, d') ∧ d'.toList = d.toList.tail
        ∧ (d'.segUsed * 2 * 6 / 5 < d.Segs.length →
            d'.Segs.length = d.Segs.length / 2 ∧ d'.BeginFi = 0 ∧ d'.EndFi = d'.segUsed)
        ∧ (¬ d'.segUsed * 2 * 6 / 5 < d.Segs.length → d'.Segs.length = d.Segs.length))
      ∧ (∃ y d', d.PopBack = .ok (y, d') ∧ d'.toList = d.toList.dropLast
        ∧ (d'.segUsed * 2 * 6 / 5 < d.Segs.length →
            d'.Segs.length = d.Segs.length / 2 ∧ d'.BeginFi = 0 ∧ d'.EndFi = d'.segUsed)
        ∧ (¬ d'.segUsed * 2 * 6 / 5 < d.Segs.length → d'.Segs.length = d.Segs.length)) := by
  have hv := hd.valid
  have hsz := hv.size_eq
  simp only [Deque.Size] at hne
  generalize d.toList = L at hv hsz
  have hLne : L ≠ [] := by
    rintro rfl
    exact hne hsz
  refine ⟨?_, ?_, ?_⟩
  · obtain ⟨segs, hinv, hfl⟩ := hv.inv_of_ne_nil hLne
    have hpos := hinv.cap_pos
    omega
  · rcases L with _ | ⟨x, rest⟩
    · exact absurd rfl hLne
    · obtain ⟨d', h1, h2, -, h4, h5⟩ := PopFront_valid_cap hv
      exact ⟨x, d', h1, by rw [h2.toList_eq]; rfl, h4, h5⟩
  · rcases List.eq_nil_or_concat L with rfl | ⟨init, y, rfl⟩
    · exact absurd rfl hLne
    · obtain ⟨d', h1, h2, -, h4, h5⟩ := PopBack_valid_cap (L := init) (by simpa using hv)
      exact ⟨y, d', h1, by rw [h2.toList_eq]; simp, h4, h5⟩

/-- C20, amended: for every reachable deque whose directory has more than 8 slots, if a
`PopFront()` or `PopBack()` reduces `len(Segs)`, then a `PushFront` or `PushBack` on the
result returns and leaves `len(Segs)` as the pop left it. -/
theorem Hysteresis_spec [Inhabited V] (d : Deque V) (hd : Reachable d)
    (hcap : 8 < d.Segs.length) (x : V) (d1 : Deque V)
    (hpop : d.PopFront = .ok (x, d1) ∨ d.PopBack = .ok (x, d1))
    (hshrink : d1.Segs.length < d.Segs.length) (v : V) :
    (∃ d2, d1.PushFront v = .ok d2 ∧ d2.Segs.length = d1.Segs.length)
      ∧ (∃ d2, d1.PushBack v = .ok d2 ∧ d2.Segs.length = d1.Segs.length) := by
  have hv := hd.valid
  have hsz := hv.size_eq
  generalize d.toList = L at hv hsz
  obtain ⟨segs, hinv, -⟩ := hv.inv_of_cap (by omega)
  obtain ⟨h16, heven⟩ := pow2_large hinv.pow2 hcap
  have key : ∃ L1, Valid d1 L1 ∧ 0 < d1.Segs.length
      ∧ d1.segUsed * 2 * 6 / 5 < d.Segs.length ∧ d1.Segs.length = d.Segs.length / 2 := by
    rcases hpop with hp | hp
    · rcases L with _ | ⟨x', rest⟩
      · rw [Pop_empty_front d (by simpa using hsz)] at hp
        cases hp
        omega
      · obtain ⟨d', h1, h2, h3, h4, h5⟩ := PopFront_valid_cap hv
        rw [h1] at hp
        cases hp
        by_cases hf : d1.segUsed * 2 * 6 / 5 < d.Segs.length
        · exact ⟨rest, h2, h3, hf, (h4 hf).1⟩
        · have := h5 hf
          omega
    · rcases List.eq_nil_or_concat L with rfl | ⟨init, y, rfl⟩
      · rw [Pop_empty_back d (by simpa using hsz)] at hp
        cases hp
        omega
      · obtain ⟨d', h1, h2, h3, h4, h5⟩ := PopBack_valid_cap (L := init) (by simpa using hv)
        rw [h1] at hp
        cases hp
        by_cases hf : d1.segUsed * 2 * 6 / 5 < d.Segs.length
        · exact ⟨init, h2, h3, hf, (h4 hf).1⟩
        · have := h5 hf
          omega
  obtain ⟨L1, hv1, hpos1, hfire, hhalf⟩ := key
  constructor
  · obtain ⟨d2, e1, -, e3, e4⟩ := PushFront_valid_cap hv1 hpos1 v
    exact ⟨d2, e1, e4 (by omega)⟩
  · obtain ⟨d2, e1, -, e3, e4⟩ := PushBack_valid_cap hv1 hpos1 v
    exact ⟨d2, e1, e4 (by omega)⟩

/-- X2: for every reachable deque and every rendering function, `String()` returns `"["`,
then the renderings of the elements from the first non-empty rendering on, joined by one
space between each two consecutive ones, then `"]"`; when the first element does not render
as the empty string this is the rendering of all the elements. -/
theorem String_exact [Inhabited V] (d : Deque V) (hd : Reachable d) (render : V → String) :
    d.String render
        = .ok ("[" ++ joinSpace ((d.toList.map render).dropWhile (fun r => r == "")) ++ "]")
      ∧ ((∀ x ∈ d.toList.head?, render x ≠ "") →
        d.String render = .ok ("[" ++ joinSpace (d.toList.map render) ++ "]")) := by
  have h := String_valid render hd.valid
  refine ⟨h, fun hfirst => ?_⟩
  rw [h]
  rcases hL : d.toList with _ | ⟨x, rest⟩
  · rfl
  · have hx : (render x == "") = false := by
      have := hfirst x (by rw [hL]; rfl)
      simpa using this
    simp only [List.map_cons, List.dropWhile_cons, hx, Bool.false_eq_true, if_false]

set_option maxRecDepth 1000000 in
theorem wide_run : run (pushBacks 897 ++ [Op.eraseRange 769 897]) New = .ok wide := by
  decide!

theorem wide_reachable : Reachable wide := ⟨_, wide_run⟩

theorem example1_reachable : Reachable example1 := stateAfter_reachable _ (by decide)

/-- C11 at the example `[0 1 2 3 99 4 5 6 7 8]`: `Front()` and `At(0)` return 0, `Back()` and
`At(9)` return 8; on `New()` neither `Front()` nor `Back()` returns. -/
theorem FrontBack_spec_witness :
    example1.Front = .ok 0 ∧ example1.At 0 = .ok 0 ∧ example1.Back = .ok 8
      ∧ example1.At 9 = .ok 8
      ∧ (New : Deque Nat).Front = .error .nilSegment
      ∧ (New : Deque Nat).Back = .error .nilSegment := by
  obtain ⟨x, y, h1, h2, h3, h4⟩ := (FrontBack_spec example1 example1_reachable).1 (by decide)
  have hx : example1.Front = .ok 0 := by decide
  have hy : example1.Back = .ok 8 := by decide
  have ex : x = 0 := by
    rw [hx] at h1
    cases h1
    rfl
  have ey : y = 8 := by
    rw [hy] at h3
    cases h3
    rfl
  subst ex ey
  have hN := (FrontBack_spec (New : Deque Nat) ⟨[], rfl⟩).2 rfl
  exact ⟨h1, h2, h3, h4, hN.1, hN.2⟩

/-- C13 at the example: `Clear()` on `[0 1 2 3 99 4 5 6 7 8]` leaves an empty deque with no
segment in its directory. -/
theorem Clear_spec_witness :
    example1.Size = 10
      ∧ ∃ d', example1.Clear = .ok d' ∧ d'.Size = 0 ∧ d'.Empty = true ∧ d'.toList = []
        ∧ ∀ x ∈ d'.Segs, x = none :=
  ⟨by decide, (Clear_spec example1 example1_reachable).2⟩

/-- C14 as stated fails on `New()`: `Front()` and `Back()` call a method through the nil
segment pointer. -/
theorem Front_faults_on_New :
    Reachable (New : Deque Nat) ∧ (New : Deque Nat).Size = 0
      ∧ (New : Deque Nat).Front = .error .nilSegment
      ∧ (New : Deque Nat).Back = .error .nilSegment :=
  ⟨⟨[], rfl⟩, rfl, rfl, rfl⟩

/-- C14, amended, at the example `[0 1 2 3 99 4 5 6 7 8]`: the calls return; on `New()`
`Front()` and `Back()` end in the call through the nil segment pointer. -/
theorem NoFault_spec_witness :
    (∀ v, ∃ d', example1.PushFront v = .ok d') ∧ (∃ r, example1.PopBack = .ok r)
      ∧ (∀ (pos : Int) (v : Nat),
        (∃ d', example1.Insert pos v = .ok d')
          ∨ example1.Insert pos v = .error .segmentContract)
      ∧ (∃ x, example1.Front = .ok x) ∧ (∀ pos, ∃ x, example1.At pos = .ok x)
      ∧ (∀ first last, ∃ d', example1.EraseRange first last = .ok d')
      ∧ (∃ s, example1.String Nat.repr = .ok s)
      ∧ (New : Deque Nat).Front = .error .nilSegment
      ∧ (New : Deque Nat).Back = .error .nilSegment := by
  obtain ⟨h1, -, h3, -, h5, -, h7, -, -, h10, -, h12, -, h14⟩ :=
    NoFault_spec example1 example1_reachable
  obtain ⟨-, -, -, -, -, n6, -⟩ := NoFault_spec (New : Deque Nat) ⟨[], rfl⟩
  exact ⟨h1, h10, h3, (h5 (by decide)).1, h7, h12, h14 Nat.repr, (n6 rfl).1, (n6 rfl).2⟩

/-- C16 at a deque of seven segments: the second segment holds `SegmentCapacity` elements,
the eighth slot is nil, and position 300 resolves inside the third segment. -/
theorem Layout_spec_witness :
    wide.segUsed = 7
      ∧ (∃ s : Segment Nat, wide.Segs[(wide.BeginFi + 1) % wide.Segs.length]? = some (some s)
        ∧ 1 ≤ s.size ∧ s.size ≤ SegmentCapacity
        ∧ (0 < 1 → 1 + 1 < wide.segUsed → s.size = SegmentCapacity))
      ∧ wide.Segs[(wide.BeginFi + 7) % wide.Segs.length]? = some none
      ∧ ∃ (seg off : Nat) (s : Segment Nat), wide.pos 300 = .ok (seg, off)
        ∧ seg < wide.segUsed ∧ wide.segmentAt (seg : Int) = .ok (some s) ∧ off < s.size := by
  have h := Layout_spec wide wide_reachable
  have hu : wide.segUsed = 7 := by decide
  exact ⟨hu, h.1 1 (by rw [hu]; decide), h.2.1 7 (by rw [hu]) (by decide),
    h.2.2 300 (by decide)⟩

/-- C17 as stated fails on `New()`: after `PopFront()` the directory has 0 slots and 0
segments in use. -/
theorem Capacity_counterexample :
    Reachable (New : Deque Nat) ∧ step (New : Deque Nat) Op.popFront = .ok New
      ∧ step (New : Deque Nat) Op.clear = .ok New
      ∧ (New : Deque Nat).Segs.length = 0 ∧ (New : Deque Nat).segUsed = 0 :=
  ⟨⟨[], rfl⟩, rfl, rfl, rfl, rfl⟩

/-- C17, amended, at the example: after `PopBack()` on `[0 1 2 3 99 4 5 6 7 8]` one segment
is in use in a directory of two slots. -/
theorem Capacity_spec_witness :
    step example1 Op.popBack = .ok (afterPopBack example1)
      ∧ (afterPopBack example1).segUsed = 1 ∧ (afterPopBack example1).Segs.length = 2
      ∧ (afterPopBack example1).segUsed < (afterPopBack example1).Segs.length := by
  have hstep : step example1 Op.popBack = .ok (afterPopBack example1) := by decide
  have h := ((Capacity_spec example1 example1_reachable).2.2.1 Op.popBack
    (afterPopBack example1) hstep).2 (by decide)
  exact ⟨hstep, by decide, by decide, h⟩

/-- C18 at a deque of seven segments: `Size()` is 769, the sum of the counts, seven slots
hold a segment and `Empty()` is false. -/
theorem Size_spec_witness :
    wide.Size = 769 ∧ wide.Size = wide.toList.length
      ∧ wide.Segs.countP Option.isSome = wide.segUsed ∧ wide.segUsed = 7
      ∧ (wide.Empty = true ↔ wide.Size = 0) := by
  have h := Size_spec wide wide_reachable
  exact ⟨rfl, h.2.1, h.2.2.2.2, by decide, h.2.2.2.1⟩

/-- C12, evaluated: on the deque of the strings `""` and `"a"`, rendered as they are,
`String()` returns `"[a]"`; the two renderings joined by one space between brackets are
`"[ a]"`.  The loop takes the string `"["` for the sign that no element was written yet, so
an empty first rendering loses its separator. -/
theorem String_defect :
    (run [Op.pushBack "", Op.pushBack "a"] New).map
        (fun d => (d.toList, d.String (fun x => x)))
      = .ok (["", "a"], .ok "[a]")
      ∧ "[" ++ joinSpace ["", "a"] ++ "]" = "[ a]" := by
  decide

set_option maxRecDepth 100000 in
set_option synthInstance.maxSize 1024 in
/-- C15, evaluated: after `PushBack` of 0..256 and two `PopFront`, the first segment holds
126 elements and position 126 resolves to segment 1, offset 0; `moveFrontInsert(1, 0, v)`
rewrites this to segment 0, offset `SegmentCapacity - 1 = 127` and its call
`segmentAt(0).insert(127, v)` is beyond the count, where `insert(126, v)` is not. -/
theorem Segment_index_defect :
    (run (pushBacks 257 ++ [Op.popFront, Op.popFront]) New).map
        (fun d => ((d.segmentAt 0).map (Option.map Segment.size), d.pos 126,
          d.moveFrontInsert 1 0 999, (d.insertAt 0 (SegmentCapacity - 1) 999).isOk,
          (d.insertAt 0 126 999).isOk))
      = .ok (.ok (some 126), .ok (1, 0), .error Fault.segmentContract, false, true) := by
  decide!

/-- C19 as stated fails after `PushBack(0)`, `PushBack(1)`: `PopBack()` leaves one segment
in use and `1.2 × 1 < 2` holds (`6 × 1 < 5 × 2`), yet the directory keeps its 2 slots. -/
theorem Shrink_rule_counterexample :
    (run [Op.pushBack 0, Op.pushBack 1] New).map
        (fun d => (d.Size, d.Segs.length,
          d.PopBack.map (fun r => (r.1, r.2.segUsed, r.2.Segs.length))))
      = .ok (2, 2, .ok (1, 1, 2))
      ∧ 6 * 1 < 5 * 2 := by
  decide

/-- C19, amended, on `[0]`: `PopFront()` leaves no segment in use, `int(0 × 1.2) < 2`, and
the directory is reallocated from 2 slots to 1. -/
theorem Shrink_spec_witness :
    (stateAfter [Op.pushBack 0]).Segs.length = 2
      ∧ (afterPopFront (stateAfter [Op.pushBack 0])).segUsed = 0
      ∧ (afterPopFront (stateAfter [Op.pushBack 0])).Segs.length = 1
      ∧ ∃ x d', (stateAfter [Op.pushBack 0]).PopFront = .ok (x, d')
        ∧ d'.toList = (stateAfter [Op.pushBack 0]).toList.tail
        ∧ (d'.segUsed * 2 * 6 / 5 < (stateAfter [Op.pushBack 0]).Segs.length →
          d'.Segs.length = (stateAfter [Op.pushBack 0]).Segs.length / 2 ∧ d'.BeginFi = 0
            ∧ d'.EndFi = d'.segUsed)
        ∧ (¬ d'.segUsed * 2 * 6 / 5 < (stateAfter [Op.pushBack 0]).Segs.length →
          d'.Segs.length = (stateAfter [Op.pushBack 0]).Segs.length) :=
  ⟨by decide, by decide, by decide,
    (Shrink_spec (stateAfter [Op.pushBack 0]) (stateAfter_reachable _ (by decide))
      (by decide)).2.1⟩

set_option maxRecDepth 1000000 in
set_option synthInstance.maxSize 1024 in
/-- C20 as stated fails: after `PushBack(0)` the directory has 2 slots, `PopBack()` shrinks
it to 1 and the next `PushBack` grows it to 2 again; after `PushBack` of 0..128 the same
happens between 4 and 2 slots, and after `PushBack` of 0..384 between 8 and 4 slots. -/
theorem Hysteresis_counterexample :
    (run [Op.pushBack 0] New).map
        (fun d => (d.Segs.length, d.PopBack.map
          (fun r => (r.2.Segs.length, (r.2.PushBack 0).map (fun e => e.Segs.length)))))
      = .ok (2, .ok (1, .ok 2))
      ∧ (run (pushBacks 129) New).map
        (fun d => (d.Segs.length, d.PopBack.map
          (fun r => (r.2.Segs.length, (r.2.PushBack 0).map (fun e => e.Segs.length)))))
      = .ok (4, .ok (2, .ok 4))
      ∧ (run (pushBacks 385) New).map
        (fun d => (d.Segs.length, d.PopBack.map
          (fun r => (r.2.Segs.length, (r.2.PushBack 0).map (fun e => e.Segs.length)))))
      = .ok (8, .ok (4, .ok 8)) := by
  decide!

set_option maxRecDepth 1000000 in
/-- C20, amended, at a directory of 16 slots: `PopBack()` on the deque of 769 elements
shrinks the directory to 8 slots and a push at either end leaves it at 8. -/
theorem Hysteresis_spec_witness :
    wide.Segs.length = 16 ∧ wide.PopBack = .ok (768, afterPopBack wide)
      ∧ (afterPopBack wide).Segs.length = 8
      ∧ (∃ d2, (afterPopBack wide).PushFront 5 = .ok d2
        ∧ d2.Segs.length = (afterPopBack wide).Segs.length)
      ∧ (∃ d2, (afterPopBack wide).PushBack 5 = .ok d2
        ∧ d2.Segs.length = (afterPopBack wide).Segs.length) := by
  have hpop : wide.PopBack = .ok (768, afterPopBack wide) := by decide!
  have hlen : (afterPopBack wide).Segs.length = 8 := by decide!
  have hcap : wide.Segs.length = 16 := by decide
  have h := Hysteresis_spec wide wide_reachable (by rw [hcap]; decide) 768 (afterPopBack wide)
    (Or.inr hpop) (by rw [hlen, hcap]; decide) 5
  exact ⟨hcap, hpop, hlen, h.1, h.2⟩

/-- X2 at the example: `PushBack` of 0..8 renders as `"[0 1 2 3 4 5 6 7 8]"`. -/
theorem String_exact_witness :
    (stateAfter (pushBacks 9)).String Nat.repr = .ok "[0 1 2 3 4 5 6 7 8]" := by
  have h := (String_exact (stateAfter (pushBacks 9)) (stateAfter_reachable _ (by decide))
    Nat.repr).2 (by decide)
  rw [h]
  decide

theorem ins_restore (s : List V) (p b : Nat) (hlt : p < s.length) :
    ins p s[p] (s.take p ++ s.drop b) = s.take (p + 1) ++ s.drop b := by
  unfold ins
  have hlen : (s.take p).length = p := by
    rw [List.length_take]
    omega
  rw [List.take_left' hlen, List.drop_left' hlen, List.take_succ,
    List.getElem?_eq_getElem hlt]
  simp only [Option.toList, List.append_assoc, List.singleton_append]

theorem reinsert_valid [Inhabited V] (s : List V) (a b : Nat) (hb : b ≤ s.length) (n : Nat) :
    ∀ (i : Nat) (d : Deque V), a + i + n = b → Valid d (s.take (a + i) ++ s.drop b) →
      (∃ d', reinsert s a n i d = .ok d' ∧ Valid d' s)
        ∨ reinsert s a n i d = .error .segmentContract := by
  induction n with
  | zero =>
    intro i d hsum h
    have hab : a + i = b := by omega
    rw [hab, List.take_append_drop] at h
    exact Or.inl ⟨d, rfl, h⟩
  | succ n ih =>
    intro i d hsum h
    have hlt : a + i < s.length := by omega
    have hlen : a + i ≤ (s.take (a + i) ++ s.drop b).length := by
      simp only [List.length_append, List.length_take, List.length_drop]
      omega
    obtain ⟨c1, c2⟩ := Insert_cases h (a + i) hlen (s.getD (a + i) default)
    by_cases hd : InsertDefect d (a + i)
    · right
      simp only [reinsert, c1 hd, error_bind]
    · obtain ⟨d1, h1, h2⟩ := c2 hd
      have hget : s.getD (a + i) default = s[a + i] := by
        simp [List.getD, List.getElem?_eq_getElem hlt]
      rw [hget, ins_restore s (a + i) b hlt] at h2
      have := ih (i + 1) d1 (by omega) h2
      simpa only [reinsert, h1, ok_bind] using this

/-- X3: for every reachable deque with element sequence `s` and all `0 ≤ a < b ≤ Size()`,
`EraseRange(a, b)` returns the deque of `take a s ++ drop b s`, and the re-insertions
`Insert(a + i, s[a + i])` for `i = 0, ..., b - a - 1` give back a deque with the sequence `s`
and the original `Size()`, unless one of them ends in the call `Segment.insert` made beyond
the count. -/
theorem Inverse_law [Inhabited V] (d : Deque V) (hd : Reachable d) (a b : Nat)
    (hab : a < b) (hb : b ≤ d.Size) :
    ∃ d1, d.EraseRange (a : Int) (b : Int) = .ok d1
      ∧ d1.toList = d.toList.take a ++ d.toList.drop b
      ∧ ((∃ d2, reinsert d.toList a (b - a) 0 d1 = .ok d2 ∧ d2.toList = d.toList
            ∧ d2.Size = d.Size)
        ∨ reinsert d.toList a (b - a) 0 d1 = .error .segmentContract) := by
  have hv := hd.valid
  have hsz := hv.size_eq
  simp only [Deque.Size] at hb ⊢
  obtain ⟨d1, e1, e2⟩ := EraseRange_valid hv a b hab (by omega)
  refine ⟨d1, e1, e2.toList_eq, ?_⟩
  rcases reinsert_valid d.toList a b (by omega) (b - a) 0 d1 (by omega) (by simpa using e2)
    with ⟨d2, r1, r2⟩ | herr
  · exact Or.inl ⟨d2, r1, r2.toList_eq, by rw [r2.size_eq, hsz]⟩
  · exact Or.inr herr

/-- X3 at the example: on `[0 1 2 3 4 5 6 7 8]`, `EraseRange(2, 5)` leaves `[0 1 5 6 7 8]`
and the three re-insertions give `[0 1 2 3 4 5 6 7 8]` back. -/
theorem Inverse_law_witness :
    ∃ d1, (stateAfter (pushBacks 9)).EraseRange 2 5 = .ok d1
      ∧ d1.toList = [0, 1, 5, 6, 7, 8]
      ∧ ∃ d2, reinsert [0, 1, 2, 3, 4, 5, 6, 7, 8] 2 3 0 d1 = .ok d2
        ∧ d2.toList = [0, 1, 2, 3, 4, 5, 6, 7, 8] ∧ d2.Size = 9 := by
  have hl : (stateAfter (pushBacks 9)).toList = [0, 1, 2, 3, 4, 5, 6, 7, 8] := by decide
  have hs : (stateAfter (pushBacks 9)).Size = 9 := by decide
  obtain ⟨d1, e1, e2, h⟩ :=
    Inverse_law (stateAfter (pushBacks 9)) (stateAfter_reachable _ (by decide)) 2 5
      (by decide) (by decide)
  rw [hl] at e2 h
  rw [hs] at h
  have hc : (stateAfter (pushBacks 9)).EraseRange 2 5
      = .ok (stateAfter (pushBacks 9 ++ [Op.eraseRange 2 5])) := by decide
  have hd1 : d1 = stateAfter (pushBacks 9 ++ [Op.eraseRange 2 5]) := by
    have e1' : (stateAfter (pushBacks 9)).EraseRange 2 5 = .ok d1 := e1
    rw [hc] at e1'
    cases e1'
    rfl
  refine ⟨d1, e1, e2, ?_⟩
  rcases h with h | h
  · exact h
  · exfalso
    rw [hd1] at h
    revert h
    decide

end Gostl
